import Mathlib

/-!
# qrc: reading compiled Qt resource archives

A shallow embedding of the Go package `qrc` (files `qrc.go`, `rcc.go`, `reader.go`, and the
enumeration tables of `locale_generate.go`) and theorems about it.

Modelling conventions.

* A byte is a `Fin 256`; a Go `string` is the list of its bytes (`GoString`).
* Unsigned machine integers are `Fin (2 ^ w)`; arithmetic on them is written on the
  underlying naturals with an explicit `% 2 ^ w` wherever the Go expression is evaluated at
  width `w`.  `int` and `int64` values are integers (`Int`).
* The byte source behind an `io.ReaderAt` is an in-memory byte slice (`bytes.Reader`),
  possibly seen through nested `io.SectionReader`s.
* Go `error` values are terms of `GoError`; `fmt.Errorf` keeps its format string and, for
  the walker, the path argument; numeric arguments of messages are not recorded.
* The two decompression codecs are parameters (`Codecs`).
* A `time.Time` is an instant: seconds since the Unix epoch and nanoseconds (`GoTime`).
* A Go map is a list of bindings, the newest first (`mapGet`); the `unicode.IsLetter` loop
  of `Enum.ParseC` is a parameter.
* Recursion in `walk` is bounded by a fuel argument that counts the call depth; `none`
  means the depth bound was reached before the call returned.
-/

namespace Qrc

/-! ## Bytes, strings, errors -/

abbrev Byte := Fin 256

abbrev GoString := List Byte

abbrev U16 := Fin 65536

abbrev U32 := Fin 4294967296

abbrev U64 := Fin 18446744073709551616

/-- Go error values that occur in the package and in its callers. -/
inductive GoError where
  /-- The sentinel `filepath.SkipDir`. -/
  | skipDir
  /-- The sentinel `io.EOF`. -/
  | eof
  /-- The sentinel `io.ErrUnexpectedEOF`. -/
  | unexpectedEOF
  /-- The error of `bytes.Reader.ReadAt` for a negative offset. -/
  | negativeOffset
  /-- Never produced: stands for a `Read` loop that makes no progress. -/
  | noProgress
  /-- Any further error value, e.g. one made by a callback or a codec. -/
  | other (code : Nat)
  /-- The value of `fmt.Errorf(format, ...)` without a `%w` verb. -/
  | errorf (format : String)
  /-- The value of `fmt.Errorf(format, ..., inner)` with a `%w` verb; `path` is the `%q`
  path argument of the walker's messages and empty elsewhere. -/
  | wrapf (format : String) (path : GoString) (inner : GoError)
  deriving DecidableEq, Repr

instance instDecidableEqExcept {ε α : Type} [DecidableEq ε] [DecidableEq α] :
    DecidableEq (Except ε α)
  | .ok a, .ok b =>
    if h : a = b then isTrue (by rw [h]) else isFalse (by intro h2; cases h2; exact h rfl)
  | .error a, .error b =>
    if h : a = b then isTrue (by rw [h]) else isFalse (by intro h2; cases h2; exact h rfl)
  | .ok _, .error _ => isFalse (by intro h; cases h)
  | .error _, .ok _ => isFalse (by intro h; cases h)

/-- The test `err == filepath.SkipDir`. -/
def GoError.isSkipDir : GoError → Bool
  | .skipDir => true
  | _ => false

/-- The test `err == io.EOF`. -/
def GoError.isEOF : GoError → Bool
  | .eof => true
  | _ => false

/-- Big-endian value of a byte sequence. -/
def beUint (bs : List Byte) : Nat :=
  bs.foldl (fun acc b => acc * 256 + b.val) 0

/-- Two's-complement reading of a 32-bit pattern (`int32`). -/
def toInt32 (v : Nat) : Int :=
  if v % 4294967296 < 2147483648 then ((v % 4294967296 : Nat) : Int)
  else ((v % 4294967296 : Nat) : Int) - 4294967296

/-- The bytes of a string constant of the source that holds ASCII characters only. -/
def asciiBytes (s : String) : GoString :=
  s.toList.map (fun c => Fin.ofNat' 256 c.toNat)

/-- Function `strings.Join(elems, sep)`. -/
def stringsJoin (sep : GoString) : List GoString → GoString
  | [] => []
  | [a] => a
  | a :: b :: rest => a ++ sep ++ stringsJoin sep (b :: rest)

/-- Function `strconv.FormatUint(n, 2)`: the binary digits of `n`, most significant first. -/
def formatUintBinary (n : Nat) : GoString :=
  (Nat.toDigits 2 n).map (fun c => Fin.ofNat' 256 c.toNat)

/-! ## Readers: `bytes.Reader`, `io.SectionReader`, `io.LimitedReader`, `io.ReadFull` -/

/-- An `io.ReaderAt`: a byte slice, or a section of another `io.ReaderAt`. -/
inductive ReaderAt where
  | bytes (s : List Byte)
  | sect (r : ReaderAt) (base limit : Int)
  deriving DecidableEq, Repr

def maxInt64 : Int := 9223372036854775807

def maxInt32 : Int := 2147483647

/-- Method `ReadAt(p, off)` with `len(p) = len`: the bytes copied and the error.
`bytes.Reader.ReadAt` and `io.SectionReader.ReadAt`. -/
def ReaderAt.ReadAt : ReaderAt → Int → Nat → List Byte × Option GoError
  | .bytes s, off, len =>
    if off < 0 then ([], some .negativeOffset)
    else if off ≥ (s.length : Int) then ([], some .eof)
    else
      let b := (s.drop off.toNat).take len
      (b, if b.length < len then some .eof else none)
  | .sect r base limit, off, len =>
    if off < 0 ∨ off ≥ limit - base then ([], some .eof)
    else if (len : Int) > limit - (off + base) then
      let res := r.ReadAt (off + base) (limit - (off + base)).toNat
      (res.1, match res.2 with
              | none => some .eof
              | some err => some err)
    else r.ReadAt (off + base) len

/-- An `io.SectionReader` with its read cursor `off`. -/
structure SectionReader where
  r : ReaderAt
  base : Int
  off : Int
  limit : Int
  deriving DecidableEq, Repr

def NewSectionReader (r : ReaderAt) (off n : Int) : SectionReader :=
  { r := r, base := off, off := off,
    limit := if off ≤ maxInt64 - n then n + off else maxInt64 }

/-- A section reader passed where an `io.ReaderAt` is expected. -/
def SectionReader.toReaderAt (s : SectionReader) : ReaderAt :=
  .sect s.r s.base s.limit

/-- Method `(*io.SectionReader).Read(p)` with `len(p) = len`. -/
def SectionReader.Read (s : SectionReader) (len : Nat) :
    (List Byte × Option GoError) × SectionReader :=
  if s.off ≥ s.limit then (([], some .eof), s)
  else
    let res := s.r.ReadAt s.off (if (len : Int) > s.limit - s.off then (s.limit - s.off).toNat else len)
    (res, { s with off := s.off + (res.1.length : Int) })

/-- An `io.LimitedReader` over a section reader. -/
structure LimitedReader where
  R : SectionReader
  N : Int
  deriving DecidableEq, Repr

/-- Method `(*io.LimitedReader).Read(p)` with `len(p) = len`. -/
def LimitedReader.Read (l : LimitedReader) (len : Nat) :
    (List Byte × Option GoError) × LimitedReader :=
  if l.N ≤ 0 then (([], some .eof), l)
  else
    let res := l.R.Read (if (len : Int) > l.N then l.N.toNat else len)
    (res.1, { R := res.2, N := l.N - (res.1.1.length : Int) })

/-- The loop of `io.ReadAtLeast(r, buf, len(buf))`: `acc` holds the `n` bytes read so far.
The loop runs while `n < min && err == nil`; every `Read` of the readers above returns a
byte or an error, so `fuel = min + 1` rounds are never used up. -/
def readFullLoop {ρ : Type} (read : ρ → Nat → (List Byte × Option GoError) × ρ)
    (min : Nat) : Nat → ρ → List Byte → (List Byte × Option GoError) × ρ
  | 0, r, acc => ((acc, some .noProgress), r)
  | fuel + 1, r, acc =>
    if acc.length < min then
      let res := read r (min - acc.length)
      match res.1.2 with
      | none => readFullLoop read min fuel res.2 (acc ++ res.1.1)
      | some err => ((acc ++ res.1.1, some err), res.2)
    else ((acc, none), r)

/-- Function `io.ReadFull(r, buf)` with `len(buf) = len`: the buffer contents or the error. -/
def ReadFull {ρ : Type} (read : ρ → Nat → (List Byte × Option GoError) × ρ)
    (r : ρ) (len : Nat) : Except GoError (List Byte) × ρ :=
  let res := readFullLoop read len (len + 1) r []
  if res.1.1.length ≥ len then (.ok res.1.1, res.2)
  else
    match res.1.2 with
    | some .eof => (.error (if res.1.1.length > 0 then .unexpectedEOF else .eof), res.2)
    | some err => (.error err, res.2)
    | none => (.error .noProgress, res.2)

/-- Function `binary.Read(r, binary.BigEndian, &x)` for a fixed-size `x` of `size` bytes,
  on a section reader: the raw bytes of `x`. -/
def SectionReader.binaryRead (s : SectionReader) (size : Nat) :
    Except GoError (List Byte) × SectionReader :=
  ReadFull SectionReader.Read s size

/-- Function `binary.Read` on a limited reader. -/
def LimitedReader.binaryRead (l : LimitedReader) (size : Nat) :
    Except GoError (List Byte) × LimitedReader :=
  ReadFull LimitedReader.Read l size

/-- Function `ioutil.ReadAll(r)` on a section reader: everything up to the end of the section or of
the source; `io.EOF` is not an error. -/
def SectionReader.ReadAll (s : SectionReader) : List Byte × Option GoError :=
  let res := (s.Read (s.limit - s.off).toNat).1
  (res.1, match res.2 with
          | some .eof => none
          | e => e)

/-! ## Flags (`qrc.go`) -/

abbrev NodeFlag := U16

def NodeFlagNone : NodeFlag := 0

def NodeFlagCompressed : NodeFlag := 1

def NodeFlagDirectory : NodeFlag := 2

def NodeFlagCompressedZstd : NodeFlag := 4

/-- Method `Has` returns true if the provided flag bits are set: `f&v == v`. -/
def NodeFlag.Has (f v : NodeFlag) : Bool :=
  decide (f.val &&& v.val = v.val)

/-- The bits outside the known flags, `f &^ (None | Compressed | Directory | CompressedZstd)`,
at 16 bits. -/
def NodeFlag.remainder (f : NodeFlag) : Nat :=
  f.val &&& (65535 ^^^ (NodeFlagNone.val ||| NodeFlagCompressed.val ||| NodeFlagDirectory.val
    ||| NodeFlagCompressedZstd.val))

/-- Method `Valid` checks if the combination of flags is valid; `none` is the nil error. -/
def NodeFlag.Valid (f : NodeFlag) : Option GoError :=
  if f.remainder ≠ 0 then some (.errorf "flag contains unknown bits %#b")
  else if f.Has NodeFlagCompressed && f.Has NodeFlagCompressedZstd then
    some (.errorf "flag cannot be Compressed and CompressedZstd at the same time")
  else none

/-- Method `String` renders a flag value: the names of the flags `f.Has` reports, then the
unknown bits in binary, joined with "|". -/
def NodeFlag.String (f : NodeFlag) : GoString :=
  let x : List GoString := []
  let x := if f.Has NodeFlagNone then x ++ [asciiBytes "None"] else x
  let x := if f.Has NodeFlagCompressed then x ++ [asciiBytes "Compressed"] else x
  let x := if f.Has NodeFlagDirectory then x ++ [asciiBytes "Directory"] else x
  let x := if f.Has NodeFlagCompressedZstd then x ++ [asciiBytes "CompressedZstd"] else x
  let x := if f.remainder ≠ 0 then x ++ [asciiBytes "0b" ++ formatUintBinary f.remainder] else x
  stringsJoin (asciiBytes "|") x

/-! ## Tree nodes (`qrc.go`) -/

/-- A Qt resource tree node. -/
structure Node where
  NameOffset : U32
  Flags : NodeFlag
  ChildCount : U32
  ChildOffset : U32
  Country : U16
  Language : U16
  DataOffset : U32
  Modified : U64
  Format : Int
  deriving DecidableEq, Repr

def nodeSize (format : Int) : Int :=
  if format ≥ 2 then 14 + 8 else 14

/-- Method `IsDir` returns true if the tree node represents a directory. -/
def Node.IsDir (n : Node) : Bool :=
  n.Flags.Has NodeFlagDirectory

/-- The unsigned integer of width `w` bits read from big-endian bytes. -/
def beFin (w : Nat) (bs : List Byte) : Fin (2 ^ w) :=
  Fin.ofNat' (2 ^ w) (beUint bs)

/-- The result of `ParseNode`: the node or the error, and the reader after the call. -/
abbrev ParseResult := Except GoError Node × SectionReader

/-- The tail of `ParseNode` after the type-dependent fields: the modification time for
format >= 2, then the check that the limited reader is used up. -/
def parseNodeTail (n : Node) (lr : LimitedReader) : ParseResult :=
  if n.Format ≥ 2 then
    match lr.binaryRead 8 with
    | (.error err, lr) => (.error (.wrapf "read mod time: %w" [] err), lr.R)
    | (.ok b, lr) =>
      if lr.N ≠ 0 then (.error (.errorf "bug: should have read %d bytes more"), lr.R)
      else (.ok { n with Modified := beFin 64 b }, lr.R)
  else
    if lr.N ≠ 0 then (.error (.errorf "bug: should have read %d bytes more"), lr.R)
    else (.ok n, lr.R)

/-- Function `ParseNode` reads a Qt resource tree node from the provided reader. -/
def ParseNode (r : SectionReader) (format : Int) : ParseResult :=
  let n : Node := { NameOffset := 0, Flags := 0, ChildCount := 0, ChildOffset := 0,
                    Country := 0, Language := 0, DataOffset := 0, Modified := 0,
                    Format := format }
  if format > 3 then (.error (.errorf "unsupported qrc version %d"), r)
  else
    let lr : LimitedReader := { R := r, N := nodeSize n.Format }
    match lr.binaryRead 4 with
    | (.error err, lr) => (.error (.wrapf "read name offset: %w" [] err), lr.R)
    | (.ok b, lr) =>
      let n := { n with NameOffset := beFin 32 b }
      match lr.binaryRead 2 with
      | (.error err, lr) => (.error (.wrapf "read flags: %w" [] err), lr.R)
      | (.ok b, lr) =>
        let n := { n with Flags := beFin 16 b }
        match n.Flags.Valid with
        | some err => (.error (.wrapf "read flags: %w" [] err), lr.R)
        | none =>
          if n.IsDir then
            match lr.binaryRead 4 with
            | (.error err, lr) => (.error (.wrapf "read dir child count: %w" [] err), lr.R)
            | (.ok b, lr) =>
              let n := { n with ChildCount := beFin 32 b }
              match lr.binaryRead 4 with
              | (.error err, lr) => (.error (.wrapf "read dir child offset: %w" [] err), lr.R)
              | (.ok b, lr) => parseNodeTail { n with ChildOffset := beFin 32 b } lr
          else
            match lr.binaryRead 2 with
            | (.error err, lr) =>
              (.error (.wrapf "read file country qualifier: %w" [] err), lr.R)
            | (.ok b, lr) =>
              let n := { n with Country := beFin 16 b }
              match lr.binaryRead 2 with
              | (.error err, lr) =>
                (.error (.wrapf "read file country qualifier: %w" [] err), lr.R)
              | (.ok b, lr) =>
                let n := { n with Language := beFin 16 b }
                match lr.binaryRead 4 with
                | (.error err, lr) => (.error (.wrapf "read file data offset: %w" [] err), lr.R)
                | (.ok b, lr) => parseNodeTail { n with DataOffset := beFin 32 b } lr

/-- The record layout in the words of the format description: `name_offset` (32 bits),
`flags` (16 bits); then for a directory `child_count` and `child_offset` (32 bits each),
for a file `country`, `language` (16 bits each) and `data_offset` (32 bits); then, for
format >= 2, `modified_millis` (64 bits). All integers are big-endian. -/
def nodeOfBytes (format : Int) (bs : List Byte) : Node :=
  let flags : NodeFlag := beFin 16 ((bs.drop 4).take 2)
  { NameOffset := beFin 32 (bs.take 4)
    Flags := flags
    ChildCount := if flags.Has NodeFlagDirectory then beFin 32 ((bs.drop 6).take 4) else 0
    ChildOffset := if flags.Has NodeFlagDirectory then beFin 32 ((bs.drop 10).take 4) else 0
    Country := if flags.Has NodeFlagDirectory then 0 else beFin 16 ((bs.drop 6).take 2)
    Language := if flags.Has NodeFlagDirectory then 0 else beFin 16 ((bs.drop 8).take 2)
    DataOffset := if flags.Has NodeFlagDirectory then 0 else beFin 32 ((bs.drop 10).take 4)
    Modified := if format ≥ 2 then beFin 64 ((bs.drop 14).take 8) else 0
    Format := format }

/-! ## Names: `unicode/utf16`, `unicode/utf8`, `Node.Name` -/

/-- The 16-bit big-endian units of a byte sequence (`binary.Read` into a `[]uint16`). -/
def beUint16s : List Byte → List Nat
  | b0 :: b1 :: rest => (b0.val * 256 + b1.val) :: beUint16s rest
  | _ => []

/-- The replacement character U+FFFD. -/
def replacementChar : Nat := 65533

/-- Function `utf16.Decode`: the code points of a UTF-16 sequence; a surrogate pair becomes one code
point, a surrogate that is not part of a pair becomes U+FFFD. -/
def utf16Decode : List Nat → List Nat
  | [] => []
  | [r] => if r < 0xd800 ∨ 0xe000 ≤ r then [r] else [replacementChar]
  | r :: r2 :: rest =>
    if r < 0xd800 ∨ 0xe000 ≤ r then r :: utf16Decode (r2 :: rest)
    else if 0xd800 ≤ r ∧ r < 0xdc00 ∧ 0xdc00 ≤ r2 ∧ r2 < 0xe000 then
      ((r - 0xd800) * 1024 + (r2 - 0xdc00) + 0x10000) :: utf16Decode rest
    else replacementChar :: utf16Decode (r2 :: rest)

/-- The UTF-8 bytes of one rune as produced by the conversion `string([]rune)`: a rune that
is a surrogate or above U+10FFFF is encoded as U+FFFD. -/
def encodeRune (r : Nat) : List Byte :=
  if r < 0x80 then [Fin.ofNat r]
  else if r < 0x800 then [Fin.ofNat (0xC0 + r / 64), Fin.ofNat (0x80 + r % 64)]
  else if 0x10FFFF < r ∨ (0xD800 ≤ r ∧ r ≤ 0xDFFF) then [0xEF, 0xBF, 0xBD]
  else if r < 0x10000 then
    [Fin.ofNat (0xE0 + r / 4096), Fin.ofNat (0x80 + r / 64 % 64), Fin.ofNat (0x80 + r % 64)]
  else
    [Fin.ofNat (0xF0 + r / 262144), Fin.ofNat (0x80 + r / 4096 % 64),
     Fin.ofNat (0x80 + r / 64 % 64), Fin.ofNat (0x80 + r % 64)]

/-- The conversion `string(runes)`. -/
def stringOfRunes (rs : List Nat) : GoString :=
  (rs.map encodeRune).flatten

/-- The scan of `utf8.ValidString`, one byte at a time: `need` continuation bytes of the
current sequence are still due, the next of them in the range `lo..hi` (the accept range
of the leading byte), the later ones in `0x80..0xBF`. -/
def validFrom : Nat → Nat → Nat → List Byte → Bool
  | 0, _, _, [] => true
  | _ + 1, _, _, [] => false
  | 0, _, _, b :: rest =>
    if b.val < 0x80 then validFrom 0 0 0 rest
    else if 0xC2 ≤ b.val ∧ b.val ≤ 0xDF then validFrom 1 0x80 0xBF rest
    else if 0xE0 ≤ b.val ∧ b.val ≤ 0xEF then
      validFrom 2 (if b.val = 0xE0 then 0xA0 else 0x80) (if b.val = 0xED then 0x9F else 0xBF) rest
    else if 0xF0 ≤ b.val ∧ b.val ≤ 0xF4 then
      validFrom 3 (if b.val = 0xF0 then 0x90 else 0x80) (if b.val = 0xF4 then 0x8F else 0xBF) rest
    else false
  | need + 1, lo, hi, b :: rest =>
    if lo ≤ b.val ∧ b.val ≤ hi then validFrom need 0x80 0xBF rest else false

/-- Function `utf8.ValidString`: the byte sequence is well-formed UTF-8 (shortest form, no
surrogates, at most U+10FFFF). -/
def ValidString (s : List Byte) : Bool :=
  validFrom 0 0 0 s

/-- Method `Name` reads the name of the file. -/
def Node.Name (n : Node) (names : ReaderAt) : Except GoError GoString :=
  match ((NewSectionReader names (n.NameOffset.val : Int) 2).binaryRead 2).1 with
  | .error err => .error (.wrapf "read length from names at %#x%s: %w" [] err)
  | .ok lb =>
    let length : Nat := beUint lb
    match ((NewSectionReader names (((n.NameOffset.val + 2) % 4294967296 : Nat) : Int) 4).binaryRead
        4).1 with
    | .error err => .error (.wrapf "read hash from names at %#x: %w" [] err)
    | .ok _ =>
      match ((NewSectionReader names (((n.NameOffset.val + 2 + 4) % 4294967296 : Nat) : Int)
          ((length * 2 % 65536 : Nat) : Int)).binaryRead (2 * length)).1 with
      | .error err => .error (.wrapf "read utf16 data from names at %#x (len=%d): %w" [] err)
      | .ok data =>
        let name := stringOfRunes (utf16Decode (beUint16s data))
        if !ValidString name then
          .error (.errorf "name is likely incorrect, is invalid utf8 (%q)")
        else .ok name

/-! ## Children and data of a node (`qrc.go`) -/

/-- The loop of `Node.Children`: parse `count` further records from the shared reader. -/
def parseChildren (format : Int) : Nat → SectionReader → Except GoError (List Node)
  | 0, _ => .ok []
  | count + 1, r =>
    match ParseNode r format with
    | (.error err, _) => .error (.wrapf "parse child (i=%d): %w" [] err)
    | (.ok v, r) =>
      match parseChildren format count r with
      | .error err => .error err
      | .ok c => .ok (v :: c)

/-- Method `Children` gets the children of the tree node. If it is not a directory, an error is
returned. -/
def Node.Children (n : Node) (tree : ReaderAt) : Except GoError (List Node) :=
  if !n.IsDir then .error (.errorf "is a file, not a directory")
  else
    parseChildren n.Format n.ChildCount.val
      (NewSectionReader tree ((n.ChildOffset.val : Int) * nodeSize n.Format)
        ((n.ChildCount.val : Int) * nodeSize n.Format))

/-- An `io.ReadCloser` as seen by `ioutil.ReadAll`: the bytes it yields and the error. -/
abbrev ReadCloser := List Byte × Option GoError

/-- The decompressors `zlib.NewReader` and `zstd.NewReader`: from the contents of the
underlying reader either an error on opening or the decoded stream. -/
structure Codecs where
  zlibNewReader : List Byte × Option GoError → Except GoError ReadCloser
  zstdNewReader : List Byte × Option GoError → Except GoError ReadCloser

/-- Method `Data` opens a reader for the original content of the file, and also returns the
offset/size (relative to the data reader) of the corresponding data in the resource. -/
def Node.Data (codecs : Codecs) (n : Node) (data : ReaderAt) :
    Except GoError (ReadCloser × Int × Int) :=
  if n.IsDir then .error (.errorf "is a directory, not a file")
  else
    match n.Flags.Valid with
    | some err => .error (.wrapf "invalid flags: %w" [] err)
    | none =>
      match ((NewSectionReader data (n.DataOffset.val : Int) 4).binaryRead 4).1 with
      | .error err => .error (.wrapf "read data length: %w" [] err)
      | .ok lb =>
        let length : Nat := beUint lb
        let r := NewSectionReader data ((n.DataOffset.val : Int) + 4) (length : Int)
        if n.Flags.Has NodeFlagCompressed then
          match r.binaryRead 4 with
          | (.error err, _) =>
            .error (.wrapf "read qCompress original size header from zlib data: %w" [] err)
          | (.ok _, r) =>
            match codecs.zlibNewReader r.ReadAll with
            | .error err => .error (.wrapf "open zlib reader: %w" [] err)
            | .ok zr => .ok (zr, (n.DataOffset.val : Int) + 4 + 4, (length : Int))
        else if n.Flags.Has NodeFlagCompressedZstd then
          match codecs.zstdNewReader r.ReadAll with
          | .error err => .error (.wrapf "open zstd reader: %w" [] err)
          | .ok zr => .ok (zr, (n.DataOffset.val : Int) + 4, (length : Int))
        else .ok (r.ReadAll, (n.DataOffset.val : Int) + 4, (length : Int))

/-! ## The RCC header (`rcc.go`) -/

/-- Variable `RCCHeaderMagic` identifies a RCC file: the bytes of "qres". -/
def RCCHeaderMagic : List Byte := [0x71, 0x72, 0x65, 0x73]

/-- The header of a Qt resource file in the binary format. -/
structure RCCHeader where
  Magic : List Byte
  FormatVersion : Int
  TreeOffset : Int
  DataOffset : Int
  NamesOffset : Int
  OverallFlags : Int
  deriving DecidableEq, Repr

/-- Function `ParseRCCHeader` parses the RCC header; the reader after the call is returned too. -/
def ParseRCCHeader (r : SectionReader) : Except GoError RCCHeader × SectionReader :=
  match r.binaryRead 4 with
  | (.error err, r) => (.error (.wrapf "read magic: %w" [] err), r)
  | (.ok magic, r) =>
    if magic ≠ RCCHeaderMagic then (.error (.errorf "invalid magic %#v"), r)
    else
      match r.binaryRead 4 with
      | (.error err, r) => (.error (.wrapf "read format version: %w" [] err), r)
      | (.ok fv, r) =>
        match r.binaryRead 4 with
        | (.error err, r) => (.error (.wrapf "read tree offset: %w" [] err), r)
        | (.ok tr, r) =>
          match r.binaryRead 4 with
          | (.error err, r) => (.error (.wrapf "read data offset: %w" [] err), r)
          | (.ok da, r) =>
            match r.binaryRead 4 with
            | (.error err, r) => (.error (.wrapf "read names offset: %w" [] err), r)
            | (.ok na, r) =>
              let h : RCCHeader :=
                { Magic := magic, FormatVersion := toInt32 (beUint fv),
                  TreeOffset := toInt32 (beUint tr), DataOffset := toInt32 (beUint da),
                  NamesOffset := toInt32 (beUint na), OverallFlags := 0 }
              if h.FormatVersion ≥ 3 then
                match r.binaryRead 4 with
                | (.error err, r) => (.error (.wrapf "read overall flags: %w" [] err), r)
                | (.ok fl, r) =>
                  if h.FormatVersion > 3 then (.error (.errorf "unsupported format version %d"), r)
                  else (.ok { h with OverallFlags := toInt32 (beUint fl) }, r)
              else (.ok h, r)

/-- The header layout in the words of the format description: the magic, then
`format_version`, `tree_offset`, `data_offset`, `names_offset` (signed 32-bit each) and, for
format >= 3, `overall_flags`. All integers are big-endian. -/
def headerOfBytes (bs : List Byte) : RCCHeader :=
  { Magic := bs.take 4
    FormatVersion := toInt32 (beUint ((bs.drop 4).take 4))
    TreeOffset := toInt32 (beUint ((bs.drop 8).take 4))
    DataOffset := toInt32 (beUint ((bs.drop 12).take 4))
    NamesOffset := toInt32 (beUint ((bs.drop 16).take 4))
    OverallFlags := if toInt32 (beUint ((bs.drop 4).take 4)) ≥ 3 then
        toInt32 (beUint ((bs.drop 20).take 4)) else 0 }

/-! ## The reader (`reader.go`) -/

/-- A high-level reader for compiled Qt resources. -/
structure Reader where
  format : Int
  reader : ReaderAt
  treeOffset : Int
  dataOffset : Int
  namesOffset : Int
  root : Node
  deriving DecidableEq, Repr

/-- An entry read by a Reader. -/
structure ReaderEntry where
  v : GoString
  n : Node
  r : Reader
  deriving DecidableEq, Repr

def Reader.tree (r : Reader) : SectionReader :=
  NewSectionReader r.reader r.treeOffset maxInt32

def Reader.data (r : Reader) : SectionReader :=
  NewSectionReader r.reader r.dataOffset maxInt32

def Reader.names (r : Reader) : SectionReader :=
  NewSectionReader r.reader r.namesOffset maxInt32

/-- Function `NewReader` initializes a reader with the provided version and offsets. -/
def NewReader (r : ReaderAt) (formatVersion : Int) (treeOffset dataOffset namesOffset : Int) :
    Except GoError Reader :=
  match (ParseNode (NewSectionReader r treeOffset maxInt32) formatVersion).1 with
  | .error err => .error (.wrapf "parse root node: %w" [] err)
  | .ok n =>
    .ok { format := formatVersion, reader := r, treeOffset := treeOffset,
          dataOffset := dataOffset, namesOffset := namesOffset, root := n }

/-- Function `NewReaderFromRCC` initializes a reader for the provided RCC file. -/
def NewReaderFromRCC (r : ReaderAt) : Except GoError Reader :=
  match (ParseRCCHeader (NewSectionReader r 0 maxInt64)).1 with
  | .error err => .error (.wrapf "parse rcc header: %w" [] err)
  | .ok h => NewReader r h.FormatVersion h.TreeOffset h.DataOffset h.NamesOffset

/-- Method `Name` returns the name of the entry. -/
def ReaderEntry.Name (e : ReaderEntry) : GoString := e.v

/-- Method `IsDir` returns true if the entry represents a directory. -/
def ReaderEntry.IsDir (e : ReaderEntry) : Bool := e.n.IsDir

/-- The second loop of `ReaderEntry.Children`: resolve the name of every child node. -/
def nameChildren (r : Reader) : List Node → Except GoError (List ReaderEntry)
  | [] => .ok []
  | n :: ns =>
    match n.Name r.names.toReaderAt with
    | .error err => .error (.wrapf "parse child %d: read name %w" [] err)
    | .ok v =>
      match nameChildren r ns with
      | .error err => .error err
      | .ok x => .ok ({ v := v, n := n, r := r } :: x)

/-- Method `Children` reads and returns the child entries. If the entry is not a directory, an
error is returned. -/
def ReaderEntry.Children (e : ReaderEntry) : Except GoError (List ReaderEntry) :=
  match e.n.Children e.r.tree.toReaderAt with
  | .error err => .error err
  | .ok n => nameChildren e.r n

/-- Method `Open` opens a reader for the contents of the entry. -/
def ReaderEntry.Open (codecs : Codecs) (e : ReaderEntry) : Except GoError ReadCloser :=
  match e.n.Data codecs e.r.data.toReaderAt with
  | .error err => .error err
  | .ok res => .ok res.1

/-- Function `strings.TrimLeft(s, "/")`. -/
def trimLeftSlash : GoString → GoString
  | [] => []
  | b :: rest => if b = 0x2F then trimLeftSlash rest else b :: rest

/-- The loop of `filepath.Ext` over the reversed path (Unix separator): the reversed
extension without its dot, if a dot comes before any separator. -/
def extRev : List Byte → List Byte → Option (List Byte)
  | [], _ => none
  | b :: rest, acc =>
    if b = 0x2F then none
    else if b = 0x2E then some (b :: acc)
    else extRev rest (b :: acc)

/-- Function `filepath.Ext(path)`: the suffix beginning at the final dot in the final element of
path; it is empty if there is no dot. -/
def filepathExt (path : GoString) : GoString :=
  (extRev path.reverse []).getD []

/-- The bytes of ".rcc". -/
def dotRcc : GoString := [0x2E, 0x72, 0x63, 0x63]

/-! ## The walker (`reader.go`) -/

/-- One invocation of the callback: the arguments `path`, `entry` and `err`. -/
structure Call where
  path : GoString
  entry : ReaderEntry
  err : Option GoError
  deriving DecidableEq, Repr

/-- A `WalkFunc`. The callback is a Go closure and may keep state between invocations; here
its result is a function of the invocations made so far and of the current one. The result
`none` is the nil error. -/
abbrev WalkFunc := List Call → Call → Option GoError

/-- How a call of `walk` ends: it returns an error value (`none` is nil) or it panics. -/
inductive Outcome where
  | ret (err : Option GoError)
  | panic (msg : String)
  deriving DecidableEq, Repr

/-- The result of a call of `walk`: the invocations made so far and the outcome. -/
abbrev WalkResult := List Call × Outcome

/-- Invoke the callback and return: the shape
`if err := fn(..); err != nil { if err == filepath.SkipDir { return nil }; return
fmt.Errorf("walk %q: %w", path, err) }; return nil`. -/
def callAndReturn (fn : WalkFunc) (tr : List Call) (c : Call) : WalkResult :=
  match fn tr c with
  | none => (tr ++ [c], .ret none)
  | some err =>
    if err.isSkipDir then (tr ++ [c], .ret none)
    else (tr ++ [c], .ret (some (.wrapf "walk %q: %w" c.path err)))

/-- The loop `for _, v := range c` of `walk`, with the recursive call as a parameter. -/
def walkChildren (rec : List Call → GoString → ReaderEntry → Option WalkResult)
    (path : GoString) : List ReaderEntry → List Call → Option WalkResult
  | [], tr => some (tr, .ret none)
  | v :: c, tr =>
    match rec tr (trimLeftSlash (path ++ [0x2F] ++ v.Name)) v with
    | none => none
    | some (tr, .panic msg) => some (tr, .panic msg)
    | some (tr, .ret none) => walkChildren rec path c tr
    | some (tr, .ret (some err)) =>
      if err.isSkipDir then
        some (tr, .panic "filepath.SkipDir shouldn't have been returned from walk")
      else if path = [] then some (tr, .ret (some err))
      else some (tr, .ret (some (.wrapf "walk %q: %w" path err)))

/-- The three attempts of `walk` on a nested rcc: open the entry, read it into memory, parse
it as an RCC file. The result is the reader of the nested archive, or the error that
`walk` passes to the callback for the rcc itself. -/
def nestedRCC (codecs : Codecs) (path : GoString) (entry : ReaderEntry) :
    Except GoError Reader :=
  match entry.Open codecs with
  | .error err => .error (.wrapf "walk: open nested rcc %q: %w" path err)
  | .ok d =>
    match d.2 with
    | some err => .error (.wrapf "walk: read nested rcc %q into memory: %w" path err)
    | none =>
      match NewReaderFromRCC (.bytes d.1) with
      | .error err => .error (.wrapf "walk: parse nested rcc %q: %w" path err)
      | .ok r => .ok r

/-- The recursive depth-first helper for Walk. `tr` holds the callback invocations made
before the call; the first argument bounds the depth of the recursion. -/
def walk (codecs : Codecs) (fn : WalkFunc) (rccRecurse : Bool) :
    Nat → List Call → GoString → ReaderEntry → Option WalkResult
  | 0, _, _, _ => none
  | fuel + 1, tr, path, entry =>
    if entry.IsDir then
      match entry.Children with
      | .error err =>
        if path = [] then some (tr, .ret (some err))
        else
          some (callAndReturn fn tr
            { path := path, entry := entry,
              err := some (.wrapf "walk: get children for dir %q: %w" path err) })
      | .ok c =>
        if path ≠ [] then
          match fn tr { path := path, entry := entry, err := none } with
          | some err =>
            if err.isSkipDir then
              some (tr ++ [{ path := path, entry := entry, err := none }], .ret none)
            else
              some (tr ++ [{ path := path, entry := entry, err := none }],
                .ret (some (.wrapf "walk %q: %w" path err)))
          | none =>
            walkChildren (walk codecs fn rccRecurse fuel) path c
              (tr ++ [{ path := path, entry := entry, err := none }])
        else walkChildren (walk codecs fn rccRecurse fuel) path c tr
    else if rccRecurse && decide (filepathExt path = dotRcc) then
      match nestedRCC codecs path entry with
      | .error err => some (callAndReturn fn tr { path := path, entry := entry, err := some err })
      | .ok r =>
        match walk codecs fn rccRecurse fuel tr path { v := entry.v, n := r.root, r := r } with
        | none => none
        | some (tr, .panic msg) => some (tr, .panic msg)
        | some (tr, .ret none) => some (tr, .ret none)
        | some (tr, .ret (some err)) =>
          if err.isSkipDir then
            some (tr, .panic "filepath.SkipDir shouldn't have been returned from walk")
          else some (tr, .ret (some (.wrapf "walk nested rcc %q: %w" path err)))
    else some (callAndReturn fn tr { path := path, entry := entry, err := none })

/-- Method `Walk` calls the provided WalkFunc for each entry in the tree. -/
def Reader.Walk (codecs : Codecs) (r : Reader) (fn : WalkFunc) (rccRecurse : Bool)
    (fuel : Nat) : Option WalkResult :=
  walk codecs fn rccRecurse fuel [] [] { v := [], n := r.root, r := r }

/-! ## Notions used in the statements -/

/-- The codecs that fail to open every stream; used in examples without compressed data. -/
def nullCodecs : Codecs :=
  { zlibNewReader := fun _ => .error (.other 1), zstdNewReader := fun _ => .error (.other 2) }

/-- The callback that always returns nil. -/
def nilFunc : WalkFunc := fun _ _ => none

/-- The error `outer` is `e` as `walk` wraps the error of a callback: under the layer
`fmt.Errorf("walk %q: %w", path, e)` added where the callback returned, and under further
layers `fmt.Errorf("walk %q: %w", ...)`, added by an enclosing directory, or
`fmt.Errorf("walk nested rcc %q: %w", ...)`, added by an enclosing nested archive. -/
inductive Wraps : GoError → GoError → Prop where
  | one (path : GoString) (e : GoError) : Wraps (.wrapf "walk %q: %w" path e) e
  | more (path : GoString) (outer e : GoError) :
      Wraps outer e → Wraps (.wrapf "walk %q: %w" path outer) e
  | nested (path : GoString) (outer e : GoError) :
      Wraps outer e → Wraps (.wrapf "walk nested rcc %q: %w" path outer) e

/-- A finite forest of entries: `cons e kids rest` is a node `e` with children `kids`,
followed by its later siblings `rest`. -/
inductive Forest where
  | nil
  | cons (e : ReaderEntry) (kids : Forest) (rest : Forest)

/-- The entries `es`, in this order, together with everything below them, are the finite
forest: files are leaves, and the listing of a directory succeeds and yields its children. -/
inductive Encodes : List ReaderEntry → Forest → Prop where
  | nil : Encodes [] .nil
  | file (e : ReaderEntry) (es : List ReaderEntry) (rest : Forest) :
      e.IsDir = false → Encodes es rest → Encodes (e :: es) (.cons e .nil rest)
  | dir (e : ReaderEntry) (c es : List ReaderEntry) (kids rest : Forest) :
      e.IsDir = true → e.Children = .ok c → Encodes c kids → Encodes es rest →
      Encodes (e :: es) (.cons e kids rest)

/-- Every name in the forest is non-empty and contains no '/'. -/
def Forest.NamesOK : Forest → Prop
  | .nil => True
  | .cons e kids rest => e.v ≠ [] ∧ (0x2F : Byte) ∉ e.v ∧ kids.NamesOK ∧ rest.NamesOK

/-- The parent's path joined to a name with '/'; just the name below the root. -/
def joinPath (parent name : GoString) : GoString :=
  if parent = [] then name else parent ++ [0x2F] ++ name

/-- The depth-first pre-order listing of a forest below the directory at path `parent`:
every node once, a directory before its children, children in order, each invocation with
a nil error. -/
def Forest.preorder (parent : GoString) : Forest → List Call
  | .nil => []
  | .cons e kids rest =>
    { path := joinPath parent e.v, entry := e, err := none } ::
      (kids.preorder (joinPath parent e.v) ++ rest.preorder parent)

/-- The number of levels of a forest. -/
def Forest.depth : Forest → Nat
  | .nil => 0
  | .cons _ kids rest => max (kids.depth + 1) rest.depth

/-- The tree that `walk` unfolds below an entry at a path is finite: no directory is among
its own descendants, directly or through nested archives. -/
inductive FiniteTree (codecs : Codecs) (rccRecurse : Bool) : GoString → ReaderEntry → Prop where
  | listFails (path : GoString) (e : ReaderEntry) (err : GoError) :
      e.IsDir = true → e.Children = .error err → FiniteTree codecs rccRecurse path e
  | dir (path : GoString) (e : ReaderEntry) (c : List ReaderEntry) :
      e.IsDir = true → e.Children = .ok c →
      (∀ v, v ∈ c → FiniteTree codecs rccRecurse (trimLeftSlash (path ++ [0x2F] ++ v.Name)) v) →
      FiniteTree codecs rccRecurse path e
  | file (path : GoString) (e : ReaderEntry) :
      e.IsDir = false → (rccRecurse && decide (filepathExt path = dotRcc)) = false →
      FiniteTree codecs rccRecurse path e
  | rccFails (path : GoString) (e : ReaderEntry) (err : GoError) :
      e.IsDir = false → (rccRecurse && decide (filepathExt path = dotRcc)) = true →
      nestedRCC codecs path e = .error err → FiniteTree codecs rccRecurse path e
  | rcc (path : GoString) (e : ReaderEntry) (r : Reader) :
      e.IsDir = false → (rccRecurse && decide (filepathExt path = dotRcc)) = true →
      nestedRCC codecs path e = .ok r →
      FiniteTree codecs rccRecurse path { v := e.v, n := r.root, r := r } →
      FiniteTree codecs rccRecurse path e

/-- The invocation that `walk` makes for a directory at a non-empty path: with a nil error
if the directory can be listed, with the listing error otherwise. -/
def dirCall (path : GoString) (e : ReaderEntry) : Call :=
  match e.Children with
  | .error err =>
    { path := path, entry := e,
      err := some (.wrapf "walk: get children for dir %q: %w" path err) }
  | .ok _ => { path := path, entry := e, err := none }


/-! ## Example archives and notions used in the proofs -/

/-- The number of bytes a `Read` of `len` bytes on a limited reader asks of the source. -/
def limitedWant (l : LimitedReader) (len : Nat) : Nat :=
  if ((if (len : Int) > l.N then l.N.toNat else len : Nat) : Int) > l.R.limit - l.R.off then
    (l.R.limit - l.R.off).toNat
  else (if (len : Int) > l.N then l.N.toNat else len)

/-- A node whose name record is at the start of the names region. -/
def nameNode : Node :=
  { NameOffset := 0, Flags := 0, ChildCount := 0, ChildOffset := 0, Country := 0, Language := 0,
    DataOffset := 0, Modified := 0, Format := 1 }

/-- A names region holding one record: length 32768, hash 0, then 32768 units 'a'. -/
def longNameRegion : List Byte :=
  [0x80, 0x00, 0, 0, 0, 0] ++ (List.replicate 32768 [0, 97]).flatten

/-- A names region holding one record: length 1, hash 0, the unpaired surrogate U+D800. -/
def loneSurrogateRegion : List Byte := [0, 1, 0, 0, 0, 0, 0xD8, 0x00]

/-- Codecs that open every stream and pass its bytes through; used where only the offsets
of a compressed entry matter. -/
def passCodecs : Codecs :=
  { zlibNewReader := fun s => .ok s, zstdNewReader := fun s => .ok s }

/-- A file node with the Compressed flag whose data record is at the start of the data
region. -/
def zlibNode : Node :=
  { NameOffset := 0, Flags := 1, ChildCount := 0, ChildOffset := 0, Country := 0, Language := 0,
    DataOffset := 0, Modified := 0, Format := 1 }

/-- A data region holding one record: `byte_length` 6, then the payload: the 4-byte size
hint and two bytes of compressed data. The record ends at offset 10. -/
def zlibRegion : List Byte := [0, 0, 0, 6, 0, 0, 0, 1, 120, 156]

def hostileArchive : List Byte :=
  [0, 0, 0, 0, 0, 2, 0, 0, 0, 1, 0, 0, 0, 0,
   0, 1, 0, 0, 0, 0, 0, 97]

/-- The root record of the hostile archive. -/
def hostileRoot : Node :=
  { NameOffset := 0, Flags := 2, ChildCount := 1, ChildOffset := 0, Country := 0, Language := 0,
    DataOffset := 0, Modified := 0, Format := 1 }

/-- The reader that `NewReader` builds for the hostile archive. -/
def hostileReader : Reader :=
  { format := 1, reader := .bytes hostileArchive, treeOffset := 0, dataOffset := 0,
    namesOffset := 14, root := hostileRoot }

/-- A well-formed archive (format 1). The tree region (offset 0) holds four records: the
root with two children, the directory "d" with one child, the file "f", and the file "g"
in "d". The names region (offset 56) holds the names "d", "f", "g"; the data region
(offset 80) holds the contents "hi" of "f" and three bytes for "g". -/
def sampleArchive : List Byte :=
  [0, 0, 0, 0, 0, 2, 0, 0, 0, 2, 0, 0, 0, 1,
   0, 0, 0, 0, 0, 2, 0, 0, 0, 1, 0, 0, 0, 3,
   0, 0, 0, 8, 0, 0, 0, 0, 0, 0, 0, 0, 0, 0,
   0, 0, 0, 16, 0, 0, 0, 0, 0, 0, 0, 0, 0, 6,
   0, 1, 0, 0, 0, 0, 0, 100, 0, 1, 0, 0, 0, 0, 0, 102, 0, 1, 0, 0, 0, 0, 0, 103,
   0, 0, 0, 2, 104, 105, 0, 0, 0, 3, 1, 2, 3]

/-- The root record of the sample archive. -/
def sampleRoot : Node :=
  { NameOffset := 0, Flags := 2, ChildCount := 2, ChildOffset := 1, Country := 0, Language := 0,
    DataOffset := 0, Modified := 0, Format := 1 }

/-- The reader that `NewReader` builds for the sample archive. -/
def sampleReader : Reader :=
  { format := 1, reader := .bytes sampleArchive, treeOffset := 0, dataOffset := 80,
    namesOffset := 56, root := sampleRoot }

/-- The entry for the root of the sample archive, as `Walk` builds it. -/
def sampleRootEntry : ReaderEntry := { v := [], n := sampleRoot, r := sampleReader }

/-- The entry for the directory "d" of the sample archive. -/
def sampleD : ReaderEntry :=
  { v := [100],
    n := { NameOffset := 0, Flags := 2, ChildCount := 1, ChildOffset := 3, Country := 0,
           Language := 0, DataOffset := 0, Modified := 0, Format := 1 },
    r := sampleReader }

/-- The entry for the file "f" of the sample archive. -/
def sampleF : ReaderEntry :=
  { v := [102],
    n := { NameOffset := 8, Flags := 0, ChildCount := 0, ChildOffset := 0, Country := 0,
           Language := 0, DataOffset := 0, Modified := 0, Format := 1 },
    r := sampleReader }

/-- The entry for the file "d/g" of the sample archive. -/
def sampleG : ReaderEntry :=
  { v := [103],
    n := { NameOffset := 16, Flags := 0, ChildCount := 0, ChildOffset := 0, Country := 0,
           Language := 0, DataOffset := 6, Modified := 0, Format := 1 },
    r := sampleReader }

/-- A path does not begin with '/'. -/
def NoLeadingSlash (p : GoString) : Prop := ∀ rest, p ≠ 0x2F :: rest

/-- The forest below the root of the sample archive. -/
def sampleForest : Forest :=
  .cons sampleD (.cons sampleG .nil .nil) (.cons sampleF .nil .nil)

/-- The callback that prunes the directory "d". -/
def skipD : WalkFunc := fun _ c => if c.path = [100] then some .skipDir else none

/-- Every invocation in the second list, made after those in the first, returned nil or
the `filepath.SkipDir` sentinel. -/
def Quiet (fn : WalkFunc) : List Call → List Call → Prop
  | _, [] => True
  | tr, c :: cs => (∀ e, fn tr c = some e → e.isSkipDir = true) ∧ Quiet fn (tr ++ [c]) cs

/-- What `walk` maintains: the invocations `calls` made by a call of `walk` either all
returned nil or SkipDir, or all but the last did, the last returned another error `e`, and
the call of `walk` returns `e` under one or more layers of `fmt.Errorf`. -/
def WalkInv (fn : WalkFunc) (tr : List Call) (res : WalkResult) : Prop :=
  ∃ calls, res.1 = tr ++ calls ∧
    (Quiet fn tr calls ∨
      ∃ pre c e e', calls = pre ++ [c] ∧ Quiet fn tr pre ∧ fn (tr ++ pre) c = some e ∧
        e.isSkipDir = false ∧ res.2 = .ret (some e') ∧ Wraps e' e)

/-- The callback that fails with an error of its own at the file "d/g". -/
def failAtG : WalkFunc := fun _ c => if c.path = [100, 47, 103] then some (.other 7) else none

/-- The callback that fails with an error of its own at the file "f". -/
def failAtF : WalkFunc := fun _ c => if c.path = [102] then some (.other 9) else none

/-- An RCC file with format version 0: the header (tree at 20, data and names at 34) and a
root directory without children. -/
def versionZeroArchive : List Byte :=
  [0x71, 0x72, 0x65, 0x73, 0, 0, 0, 0, 0, 0, 0, 20, 0, 0, 0, 34, 0, 0, 0, 34,
   0, 0, 0, 0, 0, 2, 0, 0, 0, 0, 0, 0, 0, 0]

/-- An RCC header with format version -1. -/
def versionNegativeHeader : List Byte :=
  [0x71, 0x72, 0x65, 0x73, 0xFF, 0xFF, 0xFF, 0xFF, 0, 0, 0, 20, 0, 0, 0, 34, 0, 0, 0, 34]

/-- An RCC header with format version 3 and overall flags 5. -/
def versionThreeHeader : List Byte :=
  [0x71, 0x72, 0x65, 0x73, 0, 0, 0, 3, 0, 0, 0, 24, 0, 0, 0, 60, 0, 0, 0, 46, 0, 0, 0, 5]

/-- A stream that begins with "xxxx" where the magic should be. -/
def badMagicArchive : List Byte :=
  [0x78, 0x78, 0x78, 0x78, 0, 0, 0, 1, 0, 0, 0, 20, 0, 0, 0, 34, 0, 0, 0, 34,
   0, 0, 0, 0, 0, 2, 0, 0, 0, 0, 0, 0, 0, 0]

/-- A nested RCC file (format 1): the header, the root with one child and the file "y" (tree
at 20), the name "y" (names at 48), the contents "!" of "y" (data at 56). -/
def nestedInner : List Byte :=
  [0x71, 0x72, 0x65, 0x73, 0, 0, 0, 1, 0, 0, 0, 20, 0, 0, 0, 56, 0, 0, 0, 48,
   0, 0, 0, 0, 0, 2, 0, 0, 0, 1, 0, 0, 0, 1,
   0, 0, 0, 0, 0, 0, 0, 0, 0, 0, 0, 0, 0, 0,
   0, 1, 0, 0, 0, 0, 0, 121,
   0, 0, 0, 1, 33]

/-- An archive (format 1) whose root holds the one file "x.rcc" (tree at 0, names at 28);
its contents (data at 44) are the nested RCC file. -/
def nestedOuter : List Byte :=
  [0, 0, 0, 0, 0, 2, 0, 0, 0, 1, 0, 0, 0, 1,
   0, 0, 0, 0, 0, 0, 0, 0, 0, 0, 0, 0, 0, 0,
   0, 5, 0, 0, 0, 0, 0, 120, 0, 46, 0, 114, 0, 99, 0, 99,
   0, 0, 0, 61] ++ nestedInner

/-- The root record of both the outer and the nested archive. -/
def nestedRoot : Node :=
  { NameOffset := 0, Flags := 2, ChildCount := 1, ChildOffset := 1, Country := 0, Language := 0,
    DataOffset := 0, Modified := 0, Format := 1 }

/-- The reader that `NewReader` builds for the outer archive. -/
def nestedOuterReader : Reader :=
  { format := 1, reader := .bytes nestedOuter, treeOffset := 0, dataOffset := 44,
    namesOffset := 28, root := nestedRoot }

/-- The reader that `NewReaderFromRCC` builds for the nested RCC file. -/
def nestedInnerReader : Reader :=
  { format := 1, reader := .bytes nestedInner, treeOffset := 20, dataOffset := 56,
    namesOffset := 48, root := nestedRoot }

/-- The path "x.rcc". -/
def xRccPath : GoString := [120, 46, 114, 99, 99]

/-- The entry for the file "x.rcc" of the outer archive. -/
def xRccEntry : ReaderEntry :=
  { v := xRccPath,
    n := { NameOffset := 0, Flags := 0, ChildCount := 0, ChildOffset := 0, Country := 0,
           Language := 0, DataOffset := 0, Modified := 0, Format := 1 },
    r := nestedOuterReader }

/-- The entry that `walk` builds for the root of the nested archive: the name of "x.rcc", the
nested root record, the nested reader. -/
def xRccRoot : ReaderEntry := { v := xRccPath, n := nestedRoot, r := nestedInnerReader }

/-- The entry for the file "y" of the nested archive. -/
def nestedY : ReaderEntry :=
  { v := [121],
    n := { NameOffset := 0, Flags := 0, ChildCount := 0, ChildOffset := 0, Country := 0,
           Language := 0, DataOffset := 0, Modified := 0, Format := 1 },
    r := nestedInnerReader }

/-- Every invocation in `calls` is for a path strictly below `p`: one that begins with `p`
followed by '/'. -/
def PathsBelow (p : GoString) (calls : List Call) : Prop :=
  ∀ q, q ∈ calls → (p ++ [0x2F]) <+: q.path

/-- Every invocation in `calls` is for the path `p` or for a path strictly below it. -/
def PathsUnder (p : GoString) (calls : List Call) : Prop :=
  ∀ q, q ∈ calls → q.path = p ∨ (p ++ [0x2F]) <+: q.path

/-- No entry of the forest below the directory at path `parent` has a path with the
extension ".rcc". -/
def Forest.NoRcc (parent : GoString) : Forest → Prop
  | .nil => True
  | .cons e kids rest =>
    filepathExt (joinPath parent e.v) ≠ dotRcc ∧ kids.NoRcc (joinPath parent e.v) ∧
      rest.NoRcc parent

/-- An archive (format 1) whose root holds a directory with the empty name and the file
"f". The one child record of the directory lies outside the tree (child offset 9), so the
directory cannot be listed. Tree at 0, names at 42. -/
def emptyNameArchive : List Byte :=
  [0, 0, 0, 0, 0, 2, 0, 0, 0, 2, 0, 0, 0, 1,
   0, 0, 0, 0, 0, 2, 0, 0, 0, 1, 0, 0, 0, 9,
   0, 0, 0, 6, 0, 0, 0, 0, 0, 0, 0, 0, 0, 0,
   0, 0, 0, 0, 0, 0, 0, 1, 0, 0, 0, 0, 0, 102]

/-- The reader that `NewReader` builds for the archive with the empty name. -/
def emptyNameReader : Reader :=
  { format := 1, reader := .bytes emptyNameArchive, treeOffset := 0, dataOffset := 56,
    namesOffset := 42, root := sampleRoot }

/-- The entry for the directory with the empty name. -/
def emptyNameDir : ReaderEntry :=
  { v := [],
    n := { NameOffset := 0, Flags := 2, ChildCount := 1, ChildOffset := 9, Country := 0,
           Language := 0, DataOffset := 0, Modified := 0, Format := 1 },
    r := emptyNameReader }

/-- The entry for the file "f" next to the directory with the empty name. -/
def emptyNameF : ReaderEntry :=
  { v := [102],
    n := { NameOffset := 6, Flags := 0, ChildCount := 0, ChildOffset := 0, Country := 0,
           Language := 0, DataOffset := 0, Modified := 0, Format := 1 },
    r := emptyNameReader }

/-- The error of listing the directory with the empty name. -/
def emptyNameErr : GoError :=
  .wrapf "parse child (i=%d): %w" [] (.wrapf "read name offset: %w" [] .eof)

/-! ## Modification times (`qrc.go`, `reader.go`) -/

/-- The conversion `int64(v)` of an unsigned 64-bit value: two's complement. -/
def toInt64 (v : Nat) : Int :=
  if v % 18446744073709551616 < 9223372036854775808 then ((v % 18446744073709551616 : Nat) : Int)
  else ((v % 18446744073709551616 : Nat) : Int) - 18446744073709551616

/-- A `time.Time` as an instant: the seconds since the Unix epoch and the nanoseconds within
the second. The location and the monotonic clock reading are not part of the instant. -/
structure GoTime where
  sec : Int
  nsec : Int
  deriving DecidableEq, Repr

/-- The zero value `time.Time{}`: January 1, year 1, 00:00:00 UTC. -/
def zeroTime : GoTime := { sec := -62135596800, nsec := 0 }

/-- Function `time.Unix(sec, nsec)`: the time `sec` seconds and `nsec` nanoseconds since
January 1, 1970 UTC; `nsec` outside [0, 999999999] is carried into the seconds. -/
def timeUnix (sec nsec : Int) : GoTime :=
  if nsec < 0 ∨ nsec ≥ 1000000000 then
    let n := nsec.tdiv 1000000000
    let sec := sec + n
    let nsec := nsec - n * 1000000000
    if nsec < 0 then { sec := sec - 1, nsec := nsec + 1000000000 }
    else { sec := sec, nsec := nsec }
  else { sec := sec, nsec := nsec }

/-- Method `IsZero` reports whether the time is the zero time instant. -/
def GoTime.IsZero (t : GoTime) : Bool :=
  decide (t.sec = -62135596800 ∧ t.nsec = 0)

/-- Method `UnixMilli`: the milliseconds elapsed since January 1, 1970 UTC. -/
def GoTime.UnixMilli (t : GoTime) : Int :=
  t.sec * 1000 + t.nsec.tdiv 1000000

/-- Method `ModTime` returns the file modification time for format version >= 2. On older
versions, a zero time is returned. -/
def Node.ModTime (n : Node) : GoTime :=
  if n.Format < 2 ∨ n.Modified = 0 then zeroTime
  else timeUnix (toInt64 (n.Modified.val / 1000)) 0

/-- Method `ModTime` returns the modification time of the entry. -/
def ReaderEntry.ModTime (e : ReaderEntry) : GoTime := e.n.ModTime

/-- A file node of format 2 whose stored modification time is 1500 milliseconds. -/
def modNode : Node :=
  { NameOffset := 0, Flags := 0, ChildCount := 0, ChildOffset := 0, Country := 0, Language := 0,
    DataOffset := 0, Modified := 1500, Format := 2 }

/-! ## The enumeration tables (`locale_generate.go`) -/

/-- The loop of `strings.Split(s, sep)` for a non-empty separator: `cur` holds the current
piece in reverse, `skip` counts the bytes of a separator that are still to be passed over. -/
def splitAux (sep : List Byte) : List Byte → List Byte → Nat → List (List Byte)
  | [], cur, _ => [cur.reverse]
  | _ :: rest, cur, skip + 1 => splitAux sep rest cur skip
  | b :: rest, cur, 0 =>
    if sep.isPrefixOf (b :: rest) then cur.reverse :: splitAux sep rest [] (sep.length - 1)
    else splitAux sep rest (b :: cur) 0

/-- Function `strings.Split(s, sep)` for a non-empty separator. -/
def stringsSplit (s sep : GoString) : List GoString :=
  splitAux sep s [] 0

/-- The value of a run of decimal digits, if the bytes are all digits. -/
def parseDigits : List Byte → Nat → Option Nat
  | [], acc => some acc
  | b :: rest, acc =>
    if 48 ≤ b.val ∧ b.val ≤ 57 then parseDigits rest (acc * 10 + (b.val - 48)) else none

/-- Function `strconv.Atoi(s)`: an optional sign and decimal digits, within the range of a
64-bit `int`; `none` stands for a non-nil error. -/
def strconvAtoi (s : GoString) : Option Int :=
  let neg : Bool := s.head? = some 45
  let digits : List Byte := if s.head? = some 43 ∨ s.head? = some 45 then s.tail else s
  if digits = [] then none
  else
    match parseDigits digits 0 with
    | none => none
    | some n =>
      let v : Int := if neg then -(n : Int) else (n : Int)
      if -9223372036854775808 ≤ v ∧ v ≤ 9223372036854775807 then some v else none

/-- Indexing a Go map held as a list of bindings, the newest first. -/
def mapGet {κ ν : Type} [DecidableEq κ] : List (κ × ν) → κ → Option ν
  | [], _ => none
  | (k', x) :: rest, k => if k' = k then some x else mapGet rest k

/-- The tables of an enumeration of `qlocale.h` (`locale_generate.go`): `Value` maps a name to
its code, `Name` maps a code to its canonical name. -/
structure Enum where
  Value : List (GoString × Int)
  Name : List (Int × GoString)
  deriving DecidableEq, Repr

def NewEnum : Enum := { Value := [], Name := [] }

/-- Method `ParseC` reads one line `name = code,` or `name = other_name,` of the C enum.
`allLetters a` stands for the loop `for _, c := range a` that checks `unicode.IsLetter(c)`.
The result is the error (`none` is nil) and the tables after the call. -/
def Enum.ParseC (allLetters : GoString → Bool) (e : Enum) (line : GoString) :
    Option GoError × Enum :=
  let spl1 := stringsSplit line (asciiBytes " = ")
  if spl1.length ≠ 2 then (some (.errorf "line %q: expected one %q"), e)
  else
    let spl2 := stringsSplit (spl1.getD 1 []) (asciiBytes ",")
    if spl2.length > 2 then (some (.errorf "line %q: expected at most one %q"), e)
    else
      let a := spl1.getD 0 []
      let b := spl2.getD 0 []
      if !allLetters a then (some (.errorf "line %q: bad language %q"), e)
      else
        match mapGet e.Value a with
        | some _ => (some (.errorf "line %q: language %q already seen"), e)
        | none =>
          match strconvAtoi b with
          | some v =>
            (none, { Value := (a, v) :: e.Value,
                     Name := match mapGet e.Name v with
                             | some _ => e.Name
                             | none => (v, a) :: e.Name })
          | none =>
            match mapGet e.Value b with
            | some v => (none, { e with Value := (a, v) :: e.Value })
            | none => (some (.errorf "line %q: invalid value %q"), e)

/-- The name that a line declares: the part before " = ". -/
def lineName (line : GoString) : GoString :=
  (stringsSplit line (asciiBytes " = ")).getD 0 []

/-- The tables after a sequence of `ParseC` calls, one for each line, successful or not. -/
def Enum.parseAll (allLetters : GoString → Bool) : Enum → List GoString → Enum
  | e, [] => e
  | e, line :: rest => Enum.parseAll allLetters (e.ParseC allLetters line).2 rest

/-- The declarations made by a sequence of `ParseC` calls, in order: for each call that
returns nil, the name that the line declares and the code that it got. -/
def Enum.declared (allLetters : GoString → Bool) : Enum → List GoString → List (GoString × Int)
  | _, [] => []
  | e, line :: rest =>
    match (e.ParseC allLetters line).1 with
    | none =>
      (lineName line, (mapGet (e.ParseC allLetters line).2.Value (lineName line)).getD 0) ::
        Enum.declared allLetters (e.ParseC allLetters line).2 rest
    | some _ => Enum.declared allLetters (e.ParseC allLetters line).2 rest

/-- The first name in a list of declarations that was declared with the code `v`. -/
def firstDeclared (v : Int) : List (GoString × Int) → Option GoString
  | [] => none
  | (n, w) :: rest => if w = v then some n else firstDeclared v rest

/-- What `ParseC` maintains, for the declarations `log` made so far: `Value` holds exactly
the declared names with their codes, and `Name` maps each code to the first name declared
with it. -/
def EnumInv (e : Enum) (log : List (GoString × Int)) : Prop :=
  (∀ n v, mapGet e.Value n = some v ↔ (n, v) ∈ log) ∧
    ∀ v, mapGet e.Name v = firstDeclared v log

/-- The lines "A = 1,", "B = 1,", "C = B", "A = 2": two names for the code 1, an alias of the
second, and a line that is refused. -/
def sampleEnumLines : List GoString :=
  [asciiBytes "A = 1,", asciiBytes "B = 1,", asciiBytes "C = B", asciiBytes "A = 2"]

/-! ## Further notions and example archives for the walker -/

/-- A call of `walk` neither panics nor returns the bare `filepath.SkipDir` sentinel. -/
def NoBareSkip (res : WalkResult) : Prop :=
  (∀ msg, res.2 ≠ .panic msg) ∧ ∀ err, res.2 = .ret (some err) → err.isSkipDir = false

/-- What an invocation with the empty path can be: for an entry that is not a directory, with
a nil error, whose name is empty or consists of '/' only. -/
def EmptyPathCall (c : Call) : Prop :=
  c.entry.IsDir = false ∧ c.err = none ∧ trimLeftSlash c.entry.Name = []

/-- The path of an invocation has no leading '/', and it is empty only for an
`EmptyPathCall`. -/
def PathOK (c : Call) : Prop :=
  NoLeadingSlash c.path ∧ (c.path = [] → EmptyPathCall c)

/-- Two results of a callback for the invocation `c` are the same, or `c` is for a file entry
and each result is nil or the `filepath.SkipDir` sentinel. -/
def SameButSkipOnFile (c : Call) (a b : Option GoError) : Prop :=
  a = b ∨ (c.entry.IsDir = false ∧ (a = none ∨ a = some .skipDir) ∧
    (b = none ∨ b = some .skipDir))

/-- An archive (format 1) whose root holds one file with the empty name. Tree at 0, names
at 28. -/
def emptyFileArchive : List Byte :=
  [0, 0, 0, 0, 0, 2, 0, 0, 0, 1, 0, 0, 0, 1,
   0, 0, 0, 0, 0, 0, 0, 0, 0, 0, 0, 0, 0, 0,
   0, 0, 0, 0, 0, 0]

/-- The reader that `NewReader` builds for the archive with the empty-named file. -/
def emptyFileReader : Reader :=
  { format := 1, reader := .bytes emptyFileArchive, treeOffset := 0, dataOffset := 34,
    namesOffset := 28, root := nestedRoot }

/-- The entry for the file with the empty name. -/
def emptyFileEntry : ReaderEntry :=
  { v := [],
    n := { NameOffset := 0, Flags := 0, ChildCount := 0, ChildOffset := 0, Country := 0,
           Language := 0, DataOffset := 0, Modified := 0, Format := 1 },
    r := emptyFileReader }

/-- An archive (format 1) whose root record is a file record. -/
def rootFileArchive : List Byte :=
  [0, 0, 0, 0, 0, 0, 0, 0, 0, 0, 0, 0, 0, 0]

/-- The reader that `NewReader` builds for the archive whose root is a file record. -/
def rootFileReader : Reader :=
  { format := 1, reader := .bytes rootFileArchive, treeOffset := 0, dataOffset := 14,
    namesOffset := 14,
    root := { NameOffset := 0, Flags := 0, ChildCount := 0, ChildOffset := 0, Country := 0,
              Language := 0, DataOffset := 0, Modified := 0, Format := 1 } }

/-- The callback that returns `filepath.SkipDir` for every file and nil for every
directory. -/
def skipFiles : WalkFunc := fun _ c => if c.entry.IsDir then none else some .skipDir

/-! ## Further example archives -/

/-- The first 34 bytes of the archive with the long name: the tree region (the root with one
child, then the file record with its name at 0 and its data at 0), and the head of the one
name record: length 32768, hash 0. -/
def longNameHead : List Byte :=
  [0, 0, 0, 0, 0, 2, 0, 0, 0, 1, 0, 0, 0, 1,
   0, 0, 0, 0, 0, 0, 0, 0, 0, 0, 0, 0, 0, 0,
   0x80, 0x00, 0, 0, 0, 0]

/-- The rest of the archive with the long name: the 32768 code units 'a' of the name, and the
data region with one empty record. -/
def longNameTail : List Byte :=
  (List.replicate 32768 [0, 97]).flatten ++ [0, 0, 0, 0]

/-- The reader that `NewReader` builds for an archive that begins with `longNameHead`: tree
at 0, names at 28, data at 65570. -/
def longNameReaderOf (tail : List Byte) : Reader :=
  { format := 1, reader := .bytes (longNameHead ++ tail), treeOffset := 0, dataOffset := 65570,
    namesOffset := 28, root := nestedRoot }

/-- An archive (format 1) that is well formed: the root holds one file whose name is 32768
times 'a'. Tree at 0, names at 28 (one record of 6 + 65536 bytes), data at 65570 (one empty
record). -/
def longNameArchive : List Byte := longNameHead ++ longNameTail

/-- The reader that `NewReader` builds for the archive with the long name. -/
def longNameReader : Reader := longNameReaderOf longNameTail

/-- The record of the file with the long name. -/
def longNameFile : Node :=
  { NameOffset := 0, Flags := 0, ChildCount := 0, ChildOffset := 0, Country := 0, Language := 0,
    DataOffset := 0, Modified := 0, Format := 1 }

/-- A nested RCC file (format 1) that `NewReaderFromRCC` accepts but whose root cannot be
listed: the header, and the root with one child at record 9, outside the tree. -/
def unlistableInner : List Byte :=
  [0x71, 0x72, 0x65, 0x73, 0, 0, 0, 1, 0, 0, 0, 20, 0, 0, 0, 34, 0, 0, 0, 34,
   0, 0, 0, 0, 0, 2, 0, 0, 0, 1, 0, 0, 0, 9]

/-- An archive (format 1) whose root holds the one file "x.rcc" (tree at 0, names at 28);
its contents (data at 44) are the nested RCC file with the unlistable root. -/
def unlistableOuter : List Byte :=
  [0, 0, 0, 0, 0, 2, 0, 0, 0, 1, 0, 0, 0, 1,
   0, 0, 0, 0, 0, 0, 0, 0, 0, 0, 0, 0, 0, 0,
   0, 5, 0, 0, 0, 0, 0, 120, 0, 46, 0, 114, 0, 99, 0, 99,
   0, 0, 0, 34] ++ unlistableInner

/-- The reader that `NewReader` builds for the outer archive. -/
def unlistableOuterReader : Reader :=
  { format := 1, reader := .bytes unlistableOuter, treeOffset := 0, dataOffset := 44,
    namesOffset := 28, root := nestedRoot }

/-- The reader that `NewReaderFromRCC` builds for the nested RCC file with the unlistable
root. -/
def unlistableInnerReader : Reader :=
  { format := 1, reader := .bytes unlistableInner, treeOffset := 20, dataOffset := 34,
    namesOffset := 34,
    root := { NameOffset := 0, Flags := 2, ChildCount := 1, ChildOffset := 9, Country := 0,
              Language := 0, DataOffset := 0, Modified := 0, Format := 1 } }

/-- The entry for the file "x.rcc" of the outer archive. -/
def unlistableEntry : ReaderEntry :=
  { v := xRccPath,
    n := { NameOffset := 0, Flags := 0, ChildCount := 0, ChildOffset := 0, Country := 0,
           Language := 0, DataOffset := 0, Modified := 0, Format := 1 },
    r := unlistableOuterReader }

/-- The entry that `walk` builds for the unlistable root of the nested archive. -/
def unlistableRoot : ReaderEntry :=
  { v := xRccPath, n := unlistableInnerReader.root, r := unlistableInnerReader }

/-! ## Readers -/

theorem ReadAt_bytes_eq (s : List Byte) (off : Int) (len : Nat) :
    (ReaderAt.bytes s).ReadAt off len =
      if off < 0 then ([], some .negativeOffset)
      else if off ≥ (s.length : Int) then ([], some .eof)
      else ((s.drop off.toNat).take len,
            if ((s.drop off.toNat).take len).length < len then some .eof else none) := rfl

theorem ReadAt_sect_eq (r : ReaderAt) (base limit off : Int) (len : Nat) :
    (ReaderAt.sect r base limit).ReadAt off len =
      if off < 0 ∨ off ≥ limit - base then ([], some .eof)
      else if (len : Int) > limit - (off + base) then
        ((r.ReadAt (off + base) (limit - (off + base)).toNat).1,
          match (r.ReadAt (off + base) (limit - (off + base)).toNat).2 with
          | none => some .eof
          | some err => some err)
      else r.ReadAt (off + base) len := rfl

theorem ReadAt_length_le (ra : ReaderAt) : ∀ (off : Int) (len : Nat),
    (ra.ReadAt off len).1.length ≤ len := by
  induction ra with
  | bytes s =>
    intro off len
    rw [ReadAt_bytes_eq]
    split
    · simp
    · split
      · simp
      · simp only [List.length_take]; omega
  | sect r base limit ih =>
    intro off len
    rw [ReadAt_sect_eq]
    split
    · simp
    · split
      · have := ih (off + base) (limit - (off + base)).toNat
        simp only
        omega
      · exact ih _ _

theorem ReadAt_full (ra : ReaderAt) : ∀ (off : Int) (len : Nat),
    (ra.ReadAt off len).2 = none → (ra.ReadAt off len).1.length = len := by
  induction ra with
  | bytes s =>
    intro off len
    rw [ReadAt_bytes_eq]
    split
    · simp
    · split
      · simp
      · simp only [List.length_take]
        split
        · simp
        · intro _; omega
  | sect r base limit ih =>
    intro off len
    rw [ReadAt_sect_eq]
    split
    · simp
    · split
      · simp only
        split <;> simp
      · exact ih _ _

theorem ReadAt_short (ra : ReaderAt) : ∀ (off : Int) (len : Nat) (e : GoError), 0 < len →
    (ra.ReadAt off len).2 = some e → (ra.ReadAt off len).1.length < len := by
  induction ra with
  | bytes s =>
    intro off len e hlen
    rw [ReadAt_bytes_eq]
    split
    · simp; omega
    · split
      · simp; omega
      · simp only [List.length_take]
        split
        · intro _; omega
        · simp
  | sect r base limit ih =>
    intro off len e hlen
    rw [ReadAt_sect_eq]
    split
    · simp; omega
    · split
      · have := ReadAt_length_le r (off + base) (limit - (off + base)).toNat
        intro _
        simp only
        omega
      · exact ih _ _ _ hlen

/-- A successful positional read on a byte slice, in terms of the slice. -/
theorem ReadAt_bytes_ok (s : List Byte) (off : Int) (len : Nat) (bs : List Byte) :
    (ReaderAt.bytes s).ReadAt off len = (bs, none) ↔
      0 ≤ off ∧ off < (s.length : Int) ∧ off.toNat + len ≤ s.length ∧
        bs = (s.drop off.toNat).take len := by
  rw [ReadAt_bytes_eq]
  split
  · simp; omega
  · split
    · simp; omega
    · simp only [List.length_take, List.length_drop, Prod.mk.injEq]
      constructor
      · rintro ⟨h1, h2⟩
        split at h2
        · simp at h2
        · refine ⟨by omega, by omega, by omega, h1.symm⟩
      · rintro ⟨_, _, h3, h4⟩
        refine ⟨h4.symm, ?_⟩
        rw [if_neg (by omega)]

/-- A successful positional read on a section, in terms of the underlying reader. -/
theorem ReadAt_sect_ok (r : ReaderAt) (base limit off : Int) (len : Nat) (bs : List Byte) :
    (ReaderAt.sect r base limit).ReadAt off len = (bs, none) ↔
      0 ≤ off ∧ off < limit - base ∧ (len : Int) ≤ limit - (off + base) ∧
        r.ReadAt (off + base) len = (bs, none) := by
  rw [ReadAt_sect_eq]
  split
  · simp; omega
  · split
    · simp only [Prod.mk.injEq]
      constructor
      · rintro ⟨_, h2⟩
        split at h2 <;> simp at h2
      · intro h; omega
    · constructor
      · intro h; exact ⟨by omega, by omega, by omega, h⟩
      · intro h; exact h.2.2.2

theorem ReadAt_split (ra : ReaderAt) : ∀ (off : Int) (a b : Nat) (bs : List Byte), 0 < b →
    ra.ReadAt off (a + b) = (bs, none) →
    ra.ReadAt off a = (bs.take a, none) ∧ ra.ReadAt (off + a) b = (bs.drop a, none) := by
  induction ra with
  | bytes s =>
    intro off a b bs hb h
    rw [ReadAt_bytes_ok] at h
    obtain ⟨h0, h1, h2, h3⟩ := h
    have e : (off + (a : Int)).toNat = off.toNat + a := by omega
    constructor
    · rw [ReadAt_bytes_ok]
      refine ⟨h0, h1, by omega, ?_⟩
      rw [h3, List.take_take]
      congr 1
      omega
    · rw [ReadAt_bytes_ok]
      refine ⟨by omega, by omega, by omega, ?_⟩
      rw [h3, e, List.drop_take, List.drop_drop]
      congr 1
      · omega
  | sect r base limit ih =>
    intro off a b bs hb h
    rw [ReadAt_sect_ok] at h
    obtain ⟨h0, h1, h2, h3⟩ := h
    have := ih (off + base) a b bs hb h3
    constructor
    · rw [ReadAt_sect_ok]
      exact ⟨h0, h1, by omega, this.1⟩
    · rw [ReadAt_sect_ok]
      refine ⟨by omega, by omega, by omega, ?_⟩
      have e : off + (a : Int) + base = off + base + (a : Int) := by omega
      rw [e]; exact this.2

theorem ReadAt_join (ra : ReaderAt) : ∀ (off : Int) (a b : Nat) (b1 b2 : List Byte),
    ra.ReadAt off a = (b1, none) → ra.ReadAt (off + a) b = (b2, none) →
    ra.ReadAt off (a + b) = (b1 ++ b2, none) := by
  induction ra with
  | bytes s =>
    intro off a b b1 b2 h1 h2
    rw [ReadAt_bytes_ok] at h1 h2 ⊢
    obtain ⟨h10, h11, h12, h13⟩ := h1
    obtain ⟨h20, h21, h22, h23⟩ := h2
    have e : (off + (a : Int)).toNat = off.toNat + a := by omega
    refine ⟨h10, h11, by omega, ?_⟩
    rw [h13, h23, e, List.take_add, List.drop_drop]
  | sect r base limit ih =>
    intro off a b b1 b2 h1 h2
    rw [ReadAt_sect_ok] at h1 h2 ⊢
    obtain ⟨h10, h11, h12, h13⟩ := h1
    obtain ⟨h20, h21, h22, h23⟩ := h2
    refine ⟨h10, h11, by push_cast; omega, ?_⟩
    have e : off + (a : Int) + base = off + base + (a : Int) := by omega
    rw [e] at h23
    exact ih _ _ _ _ _ h13 h23

section readFull

variable {ρ : Type} (read : ρ → Nat → (List Byte × Option GoError) × ρ)

theorem ReadFull_zero (r : ρ) : ReadFull read r 0 = (.ok [], r) := by
  simp [ReadFull, readFullLoop]

theorem ReadFull_full (r r' : ρ) (len : Nat) (b : List Byte) (hlen : 0 < len)
    (h : read r len = ((b, none), r')) (hb : b.length = len) :
    ReadFull read r len = (.ok b, r') := by
  obtain ⟨k, rfl⟩ : ∃ k, len = k + 1 := ⟨len - 1, by omega⟩
  simp [ReadFull, readFullLoop, h, hb]

theorem ReadFull_err (r r' : ρ) (len : Nat) (b : List Byte) (e : GoError) (hlen : 0 < len)
    (h : read r len = ((b, some e), r')) (hb : b.length < len) :
    ∃ e', ReadFull read r len = (.error e', r') := by
  obtain ⟨k, rfl⟩ : ∃ k, len = k + 1 := ⟨len - 1, by omega⟩
  simp only [ReadFull, readFullLoop, List.length_nil, Nat.zero_lt_succ, if_true, Nat.sub_zero, h,
    List.nil_append, ge_iff_le]
  rw [if_neg (by omega)]
  cases e <;> simp

theorem ReadFull_short (r r' r'' : ρ) (len : Nat) (b b2 : List Byte) (e : GoError)
    (h : read r len = ((b, none), r')) (hb0 : 0 < b.length) (hb : b.length < len)
    (h2 : read r' (len - b.length) = ((b2, some e), r'')) (hb2 : b.length + b2.length < len) :
    ∃ e', ReadFull read r len = (.error e', r'') := by
  obtain ⟨k, rfl⟩ : ∃ k, len = k + 2 := ⟨len - 2, by omega⟩
  simp only [ReadFull, readFullLoop, List.length_nil, Nat.zero_lt_succ, if_true, Nat.sub_zero, h,
    List.nil_append, ge_iff_le, hb, h2, List.length_append]
  rw [if_neg (by omega)]
  cases e <;> simp

end readFull

theorem sectionRead_eq (s : SectionReader) (len : Nat) :
    s.Read len =
      if s.off ≥ s.limit then (([], some .eof), s)
      else
        (s.r.ReadAt s.off (if (len : Int) > s.limit - s.off then (s.limit - s.off).toNat else len),
         { s with off := s.off + ((s.r.ReadAt s.off
            (if (len : Int) > s.limit - s.off then (s.limit - s.off).toNat else len)).1.length : Int) }) :=
  rfl

/-- When `io.ReadFull` succeeds on a section reader. -/
theorem sectionBinaryRead_ok (s s' : SectionReader) (len : Nat) (bs : List Byte) :
    s.binaryRead len = (.ok bs, s') ↔
      (len = 0 ∧ bs = [] ∧ s' = s) ∨
      (0 < len ∧ (len : Int) ≤ s.limit - s.off ∧ s.r.ReadAt s.off len = (bs, none) ∧
        s' = { s with off := s.off + (len : Int) }) := by
  unfold SectionReader.binaryRead
  rcases Nat.eq_zero_or_pos len with h0 | hpos
  · subst h0
    rw [ReadFull_zero]
    simp only [Prod.mk.injEq, Except.ok.injEq, true_and, Nat.lt_irrefl, false_and, or_false]
    constructor
    · rintro ⟨h1, h2⟩; exact ⟨h1.symm, h2.symm⟩
    · rintro ⟨h1, h2⟩; exact ⟨h1.symm, h2.symm⟩
  · have hne : len ≠ 0 := by omega
    simp only [hne, false_and, false_or, hpos, true_and]
    by_cases hlim : s.off ≥ s.limit
    · -- at the end of the section
      have hr : s.Read len = (([], some .eof), s) := by rw [sectionRead_eq, if_pos hlim]
      obtain ⟨e', he⟩ := ReadFull_err SectionReader.Read s s len [] .eof hpos hr (by simpa using hpos)
      rw [he]
      constructor
      · intro h; simp at h
      · rintro ⟨h, _⟩; omega
    · by_cases hfit : (len : Int) > s.limit - s.off
      · -- the request is cut down to what is left of the section
        have hm : 0 < (s.limit - s.off).toNat := by omega
        have hml : (s.limit - s.off).toNat < len := by omega
        have hr := sectionRead_eq s len
        rw [if_neg hlim, if_pos hfit] at hr
        rcases hres : s.r.ReadAt s.off (s.limit - s.off).toNat with ⟨b, err⟩
        rw [hres] at hr
        have hle := ReadAt_length_le s.r s.off (s.limit - s.off).toNat
        rw [hres] at hle
        simp only at hle hr
        cases err with
        | some e =>
          have hsh := ReadAt_short s.r s.off (s.limit - s.off).toNat e hm (by rw [hres])
          rw [hres] at hsh
          obtain ⟨e', he⟩ := ReadFull_err SectionReader.Read s _ len b e hpos hr
            (by simp only at hsh; omega)
          rw [he]
          constructor
          · intro h; simp at h
          · rintro ⟨h, _⟩; omega
        | none =>
          have hfull := ReadAt_full s.r s.off (s.limit - s.off).toNat (by rw [hres])
          rw [hres] at hfull
          simp only at hfull
          have hr2 : SectionReader.Read { s with off := s.off + (b.length : Int) } (len - b.length)
              = (([], some .eof), { s with off := s.off + (b.length : Int) }) := by
            rw [sectionRead_eq, if_pos (by simp only; omega)]
          obtain ⟨e', he⟩ := ReadFull_short SectionReader.Read s _ _ len b [] .eof hr
            (by omega) (by omega) hr2 (by simp; omega)
          rw [he]
          constructor
          · intro h; simp at h
          · rintro ⟨h, _⟩; omega
      · -- the request fits in the section
        have hr := sectionRead_eq s len
        rw [if_neg hlim, if_neg hfit] at hr
        rcases hres : s.r.ReadAt s.off len with ⟨b, err⟩
        rw [hres] at hr
        simp only at hr
        cases err with
        | some e =>
          have hsh := ReadAt_short s.r s.off len e hpos (by rw [hres])
          rw [hres] at hsh
          obtain ⟨e', he⟩ := ReadFull_err SectionReader.Read s _ len b e hpos hr hsh
          rw [he]
          constructor
          · intro h; simp at h
          · rintro ⟨_, h, _⟩; simp at h
        | none =>
          have hfull := ReadAt_full s.r s.off len (by rw [hres])
          rw [hres] at hfull
          simp only at hfull
          rw [ReadFull_full SectionReader.Read s _ len b hpos hr hfull, hfull]
          simp only [Prod.mk.injEq, Except.ok.injEq, and_true]
          constructor
          · rintro ⟨h1, h2⟩; exact ⟨by omega, h1, h2.symm⟩
          · rintro ⟨_, h1, h2⟩; exact ⟨h1, h2.symm⟩

theorem limitedRead_eq (l : LimitedReader) (len : Nat) :
    l.Read len =
      if l.N ≤ 0 ∨ l.R.off ≥ l.R.limit then (([], some .eof), l)
      else
        (l.R.r.ReadAt l.R.off (limitedWant l len),
         { R := { l.R with off := l.R.off +
                    ((l.R.r.ReadAt l.R.off (limitedWant l len)).1.length : Int) },
           N := l.N - ((l.R.r.ReadAt l.R.off (limitedWant l len)).1.length : Int) }) := by
  unfold LimitedReader.Read limitedWant
  by_cases hN : l.N ≤ 0
  · rw [if_pos hN, if_pos (Or.inl hN)]
  · rw [if_neg hN]
    by_cases hlim : l.R.off ≥ l.R.limit
    · rw [if_pos (Or.inr hlim), sectionRead_eq, if_pos hlim]
      simp
    · have hnend : ¬ (l.N ≤ 0 ∨ l.R.off ≥ l.R.limit) := by omega
      rw [if_neg hnend, sectionRead_eq, if_neg hlim]

/-- When `io.ReadFull` succeeds on a limited reader. -/
theorem limitedBinaryRead_ok (l l' : LimitedReader) (len : Nat) (bs : List Byte) :
    l.binaryRead len = (.ok bs, l') ↔
      (len = 0 ∧ bs = [] ∧ l' = l) ∨
      (0 < len ∧ (len : Int) ≤ l.N ∧ (len : Int) ≤ l.R.limit - l.R.off ∧
        l.R.r.ReadAt l.R.off len = (bs, none) ∧
        l' = { R := { l.R with off := l.R.off + (len : Int) }, N := l.N - (len : Int) }) := by
  unfold LimitedReader.binaryRead
  rcases Nat.eq_zero_or_pos len with h0 | hpos
  · subst h0
    rw [ReadFull_zero]
    simp only [Prod.mk.injEq, Except.ok.injEq, true_and, Nat.lt_irrefl, false_and, or_false]
    constructor
    · rintro ⟨h1, h2⟩; exact ⟨h1.symm, h2.symm⟩
    · rintro ⟨h1, h2⟩; exact ⟨h1.symm, h2.symm⟩
  · have hne : len ≠ 0 := by omega
    simp only [hne, false_and, false_or, hpos, true_and]
    by_cases hend : l.N ≤ 0 ∨ l.R.off ≥ l.R.limit
    · have hr : l.Read len = (([], some .eof), l) := by rw [limitedRead_eq, if_pos hend]
      obtain ⟨e', he⟩ := ReadFull_err LimitedReader.Read l l len [] .eof hpos hr (by simpa using hpos)
      rw [he]
      constructor
      · intro h; simp at h
      · rintro ⟨h1, h2, _⟩; omega
    · have hr := limitedRead_eq l len
      rw [if_neg hend] at hr
      have hw1 : 0 < limitedWant l len := by unfold limitedWant; split <;> split <;> omega
      have hw2 : limitedWant l len ≤ len := by unfold limitedWant; split <;> split <;> omega
      have hw3 : limitedWant l len < len → (limitedWant l len : Int) = l.N ∨ (limitedWant l len : Int) = l.R.limit - l.R.off := by
        unfold limitedWant; split <;> split <;> omega
      have hw4 : limitedWant l len = len → (len : Int) ≤ l.N ∧ (len : Int) ≤ l.R.limit - l.R.off := by
        unfold limitedWant; split <;> split <;> omega
      rcases hres : l.R.r.ReadAt l.R.off (limitedWant l len) with ⟨b, err⟩
      rw [hres] at hr
      simp only at hr
      cases err with
      | some e =>
        have hsh := ReadAt_short l.R.r l.R.off (limitedWant l len) e hw1 (by rw [hres])
        rw [hres] at hsh
        simp only at hsh
        obtain ⟨e', he⟩ := ReadFull_err LimitedReader.Read l _ len b e hpos hr (by omega)
        rw [he]
        constructor
        · intro h; simp at h
        · rintro ⟨h1, h2, h3, _⟩
          have hwl : limitedWant l len = len := by unfold limitedWant; split <;> split <;> omega
          rw [hwl, h3] at hres
          simp at hres
      | none =>
        have hfull := ReadAt_full l.R.r l.R.off (limitedWant l len) (by rw [hres])
        rw [hres] at hfull
        simp only at hfull
        by_cases hwl : limitedWant l len = len
        · rw [hwl] at hfull hres
          rw [ReadFull_full LimitedReader.Read l _ len b hpos hr hfull, hfull, hres]
          simp only [Prod.mk.injEq, Except.ok.injEq, and_true]
          have := hw4 hwl
          constructor
          · rintro ⟨h1, h2⟩; exact ⟨this.1, this.2, h1, h2.symm⟩
          · rintro ⟨_, _, h1, h2⟩; exact ⟨h1, h2.symm⟩
        · have hlt : limitedWant l len < len := by omega
          have hr2 : LimitedReader.Read
              { R := { l.R with off := l.R.off + (b.length : Int) }, N := l.N - (b.length : Int) }
              (len - b.length) = (([], some .eof),
              { R := { l.R with off := l.R.off + (b.length : Int) }, N := l.N - (b.length : Int) }) := by
            rw [limitedRead_eq, if_pos]
            simp only
            have := hw3 hlt
            omega
          obtain ⟨e', he⟩ := ReadFull_short LimitedReader.Read l _ _ len b [] .eof hr
            (by omega) (by omega) hr2 (by simp; omega)
          rw [he]
          constructor
          · intro h; simp at h
          · rintro ⟨h1, h2, _⟩
            exfalso
            apply hwl
            unfold limitedWant; split <;> split <;> omega

/-- Part of a successful positional read is a successful positional read. -/
theorem ReadAt_sub (ra : ReaderAt) (off : Int) (w : Nat) (bs : List Byte)
    (h : ra.ReadAt off w = (bs, none)) (i k : Nat) (hk : 0 < k) (hik : i + k ≤ w) :
    ra.ReadAt (off + (i : Int)) k = ((bs.drop i).take k, none) := by
  have hw : w = i + (w - i) := by omega
  rw [hw] at h
  have h1 := (ReadAt_split ra off i (w - i) bs (by omega) h).2
  rcases Nat.eq_or_lt_of_le hik with heq | hlt
  · have hl := ReadAt_full ra (off + (i : Int)) (w - i) (by rw [h1])
    rw [h1] at hl
    simp only at hl
    have : w - i = k := by omega
    rw [this] at h1 hl
    rw [h1, ← hl, List.take_length]
  · have hw2 : w - i = k + (w - i - k) := by omega
    rw [hw2] at h1
    exact (ReadAt_split ra (off + (i : Int)) k (w - i - k) _ (by omega) h1).1

/-- A limited reader in the middle of a record that is wholly readable reads the next
field of the record. -/
theorem limitedBinaryRead_sub (r : SectionReader) (w : Nat) (bs : List Byte)
    (hw : (w : Int) ≤ r.limit - r.off) (h : r.r.ReadAt r.off w = (bs, none))
    (i k : Nat) (hk : 0 < k) (hik : i + k ≤ w) (l : LimitedReader)
    (hl : l = { R := { r with off := r.off + (i : Int) }, N := (w : Int) - (i : Int) }) :
    l.binaryRead k = (.ok ((bs.drop i).take k),
      { R := { r with off := r.off + ((i + k : Nat) : Int) },
        N := (w : Int) - ((i + k : Nat) : Int) }) := by
  rw [limitedBinaryRead_ok]
  right
  subst hl
  refine ⟨hk, ?_, ?_, ReadAt_sub r.r r.off w bs h i k hk hik, ?_⟩
  · show (k : Int) ≤ (w : Int) - (i : Int)
    omega
  · show (k : Int) ≤ r.limit - (r.off + (i : Int))
    omega
  · simp only [LimitedReader.mk.injEq, SectionReader.mk.injEq, true_and, and_true]
    constructor <;> push_cast <;> omega

theorem nodeSize_eq (format : Int) : nodeSize format = if format ≥ 2 then 22 else 14 := by
  unfold nodeSize; split <;> rfl

/-- Function `ParseNode` on a reader from which a whole record with valid flags can be read. -/
theorem ParseNode_of_read (r : SectionReader) (format : Int) (bs : List Byte)
    (hf : format ≤ 3) (hw : nodeSize format ≤ r.limit - r.off)
    (h : r.r.ReadAt r.off (nodeSize format).toNat = (bs, none))
    (hv : NodeFlag.Valid (beFin 16 ((bs.drop 4).take 2)) = none) :
    ParseNode r format =
      (.ok (nodeOfBytes format bs), { r with off := r.off + nodeSize format }) := by
  have hf' : ¬ format > 3 := by omega
  have hwn : ((nodeSize format).toNat : Int) = nodeSize format := by
    rw [nodeSize_eq]; split <;> rfl
  have hw' : (((nodeSize format).toNat : Nat) : Int) ≤ r.limit - r.off := by rw [hwn]; exact hw
  have hlen : (nodeSize format).toNat = if format ≥ 2 then 22 else 14 := by
    rw [nodeSize_eq]; split <;> rfl
  have rd := fun i k hk hik l hl =>
    limitedBinaryRead_sub r (nodeSize format).toNat bs hw' h i k hk hik l hl
  have r0 := rd 0 4 (by omega) (by rw [hlen]; split <;> omega)
    { R := r, N := nodeSize format } (by simp [hwn])
  have r4 := rd 4 2 (by omega) (by rw [hlen]; split <;> omega) _ rfl
  have r6 := rd 6 4 (by omega) (by rw [hlen]; split <;> omega) _ rfl
  have r10 := rd 10 4 (by omega) (by rw [hlen]; split <;> omega) _ rfl
  have r6' := rd 6 2 (by omega) (by rw [hlen]; split <;> omega) _ rfl
  have r8' := rd 8 2 (by omega) (by rw [hlen]; split <;> omega) _ rfl
  unfold ParseNode
  simp only [if_neg hf', r0, r4, r6, r10, r6', r8', hv, List.drop_zero]
  by_cases hd : NodeFlag.Has (beFin 16 ((bs.drop 4).take 2)) NodeFlagDirectory = true
  · simp only [Node.IsDir, hd, if_true, r6, r10]
    unfold parseNodeTail
    by_cases h2 : format ≥ 2
    · have r14 : LimitedReader.binaryRead
          { R := { r := r.r, base := r.base, off := r.off + 14, limit := r.limit }, N := 8 } 8 =
          (.ok ((bs.drop 14).take 8),
            { R := { r := r.r, base := r.base, off := r.off + 22, limit := r.limit }, N := 0 }) := by
        have := rd 14 8 (by omega) (by rw [hlen, if_pos h2]) _ rfl
        simpa [hwn, nodeSize_eq, h2] using this
      simp only [if_pos h2, hwn, nodeSize_eq, nodeOfBytes, hd, if_true]
      simp [r14]
    · simp only [if_neg h2, hwn, nodeSize_eq, nodeOfBytes, hd, if_true]
      simp
  · simp only [Node.IsDir, hd, r6', r8', r10]
    unfold parseNodeTail
    by_cases h2 : format ≥ 2
    · have r14 : LimitedReader.binaryRead
          { R := { r := r.r, base := r.base, off := r.off + 14, limit := r.limit }, N := 8 } 8 =
          (.ok ((bs.drop 14).take 8),
            { R := { r := r.r, base := r.base, off := r.off + 22, limit := r.limit }, N := 0 }) := by
        have := rd 14 8 (by omega) (by rw [hlen, if_pos h2]) _ rfl
        simpa [hwn, nodeSize_eq, h2] using this
      simp only [if_pos h2, hwn, nodeSize_eq, nodeOfBytes, hd]
      simp [r14]
    · simp only [if_neg h2, hwn, nodeSize_eq, nodeOfBytes, hd]
      simp

theorem limitedBinaryRead_step (l l' : LimitedReader) (k : Nat) (b : List Byte)
    (hk : 0 < k) (h : l.binaryRead k = (.ok b, l')) :
    (k : Int) ≤ l.N ∧ (k : Int) ≤ l.R.limit - l.R.off ∧ l.R.r.ReadAt l.R.off k = (b, none) ∧
      b.length = k ∧
      l' = { R := { l.R with off := l.R.off + (k : Int) }, N := l.N - (k : Int) } := by
  rw [limitedBinaryRead_ok] at h
  rcases h with ⟨h0, _⟩ | ⟨_, h1, h2, h3, h4⟩
  · omega
  · have hl := ReadAt_full l.R.r l.R.off k (by rw [h3])
    rw [h3] at hl
    exact ⟨h1, h2, h3, hl, h4⟩

/-- Two reads in a row on a limited reader are one read of the joined field. -/
theorem limitedBinaryRead_join (l l1 l2 : LimitedReader) (a b : Nat)
    (b1 b2 : List Byte) (ha : 0 < a) (hb : 0 < b)
    (h1 : l.binaryRead a = (.ok b1, l1)) (h2 : l1.binaryRead b = (.ok b2, l2)) :
    l.binaryRead (a + b) = (.ok (b1 ++ b2), l2) := by
  obtain ⟨p1, p2, p3, _, p5⟩ := limitedBinaryRead_step l l1 a b1 ha h1
  obtain ⟨q1, q2, q3, _, q5⟩ := limitedBinaryRead_step l1 l2 b b2 hb h2
  subst p5
  dsimp only at q1 q2 q3 q5
  rw [limitedBinaryRead_ok]
  right
  refine ⟨by omega, ?_, ?_, ReadAt_join _ _ _ _ _ _ p3 q3, ?_⟩
  · push_cast; omega
  · push_cast; omega
  · rw [q5]
    simp only [LimitedReader.mk.injEq, SectionReader.mk.injEq, true_and, and_true]
    constructor <;> push_cast <;> omega

/-- If `ParseNode` returns a node, a whole record with valid flags was readable. -/
theorem ParseNode_ok_inv (r r' : SectionReader) (format : Int) (n : Node)
    (h : ParseNode r format = (.ok n, r')) :
    format ≤ 3 ∧ nodeSize format ≤ r.limit - r.off ∧
      ∃ bs, r.r.ReadAt r.off (nodeSize format).toNat = (bs, none) ∧
        NodeFlag.Valid (beFin 16 ((bs.drop 4).take 2)) = none := by
  unfold ParseNode at h
  dsimp only at h
  split at h
  · simp at h
  rename_i hf
  refine ⟨by omega, ?_⟩
  split at h
  · simp at h
  rename_i b1 l1 e1
  split at h
  · simp at h
  rename_i b2 l2 e2
  have j2 := limitedBinaryRead_join _ _ _ 4 2 _ _ (by omega) (by omega) e1 e2
  have len1 := (limitedBinaryRead_step _ _ 4 _ (by omega) e1).2.2.2.1
  have len2 := (limitedBinaryRead_step _ _ 2 _ (by omega) e2).2.2.2.1
  split at h
  · simp at h
  rename_i hv
  have fin (bs : List Byte) (l : LimitedReader)
      (hr : LimitedReader.binaryRead { R := r, N := nodeSize format } (nodeSize format).toNat
        = (.ok bs, l)) (hbs : (bs.drop 4).take 2 = b2) :
      nodeSize format ≤ r.limit - r.off ∧
      ∃ bs, r.r.ReadAt r.off (nodeSize format).toNat = (bs, none) ∧
        NodeFlag.Valid (beFin 16 ((bs.drop 4).take 2)) = none := by
    have hpos : 0 < (nodeSize format).toNat := by rw [nodeSize_eq]; split <;> decide
    have hwn : ((nodeSize format).toNat : Int) = nodeSize format := by
      rw [nodeSize_eq]; split <;> rfl
    obtain ⟨_, p2, p3, _, _⟩ := limitedBinaryRead_step _ _ _ _ hpos hr
    dsimp only at p2 p3
    rw [hwn] at p2
    exact ⟨p2, bs, p3, by rw [hbs]; exact hv⟩
  have take2 : ∀ rest : List Byte, ((b1 ++ b2 ++ rest).drop 4).take 2 = b2 := by
    intro rest
    rw [List.append_assoc, List.drop_left' len1, List.take_left' len2]
  split at h
  · -- directory
    split at h
    · simp at h
    rename_i b3 l3 e3
    split at h
    · simp at h
    rename_i b4 l4 e4
    have j3 := limitedBinaryRead_join _ _ _ (4 + 2) 4 _ _ (by omega) (by omega) j2 e3
    have j4 := limitedBinaryRead_join _ _ _ (4 + 2 + 4) 4 _ _ (by omega) (by omega) j3 e4
    unfold parseNodeTail at h
    dsimp only at h
    split at h
    · rename_i h2
      split at h
      · simp at h
      rename_i b5 l5 e5
      have j5 := limitedBinaryRead_join _ _ _ (4 + 2 + 4 + 4) 8 _ _ (by omega) (by omega) j4 e5
      have hn : (nodeSize format).toNat = 4 + 2 + 4 + 4 + 8 := by rw [nodeSize_eq, if_pos h2]; rfl
      exact fin _ _ (by rw [hn]; exact j5)
        (by rw [List.append_assoc (b1 ++ b2), List.append_assoc (b1 ++ b2)]; exact take2 _)
    · rename_i h2
      have hn : (nodeSize format).toNat = 4 + 2 + 4 + 4 := by rw [nodeSize_eq, if_neg h2]; rfl
      exact fin _ _ (by rw [hn]; exact j4)
        (by rw [List.append_assoc (b1 ++ b2)]; exact take2 _)
  · -- file
    split at h
    · simp at h
    rename_i b3 l3 e3
    split at h
    · simp at h
    rename_i b4 l4 e4
    split at h
    · simp at h
    rename_i b5 l5 e5
    have j3 := limitedBinaryRead_join _ _ _ (4 + 2) 2 _ _ (by omega) (by omega) j2 e3
    have j4 := limitedBinaryRead_join _ _ _ (4 + 2 + 2) 2 _ _ (by omega) (by omega) j3 e4
    have j5 := limitedBinaryRead_join _ _ _ (4 + 2 + 2 + 2) 4 _ _ (by omega) (by omega) j4 e5
    unfold parseNodeTail at h
    dsimp only at h
    split at h
    · rename_i h2
      split at h
      · simp at h
      rename_i b6 l6 e6
      have j6 := limitedBinaryRead_join _ _ _ (4 + 2 + 2 + 2 + 4) 8 _ _ (by omega) (by omega) j5 e6
      have hn : (nodeSize format).toNat = 4 + 2 + 2 + 2 + 4 + 8 := by
        rw [nodeSize_eq, if_pos h2]; rfl
      exact fin _ _ (by rw [hn]; exact j6)
        (by rw [List.append_assoc (b1 ++ b2), List.append_assoc (b1 ++ b2),
              List.append_assoc (b1 ++ b2)]; exact take2 _)
    · rename_i h2
      have hn : (nodeSize format).toNat = 4 + 2 + 2 + 2 + 4 := by
        rw [nodeSize_eq, if_neg h2]; rfl
      exact fin _ _ (by rw [hn]; exact j5)
        (by rw [List.append_assoc (b1 ++ b2), List.append_assoc (b1 ++ b2)]; exact take2 _)

theorem byte_val_ofNat (x : Nat) : ((Fin.ofNat x : Byte)).val = x % 256 := rfl

theorem validFrom_lead (b : Byte) (rest : List Byte) :
    validFrom 0 0 0 (b :: rest) =
      if b.val < 0x80 then validFrom 0 0 0 rest
      else if 0xC2 ≤ b.val ∧ b.val ≤ 0xDF then validFrom 1 0x80 0xBF rest
      else if 0xE0 ≤ b.val ∧ b.val ≤ 0xEF then
        validFrom 2 (if b.val = 0xE0 then 0xA0 else 0x80) (if b.val = 0xED then 0x9F else 0xBF) rest
      else if 0xF0 ≤ b.val ∧ b.val ≤ 0xF4 then
        validFrom 3 (if b.val = 0xF0 then 0x90 else 0x80) (if b.val = 0xF4 then 0x8F else 0xBF) rest
      else false := rfl

theorem validFrom_cont (need lo hi : Nat) (b : Byte) (rest : List Byte)
    (h : lo ≤ b.val ∧ b.val ≤ hi) :
    validFrom (need + 1) lo hi (b :: rest) = validFrom need 0x80 0xBF rest := by
  rw [validFrom, if_pos h]

theorem validFrom_zero_irrel (lo hi : Nat) (s : List Byte) :
    validFrom 0 lo hi s = validFrom 0 0 0 s := by
  cases s <;> rfl

theorem ValidString_encodeRune_append (r : Nat) (rest : List Byte) :
    ValidString (encodeRune r ++ rest) = ValidString rest := by
  unfold encodeRune ValidString
  split
  · -- one byte
    rename_i h1
    show validFrom 0 0 0 (_ :: rest) = _
    rw [validFrom_lead, if_pos (by rw [byte_val_ofNat]; omega)]
  · rename_i h1
    split
    · -- two bytes
      rename_i h2
      show validFrom 0 0 0 (_ :: _ :: rest) = _
      rw [validFrom_lead, if_neg (by rw [byte_val_ofNat]; omega),
        if_pos (by rw [byte_val_ofNat]; omega),
        validFrom_cont _ _ _ _ _ (by rw [byte_val_ofNat]; omega), validFrom_zero_irrel]
    · rename_i h2
      split
      · -- replacement character
        show validFrom 0 0 0 (0xEF :: 0xBF :: 0xBD :: rest) = _
        rw [validFrom_lead, if_neg (by decide), if_neg (by decide), if_pos (by decide),
          validFrom_cont _ _ _ _ _ (by decide), validFrom_cont _ _ _ _ _ (by decide),
          validFrom_zero_irrel]
      · rename_i h3
        split
        · -- three bytes
          rename_i h4
          show validFrom 0 0 0 (_ :: _ :: _ :: rest) = _
          rw [validFrom_lead, if_neg (by rw [byte_val_ofNat]; omega),
            if_neg (by rw [byte_val_ofNat]; omega), if_pos (by rw [byte_val_ofNat]; omega),
            validFrom_cont _ _ _ _ _ (by simp only [byte_val_ofNat]; split <;> split <;> omega),
            validFrom_cont _ _ _ _ _ (by rw [byte_val_ofNat]; omega), validFrom_zero_irrel]
        · -- four bytes
          rename_i h4
          show validFrom 0 0 0 (_ :: _ :: _ :: _ :: rest) = _
          rw [validFrom_lead, if_neg (by rw [byte_val_ofNat]; omega),
            if_neg (by rw [byte_val_ofNat]; omega), if_neg (by rw [byte_val_ofNat]; omega),
            if_pos (by rw [byte_val_ofNat]; omega),
            validFrom_cont _ _ _ _ _ (by simp only [byte_val_ofNat]; split <;> split <;> omega),
            validFrom_cont _ _ _ _ _ (by rw [byte_val_ofNat]; omega),
            validFrom_cont _ _ _ _ _ (by rw [byte_val_ofNat]; omega), validFrom_zero_irrel]

/-- The conversion `string([]rune)` always yields valid UTF-8. -/
theorem ValidString_stringOfRunes (rs : List Nat) : ValidString (stringOfRunes rs) = true := by
  induction rs with
  | nil => rfl
  | cons r rs ih =>
    show ValidString (encodeRune r ++ stringOfRunes rs) = true
    rw [ValidString_encodeRune_append, ih]

/-- Method `Node.Name` never returns its invalid-UTF-8 error: the check after the decoding cannot
fail. -/
theorem Name_never_invalid (n : Node) (names : ReaderAt) :
    n.Name names ≠ .error (.errorf "name is likely incorrect, is invalid utf8 (%q)") := by
  unfold Node.Name
  split
  · intro h; cases h
  · split
    · intro h; cases h
    · dsimp only
      split
      · intro h; cases h
      · simp only [ValidString_stringOfRunes, Bool.not_true, Bool.false_eq_true, if_false]
        intro h; cases h

theorem beUint_two (b0 b1 : Byte) : beUint [b0, b1] = b0.val * 256 + b1.val := by
  simp [beUint]

theorem beUint_lt_of_length_two (bs : List Byte) (h : bs.length = 2) : beUint bs < 65536 := by
  match bs, h with
  | [b0, b1], _ =>
    rw [beUint_two]
    have := b0.isLt
    have := b1.isLt
    omega

theorem NewSectionReader_small (r : ReaderAt) (off n : Int) (h : off ≤ maxInt64 - n) :
    NewSectionReader r off n = { r := r, base := off, off := off, limit := n + off } := by
  unfold NewSectionReader
  rw [if_pos h]

/-- Method `Node.Name` fails on every name of 32768 or more code units: the section that it reads
the code units from has `length*2` bytes computed at 16 bits. -/
theorem Name_fails_of_long (n : Node) (names : ReaderAt) (lb : List Byte)
    (hlen : ((NewSectionReader names (n.NameOffset.val : Int) 2).binaryRead 2).1 = .ok lb)
    (hlong : 32768 ≤ beUint lb) : ∃ err, n.Name names = .error err := by
  have hl2 : lb.length = 2 := by
    rcases hr : (NewSectionReader names (n.NameOffset.val : Int) 2).binaryRead 2 with ⟨res, s'⟩
    rw [hr] at hlen
    simp only at hlen
    subst hlen
    rw [sectionBinaryRead_ok] at hr
    rcases hr with ⟨h0, _⟩ | ⟨_, _, h3, _⟩
    · omega
    · have := ReadAt_full _ _ _ (by rw [h3])
      rw [h3] at this
      exact this
  have hlt := beUint_lt_of_length_two lb hl2
  unfold Node.Name
  rw [hlen]
  dsimp only
  split
  · exact ⟨_, rfl⟩
  · split
    · exact ⟨_, rfl⟩
    · rename_i data hdata
      exfalso
      rcases hr : (NewSectionReader names
          (((n.NameOffset.val + 2 + 4) % 4294967296 : Nat) : Int)
          ((beUint lb * 2 % 65536 : Nat) : Int)).binaryRead (2 * beUint lb) with ⟨res, s'⟩
      rw [hr] at hdata
      simp only at hdata
      subst hdata
      rw [sectionBinaryRead_ok] at hr
      rcases hr with ⟨h0, _⟩ | ⟨_, h2, _⟩
      · omega
      · rw [NewSectionReader_small _ _ _ (by unfold maxInt64; omega)] at h2
        simp only at h2
        omega

theorem sectionBinaryRead_of_ReadAt (data : ReaderAt) (off : Int) (len : Nat) (bs : List Byte)
    (hoff : off ≤ maxInt64 - (len : Int)) (hpos : 0 < len)
    (h : data.ReadAt off len = (bs, none)) :
    ((NewSectionReader data off (len : Int)).binaryRead len).1 = .ok bs := by
  have : (NewSectionReader data off (len : Int)).binaryRead len =
      (.ok bs, { r := data, base := off, off := off + (len : Int), limit := (len : Int) + off }) := by
    rw [NewSectionReader_small _ _ _ hoff, sectionBinaryRead_ok]
    right
    refine ⟨hpos, ?_, h, rfl⟩
    show (len : Int) ≤ (len : Int) + off - off
    omega
  rw [this]

/-- On a name of fewer than 32768 code units whose record lies wholly inside the names
region (and whose offsets do not wrap at 32 bits) `Node.Name` returns the decoded units. -/
theorem Name_ok_of_short (n : Node) (names : ReaderAt) (record : List Byte) (L : Nat)
    (hoff : n.NameOffset.val + 6 < 4294967296)
    (hrec : names.ReadAt (n.NameOffset.val : Int) (6 + 2 * L) = (record, none))
    (hL : beUint (record.take 2) = L) (hshort : L < 32768) :
    n.Name names = .ok (stringOfRunes (utf16Decode (beUint16s (record.drop 6)))) := by
  have hfull := ReadAt_full names _ _ (by rw [hrec])
  rw [hrec] at hfull
  simp only at hfull
  have h2 : names.ReadAt (n.NameOffset.val : Int) 2 = (record.take 2, none) := by
    have := ReadAt_sub names _ _ _ hrec 0 2 (by decide) (by omega)
    simpa using this
  have h4 : names.ReadAt ((n.NameOffset.val : Int) + 2) 4 = ((record.drop 2).take 4, none) := by
    have := ReadAt_sub names _ _ _ hrec 2 4 (by decide) (by omega)
    simpa using this
  have e2 : (((n.NameOffset.val + 2) % 4294967296 : Nat) : Int) = (n.NameOffset.val : Int) + 2 := by
    omega
  have e6 : (((n.NameOffset.val + 2 + 4) % 4294967296 : Nat) : Int) = (n.NameOffset.val : Int) + 6 := by
    omega
  have eL : ((L * 2 % 65536 : Nat) : Int) = ((2 * L : Nat) : Int) := by omega
  have r1 : ((NewSectionReader names (n.NameOffset.val : Int) 2).binaryRead 2).1 =
      .ok (record.take 2) :=
    sectionBinaryRead_of_ReadAt names _ 2 _ (by unfold maxInt64; omega) (by decide) h2
  have r2 : ((NewSectionReader names ((n.NameOffset.val : Int) + 2) 4).binaryRead 4).1 =
      .ok ((record.drop 2).take 4) :=
    sectionBinaryRead_of_ReadAt names _ 4 _ (by unfold maxInt64; omega) (by decide) h4
  have r3 : ((NewSectionReader names ((n.NameOffset.val : Int) + 6)
      ((2 * L : Nat) : Int)).binaryRead (2 * L)).1 = .ok (record.drop 6) := by
    rcases Nat.eq_zero_or_pos L with h0 | hpos
    · subst h0
      have hnil : record.drop 6 = [] := by
        apply List.eq_nil_of_length_eq_zero
        rw [List.length_drop]; omega
      rw [hnil]
      show (ReadFull SectionReader.Read _ 0).1 = _
      rw [ReadFull_zero]
    · have := ReadAt_sub names _ _ _ hrec 6 (2 * L) (by omega) (by omega)
      rw [List.take_of_length_le (by rw [List.length_drop]; omega)] at this
      exact sectionBinaryRead_of_ReadAt names _ (2 * L) _ (by unfold maxInt64; omega)
        (by omega) this
  unfold Node.Name
  rw [r1]
  dsimp only
  rw [e2, r2]
  dsimp only
  rw [hL, e6, eL, r3]
  simp only [ValidString_stringOfRunes, Bool.not_true, Bool.false_eq_true, if_false]

theorem length_flatten_replicate_pair (k : Nat) (a b : Byte) :
    (List.replicate k [a, b]).flatten.length = 2 * k := by
  induction k with
  | zero => rfl
  | succ k ih =>
    rw [List.replicate_succ, List.flatten_cons, List.length_append, ih]
    simp only [List.length_cons, List.length_nil]
    omega

/-- C5 fails on the code at a name of 32768 code units: the record lies wholly inside the
names region (6 + 2 * 32768 bytes, well-formed UTF-16), yet `Node.Name` returns an error. -/
theorem C5_long_name_fails :
    longNameRegion.length = 6 + 2 * 32768 ∧
      ∃ err, nameNode.Name (.bytes longNameRegion) = .error err := by
  have hlen : longNameRegion.length = 6 + 2 * 32768 := by
    unfold longNameRegion
    rw [List.length_append, length_flatten_replicate_pair]
    rfl
  refine ⟨hlen, ?_⟩
  have hnew : NewSectionReader (.bytes longNameRegion) ((nameNode.NameOffset.val : Nat) : Int) 2
      = { r := .bytes longNameRegion, base := 0, off := 0, limit := 2 } := rfl
  have hread : (NewSectionReader (.bytes longNameRegion) ((nameNode.NameOffset.val : Nat) : Int)
      2).binaryRead 2 = (.ok [0x80, 0x00],
        { r := .bytes longNameRegion, base := 0, off := 2, limit := 2 }) := by
    rw [hnew, sectionBinaryRead_ok]
    right
    refine ⟨by decide, by decide, ?_, rfl⟩
    show (ReaderAt.bytes longNameRegion).ReadAt 0 2 = _
    rw [ReadAt_bytes_ok]
    refine ⟨by decide, by rw [hlen]; decide, by rw [hlen]; decide, rfl⟩
  exact Name_fails_of_long nameNode (.bytes longNameRegion) [0x80, 0x00]
    (by rw [hread]) (by decide)

/-- C6 fails on the code: for a name record whose only code unit is the unpaired surrogate
U+D800, `Node.Name` returns no error but the string of U+FFFD (bytes EF BF BD). -/
theorem C6_unpaired_surrogate_is_accepted :
    nameNode.Name (.bytes loneSurrogateRegion) = .ok [0xEF, 0xBF, 0xBD] := by
  decide

theorem sectionBinaryRead_fst_ok (s : SectionReader) (len : Nat) (bs : List Byte)
    (hpos : 0 < len) (h : (s.binaryRead len).1 = .ok bs) :
    (len : Int) ≤ s.limit - s.off ∧ s.r.ReadAt s.off len = (bs, none) ∧ bs.length = len ∧
      s.binaryRead len = (.ok bs, { s with off := s.off + (len : Int) }) := by
  rcases hr : s.binaryRead len with ⟨res, s'⟩
  rw [hr] at h
  simp only at h
  subst h
  have hr' := hr
  rw [sectionBinaryRead_ok] at hr
  rcases hr with ⟨h0, _⟩ | ⟨_, h2, h3, h4⟩
  · omega
  · have := ReadAt_full _ _ _ (by rw [h3])
    rw [h3] at this
    subst h4
    exact ⟨h2, h3, this, rfl⟩

/-- What a successful call of `Node.Data` reports. -/
theorem Data_ok_inv (codecs : Codecs) (n : Node) (data : ReaderAt) (rc : ReadCloser)
    (fileOff fileSz : Int) (h : n.Data codecs data = .ok (rc, fileOff, fileSz)) :
    n.IsDir = false ∧ n.Flags.Valid = none ∧
      ∃ lb, data.ReadAt (n.DataOffset.val : Int) 4 = (lb, none) ∧
        fileSz = (beUint lb : Int) ∧
        fileOff = if n.Flags.Has NodeFlagCompressed then (n.DataOffset.val : Int) + 4 + 4
                  else (n.DataOffset.val : Int) + 4 := by
  unfold Node.Data at h
  split at h
  · cases h
  rename_i hd
  refine ⟨by simpa using hd, ?_⟩
  split at h
  · cases h
  rename_i hv
  refine ⟨hv, ?_⟩
  split at h
  · cases h
  rename_i lb hlb
  obtain ⟨_, hread, _, _⟩ := sectionBinaryRead_fst_ok _ 4 lb (by decide) hlb
  refine ⟨lb, hread, ?_⟩
  dsimp only at h
  split at h
  · rename_i hz
    rw [if_pos hz]
    split at h
    · cases h
    · split at h
      · cases h
      · simp only [Except.ok.injEq, Prod.mk.injEq] at h
        exact ⟨h.2.2.symm, h.2.1.symm⟩
  · rename_i hz
    rw [if_neg hz]
    split at h
    · split at h
      · cases h
      · simp only [Except.ok.injEq, Prod.mk.injEq] at h
        exact ⟨h.2.2.symm, h.2.1.symm⟩
    · simp only [Except.ok.injEq, Prod.mk.injEq] at h
      exact ⟨h.2.2.symm, h.2.1.symm⟩

/-- C7: whenever `Node.Data` succeeds, the node is not a directory and has valid flags, the
reported size is the big-endian 32-bit `byte_length` stored at the node's `DataOffset`,
and the reported offset is `DataOffset + 4 + 4` if the Compressed bit is set and
`DataOffset + 4` otherwise. -/
theorem C7_data_offset_table (codecs : Codecs) (n : Node) (data : ReaderAt) (rc : ReadCloser)
    (fileOff fileSz : Int) (h : n.Data codecs data = .ok (rc, fileOff, fileSz)) :
    n.IsDir = false ∧ n.Flags.Valid = none ∧
      ∃ lb, data.ReadAt (n.DataOffset.val : Int) 4 = (lb, none) ∧
        fileSz = (beUint lb : Int) ∧
        fileOff = if n.Flags.Has NodeFlagCompressed then (n.DataOffset.val : Int) + 4 + 4
                  else (n.DataOffset.val : Int) + 4 := by
  unfold Node.Data at h
  split at h
  · cases h
  rename_i hd
  refine ⟨by simpa using hd, ?_⟩
  split at h
  · cases h
  rename_i hv
  refine ⟨hv, ?_⟩
  split at h
  · cases h
  rename_i lb hlb
  obtain ⟨_, hread, _, _⟩ := sectionBinaryRead_fst_ok _ 4 lb (by decide) hlb
  refine ⟨lb, hread, ?_⟩
  dsimp only at h
  split at h
  · rename_i hz
    rw [if_pos hz]
    split at h
    · cases h
    · split at h
      · cases h
      · simp only [Except.ok.injEq, Prod.mk.injEq] at h
        exact ⟨h.2.2.symm, h.2.1.symm⟩
  · rename_i hz
    rw [if_neg hz]
    split at h
    · split at h
      · cases h
      · simp only [Except.ok.injEq, Prod.mk.injEq] at h
        exact ⟨h.2.2.symm, h.2.1.symm⟩
    · simp only [Except.ok.injEq, Prod.mk.injEq] at h
      exact ⟨h.2.2.symm, h.2.1.symm⟩

/-- Where the reported span ends: at the end of the data record, `DataOffset + 4 +
byte_length`, for a node without the Compressed flag, and 4 bytes after it for a node with
the Compressed flag. -/
theorem Data_span_end (codecs : Codecs) (n : Node) (data : ReaderAt) (rc : ReadCloser)
    (fileOff fileSz : Int) (h : n.Data codecs data = .ok (rc, fileOff, fileSz)) :
    ∃ lb, data.ReadAt (n.DataOffset.val : Int) 4 = (lb, none) ∧
      fileOff + fileSz = (n.DataOffset.val : Int) + 4 + (beUint lb : Int) +
        (if n.Flags.Has NodeFlagCompressed then 4 else 0) := by
  obtain ⟨_, _, lb, hlb, hsz, hoff⟩ := Data_ok_inv codecs n data rc fileOff fileSz h
  refine ⟨lb, hlb, ?_⟩
  rw [hsz, hoff]
  split <;> omega

/-- C8 fails on the code for a Compressed node: for the record at offset 0 with
`byte_length = 6`, which ends at offset 10 (the end of the region), `Node.Data` reports
offset 8 and size 6, a span that ends at 14. -/
theorem C8_compressed_span_overruns_record :
    zlibNode.Data passCodecs (.bytes zlibRegion) = .ok (([120, 156], none), 8, 6) ∧
      zlibRegion.length = 10 ∧ (8 : Int) + 6 ≠ 0 + 4 + 6 := by
  decide

theorem ReadAll_section (data : ReaderAt) (off : Int) (len : Nat) (bs : List Byte)
    (hoff : off ≤ maxInt64 - (len : Int))
    (h : len = 0 ∧ bs = [] ∨ 0 < len ∧ data.ReadAt off len = (bs, none)) :
    (NewSectionReader data off (len : Int)).ReadAll = (bs, none) := by
  rw [NewSectionReader_small _ _ _ hoff]
  unfold SectionReader.ReadAll
  rw [sectionRead_eq]
  dsimp only
  rcases h with ⟨h0, hb⟩ | ⟨hpos, hr⟩
  · subst h0; subst hb
    rw [if_pos (by simp)]
  · rw [if_neg (by omega), if_neg (by omega)]
    have : ((len : Int) + off - off).toNat = len := by omega
    rw [this, hr]

/-- C9: for every file node with valid flags and neither compression flag set whose data
record (the 4-byte length `len` and `len` bytes of payload) lies wholly inside the data
region, `Node.Data` succeeds, reports `fileOff = DataOffset + 4` and `fileSz = len`, and
the stream it returns, read to its end, yields without error exactly the `fileSz` bytes of
the data region that start at `fileOff`. -/
theorem C9_verbatim_stream_is_payload (codecs : Codecs) (n : Node) (data : ReaderAt)
    (record : List Byte) (len : Nat) (hdir : n.IsDir = false) (hvalid : n.Flags.Valid = none)
    (hz : n.Flags.Has NodeFlagCompressed = false)
    (hzstd : n.Flags.Has NodeFlagCompressedZstd = false)
    (hrec : data.ReadAt (n.DataOffset.val : Int) (4 + len) = (record, none))
    (hlen : beUint (record.take 4) = len) :
    n.Data codecs data =
        .ok ((record.drop 4, none), (n.DataOffset.val : Int) + 4, (len : Int)) ∧
      (record.drop 4).length = len ∧
      (0 < len → data.ReadAt ((n.DataOffset.val : Int) + 4) len = (record.drop 4, none)) := by
  have hfull := ReadAt_full data _ _ (by rw [hrec])
  rw [hrec] at hfull
  simp only at hfull
  have hdl : (record.drop 4).length = len := by rw [List.length_drop]; omega
  have h4 : data.ReadAt (n.DataOffset.val : Int) 4 = (record.take 4, none) := by
    have := ReadAt_sub data _ _ _ hrec 0 4 (by decide) (by omega)
    simpa using this
  have hpay : 0 < len → data.ReadAt ((n.DataOffset.val : Int) + 4) len = (record.drop 4, none) := by
    intro hpos
    have := ReadAt_sub data _ _ _ hrec 4 len hpos (by omega)
    rw [List.take_of_length_le (by omega)] at this
    exact this
  have hlt : (n.DataOffset.val : Int) < 4294967296 := by
    have := n.DataOffset.isLt
    omega
  have hlen4 : len < 4294967296 := by
    have hl : (record.take 4).length = 4 := by rw [List.length_take]; omega
    rw [← hlen]
    match record.take 4, hl with
    | [b0, b1, b2, b3], _ =>
      simp only [beUint, List.foldl]
      have := b0.isLt
      have := b1.isLt
      have := b2.isLt
      have := b3.isLt
      omega
  refine ⟨?_, hdl, hpay⟩
  have hread : ((NewSectionReader data (n.DataOffset.val : Int) 4).binaryRead 4).1
      = .ok (record.take 4) := by
    have : (NewSectionReader data (n.DataOffset.val : Int) 4).binaryRead 4 =
        (.ok (record.take 4),
          { r := data, base := n.DataOffset.val, off := n.DataOffset.val + 4,
            limit := 4 + n.DataOffset.val }) := by
      rw [NewSectionReader_small _ _ _ (by unfold maxInt64; omega), sectionBinaryRead_ok]
      right
      refine ⟨by decide, ?_, h4, rfl⟩
      show ((4 : Nat) : Int) ≤ 4 + (n.DataOffset.val : Int) - (n.DataOffset.val : Int)
      omega
    rw [this]
  unfold Node.Data
  rw [hdir, hvalid, hread]
  simp only [Bool.false_eq_true, if_false, hz, hzstd, hlen]
  rw [ReadAll_section data _ len (record.drop 4) (by unfold maxInt64; omega)]
  rcases Nat.eq_zero_or_pos len with h0 | hpos
  · left
    refine ⟨h0, ?_⟩
    apply List.eq_nil_of_length_eq_zero
    omega
  · right
    exact ⟨hpos, hpay hpos⟩

/-- C10: `ParseNode` returns a node if and only if the format is at most 3, a whole record
of `nodeSize format` bytes can be read from the stream, and the big-endian 16-bit flags at
bytes 4-5 of the record pass `NodeFlag.Valid`; in every other case it returns an error. -/
theorem C10_ParseNode_succeeds_iff (r : SectionReader) (format : Int) :
    ((∃ n, (ParseNode r format).1 = .ok n) ↔
      (format ≤ 3 ∧ ∃ bs, (r.binaryRead (nodeSize format).toNat).1 = .ok bs ∧
        NodeFlag.Valid (beFin 16 ((bs.drop 4).take 2)) = none)) ∧
    ((∃ err, (ParseNode r format).1 = .error err) ↔
      ¬ (format ≤ 3 ∧ ∃ bs, (r.binaryRead (nodeSize format).toNat).1 = .ok bs ∧
        NodeFlag.Valid (beFin 16 ((bs.drop 4).take 2)) = none)) := by
  have hpos : 0 < (nodeSize format).toNat := by rw [nodeSize_eq]; split <;> decide
  have hwn : ((nodeSize format).toNat : Int) = nodeSize format := by
    rw [nodeSize_eq]; split <;> rfl
  have key : (∃ n, (ParseNode r format).1 = .ok n) ↔
      (format ≤ 3 ∧ ∃ bs, (r.binaryRead (nodeSize format).toNat).1 = .ok bs ∧
        NodeFlag.Valid (beFin 16 ((bs.drop 4).take 2)) = none) := by
    constructor
    · rintro ⟨n, hn⟩
      rcases hp : ParseNode r format with ⟨res, r'⟩
      rw [hp] at hn
      simp only at hn
      subst hn
      obtain ⟨hf, hw, bs, hread, hv⟩ := ParseNode_ok_inv r r' format n hp
      refine ⟨hf, bs, ?_, hv⟩
      have : r.binaryRead (nodeSize format).toNat =
          (.ok bs, { r with off := r.off + ((nodeSize format).toNat : Int) }) := by
        rw [sectionBinaryRead_ok]
        right
        exact ⟨hpos, by rw [hwn]; exact hw, hread, rfl⟩
      rw [this]
    · rintro ⟨hf, bs, hread, hv⟩
      obtain ⟨hw, hr, _, _⟩ := sectionBinaryRead_fst_ok r _ bs hpos hread
      rw [hwn] at hw
      rw [ParseNode_of_read r format bs hf hw hr hv]
      exact ⟨_, rfl⟩
  refine ⟨key, ?_⟩
  rw [← key]
  cases h : (ParseNode r format).1 with
  | ok n => simp
  | error err => simp

/-! ## The walker -/

theorem hostileRoot_isDir : Node.IsDir hostileRoot = true := by decide
theorem hostileEntry_isDir (v : GoString) : ReaderEntry.IsDir { v := v, n := hostileRoot, r := hostileReader } = true := by
  show Node.IsDir hostileRoot = true
  decide
theorem hostile_children0 :
    ReaderEntry.Children { v := [], n := hostileRoot, r := hostileReader } =
      .ok [{ v := [97], n := hostileRoot, r := hostileReader }] := by
  decide
theorem Children_name_irrel (v v' : GoString) (n : Node) (r : Reader) :
    ReaderEntry.Children { v := v, n := n, r := r } = ReaderEntry.Children { v := v', n := n, r := r } :=
  rfl
theorem hostile_children (v : GoString) :
    ReaderEntry.Children { v := v, n := hostileRoot, r := hostileReader } =
      .ok [{ v := [97], n := hostileRoot, r := hostileReader }] := by
  rw [Children_name_irrel v []]; exact hostile_children0
theorem walk_succ (codecs : Codecs) (fn : WalkFunc) (rr : Bool) (fuel : Nat) (tr : List Call) (path : GoString) (entry : ReaderEntry) :
  walk codecs fn rr (fuel + 1) tr path entry =
    if entry.IsDir then
      match entry.Children with
      | .error err =>
        if path = [] then some (tr, .ret (some err))
        else
          some (callAndReturn fn tr
            { path := path, entry := entry,
              err := some (.wrapf "walk: get children for dir %q: %w" path err) })
      | .ok c =>
        if path ≠ [] then
          match fn tr { path := path, entry := entry, err := none } with
          | some err =>
            if err.isSkipDir then
              some (tr ++ [{ path := path, entry := entry, err := none }], .ret none)
            else
              some (tr ++ [{ path := path, entry := entry, err := none }],
                .ret (some (.wrapf "walk %q: %w" path err)))
          | none =>
            walkChildren (walk codecs fn rr fuel) path c
              (tr ++ [{ path := path, entry := entry, err := none }])
        else walkChildren (walk codecs fn rr fuel) path c tr
    else if rr && decide (filepathExt path = dotRcc) then
      match nestedRCC codecs path entry with
      | .error err => some (callAndReturn fn tr { path := path, entry := entry, err := some err })
      | .ok r =>
        match walk codecs fn rr fuel tr path { v := entry.v, n := r.root, r := r } with
        | none => none
        | some (tr, .panic msg) => some (tr, .panic msg)
        | some (tr, .ret none) => some (tr, .ret none)
        | some (tr, .ret (some err)) =>
          if err.isSkipDir then
            some (tr, .panic "filepath.SkipDir shouldn't have been returned from walk")
          else some (tr, .ret (some (.wrapf "walk nested rcc %q: %w" path err)))
    else some (callAndReturn fn tr { path := path, entry := entry, err := none }) := rfl

theorem hostile_walk_none : ∀ (fuel : Nat) (tr : List Call) (path v : GoString),
    walk nullCodecs nilFunc false fuel tr path { v := v, n := hostileRoot, r := hostileReader }
      = none := by
  intro fuel
  induction fuel with
  | zero => intro tr path v; rfl
  | succ fuel ih =>
    intro tr path v
    rw [walk_succ, hostileEntry_isDir, if_pos rfl, hostile_children]
    simp only [nilFunc, walkChildren, ih, ReaderEntry.Name]
    split <;> rfl

/-- C1, as stated, fails: the hostile archive (a root with `child_count = 1` and
`child_offset = 0`) is accepted by `NewReader`, and with the callback that always returns nil
`Walk` never returns, whatever the depth allowed to the recursion: there is no depth guard
and no error. -/
theorem C1_counterexample :
    NewReader (.bytes hostileArchive) 1 0 0 14 = .ok hostileReader ∧
      ¬ ∃ fuel res, hostileReader.Walk nullCodecs nilFunc false fuel = some res := by
  refine ⟨by decide, ?_⟩
  rintro ⟨fuel, res, h⟩
  rw [Reader.Walk] at h
  have := hostile_walk_none fuel [] [] []
  rw [show hostileReader.root = hostileRoot from rfl, this] at h
  exact Option.noConfusion h

section walker
variable (codecs : Codecs) (fn : WalkFunc) (rr : Bool)

theorem walkChildren_mono (rec rec' : List Call → GoString → ReaderEntry → Option WalkResult)
    (hrec : ∀ tr p e res, rec tr p e = some res → rec' tr p e = some res) (path : GoString) :
    ∀ (c : List ReaderEntry) (tr : List Call) (res : WalkResult),
      walkChildren rec path c tr = some res → walkChildren rec' path c tr = some res := by
  intro c
  induction c with
  | nil => intro tr res h; exact h
  | cons v c ih =>
    intro tr res h
    simp only [walkChildren] at h ⊢
    cases hv : rec tr (trimLeftSlash (path ++ [0x2F] ++ v.Name)) v with
    | none => rw [hv] at h; simp at h
    | some r =>
      rw [hv] at h
      rw [hrec _ _ _ _ hv]
      obtain ⟨tr1, out⟩ := r
      cases out with
      | panic msg => exact h
      | ret err =>
        cases err with
        | none => exact ih _ _ h
        | some err => exact h

/-- More fuel does not change a result. -/
theorem walk_mono : ∀ (fuel : Nat) (tr : List Call) (path : GoString) (e : ReaderEntry)
    (res : WalkResult), walk codecs fn rr fuel tr path e = some res →
    walk codecs fn rr (fuel + 1) tr path e = some res := by
  intro fuel
  induction fuel with
  | zero => intro tr path e res h; simp [walk] at h
  | succ fuel ih =>
    intro tr path e res h
    rw [walk_succ] at h ⊢
    have hch := walkChildren_mono (walk codecs fn rr fuel) (walk codecs fn rr (fuel + 1)) ih path
    split
    · rename_i hd
      rw [if_pos hd] at h
      split
      · rename_i err hc
        rw [hc] at h; exact h
      · rename_i c hc
        rw [hc] at h
        dsimp only at h
        split
        · rename_i hp
          rw [if_pos hp] at h
          split
          · rename_i err hf
            rw [hf] at h; exact h
          · rename_i hf
            rw [hf] at h
            exact hch _ _ _ h
        · rename_i hp
          rw [if_neg hp] at h
          exact hch _ _ _ h
    · rename_i hd
      rw [if_neg hd] at h
      split
      · rename_i hr
        rw [if_pos hr] at h
        split
        · rename_i err hn
          rw [hn] at h; exact h
        · rename_i r hn
          rw [hn] at h
          dsimp only at h
          cases hw : walk codecs fn rr fuel tr path { v := e.v, n := r.root, r := r } with
          | none => rw [hw] at h; simp at h
          | some r1 =>
            rw [hw] at h
            rw [ih _ _ _ _ hw]
            exact h
      · rename_i hr
        rw [if_neg hr] at h
        exact h

theorem walk_mono_le (fuel fuel' : Nat) (hle : fuel ≤ fuel') (tr : List Call) (path : GoString)
    (e : ReaderEntry) (res : WalkResult) (h : walk codecs fn rr fuel tr path e = some res) :
    walk codecs fn rr fuel' tr path e = some res := by
  induction hle with
  | refl => exact h
  | step _ ih => exact walk_mono codecs fn rr _ _ _ _ _ ih

end walker

section termination
variable (codecs : Codecs) (rr : Bool)

/-- The loop over the children returns if the call for each child returns. -/
theorem walkChildren_returns (rec : List Call → GoString → ReaderEntry → Option WalkResult)
    (path : GoString) : ∀ (c : List ReaderEntry),
    (∀ v, v ∈ c → ∀ tr, ∃ res, rec tr (trimLeftSlash (path ++ [0x2F] ++ v.Name)) v = some res) →
    ∀ tr, ∃ res, walkChildren rec path c tr = some res := by
  intro c
  induction c with
  | nil => intro _ tr; exact ⟨_, rfl⟩
  | cons v c ih =>
    intro hall tr
    obtain ⟨⟨tr1, out⟩, hv⟩ := hall v (List.mem_cons_self _ _) tr
    simp only [walkChildren, hv]
    cases out with
    | panic msg => exact ⟨_, rfl⟩
    | ret err =>
      cases err with
      | none => exact ih (fun w hw => hall w (List.mem_cons_of_mem _ hw)) tr1
      | some err =>
        dsimp only
        split
        · exact ⟨_, rfl⟩
        · split <;> exact ⟨_, rfl⟩

/-- A common bound for finitely many bounds. -/
theorem exists_common_bound {α : Type} (P : α → Nat → Prop)
    (hP : ∀ a n m, P a n → n ≤ m → P a m) : ∀ (l : List α),
    (∀ a, a ∈ l → ∃ n, P a n) → ∃ n, ∀ a, a ∈ l → P a n := by
  intro l
  induction l with
  | nil => intro _; exact ⟨0, fun a ha => absurd ha (List.not_mem_nil a)⟩
  | cons x l ih =>
    intro h
    obtain ⟨n1, h1⟩ := h x (List.mem_cons_self _ _)
    obtain ⟨n2, h2⟩ := ih (fun a ha => h a (List.mem_cons_of_mem _ ha))
    refine ⟨max n1 n2, fun a ha => ?_⟩
    rcases List.mem_cons.mp ha with rfl | ha
    · exact hP _ _ _ h1 (Nat.le_max_left _ _)
    · exact hP _ _ _ (h2 a ha) (Nat.le_max_right _ _)

/-- On a finite tree `walk` returns, whatever the callback does. -/
theorem walk_returns_of_finite (path : GoString) (e : ReaderEntry)
    (h : FiniteTree codecs rr path e) :
    ∃ N, ∀ fuel, N ≤ fuel → ∀ (fn : WalkFunc) (tr : List Call),
      ∃ res, walk codecs fn rr fuel tr path e = some res := by
  induction h with
  | listFails path e err hd hc =>
    refine ⟨1, fun fuel hf fn tr => ?_⟩
    obtain ⟨k, rfl⟩ : ∃ k, fuel = k + 1 := ⟨fuel - 1, by omega⟩
    rw [walk_succ, if_pos hd, hc]
    dsimp only
    split <;> exact ⟨_, rfl⟩
  | dir path e c hd hc _ ih =>
    obtain ⟨N, hN⟩ := exists_common_bound
      (fun (v : ReaderEntry) (n : Nat) => ∀ fuel, n ≤ fuel → ∀ (fn : WalkFunc) (tr : List Call),
        ∃ res, walk codecs fn rr fuel tr (trimLeftSlash (path ++ [0x2F] ++ v.Name)) v = some res)
      (fun a n m hn hnm fuel hf => hn fuel (Nat.le_trans hnm hf)) c ih
    refine ⟨N + 1, fun fuel hf fn tr => ?_⟩
    obtain ⟨k, rfl⟩ : ∃ k, fuel = k + 1 := ⟨fuel - 1, by omega⟩
    have hk : N ≤ k := by omega
    have hloop := walkChildren_returns (walk codecs fn rr k) path c
      (fun v hv tr => hN v hv k hk fn tr)
    rw [walk_succ, if_pos hd, hc]
    dsimp only
    split
    · split
      · split <;> exact ⟨_, rfl⟩
      · exact hloop _
    · exact hloop _
  | file path e hd hr =>
    refine ⟨1, fun fuel hf fn tr => ?_⟩
    obtain ⟨k, rfl⟩ : ∃ k, fuel = k + 1 := ⟨fuel - 1, by omega⟩
    rw [walk_succ, hd, hr]
    exact ⟨_, rfl⟩
  | rccFails path e err hd hr hn =>
    refine ⟨1, fun fuel hf fn tr => ?_⟩
    obtain ⟨k, rfl⟩ : ∃ k, fuel = k + 1 := ⟨fuel - 1, by omega⟩
    rw [walk_succ, hd, hr, hn]
    exact ⟨_, rfl⟩
  | rcc path e r hd hr hn _ ih =>
    obtain ⟨N, hN⟩ := ih
    refine ⟨N + 1, fun fuel hf fn tr => ?_⟩
    obtain ⟨k, rfl⟩ : ∃ k, fuel = k + 1 := ⟨fuel - 1, by omega⟩
    obtain ⟨⟨tr1, out⟩, hw⟩ := hN k (by omega) fn tr
    rw [walk_succ, hd, hr, hn]
    simp only [hw, Bool.false_eq_true, if_false, if_true]
    cases out with
    | panic msg => exact ⟨_, rfl⟩
    | ret err =>
      cases err with
      | none => exact ⟨_, rfl⟩
      | some err =>
        dsimp only
        split <;> exact ⟨_, rfl⟩

end termination

theorem sample_accepted : NewReader (.bytes sampleArchive) 1 0 80 56 = .ok sampleReader := by
  decide

theorem sample_root_children : sampleRootEntry.Children = .ok [sampleD, sampleF] := by decide

theorem sample_d_children : sampleD.Children = .ok [sampleG] := by decide

theorem sample_finite (rr : Bool) : FiniteTree nullCodecs rr [] sampleRootEntry := by
  refine FiniteTree.dir [] sampleRootEntry [sampleD, sampleF] (by decide) sample_root_children ?_
  intro v hv
  simp only [List.mem_cons, List.mem_singleton, List.not_mem_nil, or_false] at hv
  rcases hv with rfl | rfl
  · refine FiniteTree.dir _ sampleD [sampleG] (by decide) sample_d_children ?_
    intro v hv
    simp only [List.mem_cons, List.mem_singleton, List.not_mem_nil, or_false] at hv
    subst hv
    exact FiniteTree.file _ sampleG (by decide) (by cases rr <;> decide)
  · exact FiniteTree.file _ sampleF (by decide) (by cases rr <;> decide)

/-- C1, amended: on every archive whose tree is finite (no directory is among its own
descendants, directly or through nested archives) `Walk` returns, for every callback and
either value of `rccRecurse`: from some depth bound on, the call yields a result (a finite
list of callback invocations and an outcome). -/
theorem C1_walk_returns_on_finite_tree (codecs : Codecs) (rd : Reader) (rccRecurse : Bool)
    (h : FiniteTree codecs rccRecurse [] { v := [], n := rd.root, r := rd }) :
    ∃ N, ∀ fuel, N ≤ fuel → ∀ fn : WalkFunc, ∃ res, rd.Walk codecs fn rccRecurse fuel = some res := by
  obtain ⟨N, hN⟩ := walk_returns_of_finite codecs rccRecurse [] _ h
  exact ⟨N, fun fuel hf fn => hN fuel hf fn []⟩

/-- C1, amended, at the sample archive with `rccRecurse = true`. -/
theorem C1_walk_returns_on_finite_tree_witness :
    FiniteTree nullCodecs true [] { v := [], n := sampleReader.root, r := sampleReader } ∧
    ∃ N, ∀ fuel, N ≤ fuel → ∀ fn : WalkFunc,
      ∃ res, sampleReader.Walk nullCodecs fn true fuel = some res :=
  ⟨sample_finite true, C1_walk_returns_on_finite_tree nullCodecs sampleReader true (sample_finite true)⟩

theorem trimLeftSlash_of_noLeading (p : GoString) (h : NoLeadingSlash p) : trimLeftSlash p = p := by
  cases p with
  | nil => rfl
  | cons b rest =>
    have hb : b ≠ 0x2F := fun hb => h rest (by rw [hb])
    simp [trimLeftSlash, hb]

/-- The child path that `walk` builds is the parent's path joined to the name. -/
theorem childPath_eq (parent name : GoString) (hp : NoLeadingSlash parent) (hne : name ≠ [])
    (hs : (0x2F : Byte) ∉ name) :
    trimLeftSlash (parent ++ [0x2F] ++ name) = joinPath parent name ∧
      joinPath parent name ≠ [] ∧ NoLeadingSlash (joinPath parent name) := by
  have hname : NoLeadingSlash name := by
    intro rest hr
    apply hs
    rw [hr]
    exact List.mem_cons_self _ _
  cases parent with
  | nil =>
    refine ⟨?_, ?_, ?_⟩
    · show trimLeftSlash (0x2F :: name) = joinPath [] name
      simp only [trimLeftSlash, if_true, joinPath]
      exact trimLeftSlash_of_noLeading name hname
    · simpa [joinPath] using hne
    · simpa [joinPath] using hname
  | cons b rest =>
    have hb : b ≠ 0x2F := fun hb => hp rest (by rw [hb])
    refine ⟨?_, ?_, ?_⟩
    · simp [trimLeftSlash, hb, joinPath]
    · simp [joinPath]
    · intro r hr
      simp only [joinPath, reduceCtorEq, if_false, List.cons_append, List.cons.injEq] at hr
      exact hb hr.1

/-- On an encoded forest the child loop of `walk` reports the pre-order listing. -/
theorem walkChildren_encodes (codecs : Codecs) (c : List ReaderEntry) (f : Forest)
    (henc : Encodes c f) :
    f.NamesOK → ∀ (parent : GoString) (tr : List Call) (fuel : Nat), NoLeadingSlash parent →
      f.depth ≤ fuel →
      walkChildren (walk codecs nilFunc false fuel) parent c tr =
        some (tr ++ f.preorder parent, .ret none) := by
  induction henc with
  | nil =>
    intro _ parent tr fuel _ _
    simp [walkChildren, Forest.preorder]
  | file e es rest hd _ ih =>
    intro hn parent tr fuel hp hf
    obtain ⟨hne, hs, _, hnr⟩ := hn
    obtain ⟨hpath, _, _⟩ := childPath_eq parent e.v hp hne hs
    have hf1 : 1 ≤ fuel ∧ rest.depth ≤ fuel := by
      simp only [Forest.depth] at hf; omega
    obtain ⟨k, rfl⟩ : ∃ k, fuel = k + 1 := ⟨fuel - 1, by omega⟩
    simp only [walkChildren, ReaderEntry.Name, hpath, walk_succ, hd, Bool.false_and,
      Bool.false_eq_true, if_false, callAndReturn, nilFunc]
    rw [ih hnr parent _ (k + 1) hp hf1.2]
    simp [Forest.preorder]
  | dir e c es kids rest hd hc _ _ ihk ihr =>
    intro hn parent tr fuel hp hf
    obtain ⟨hne, hs, hnk, hnr⟩ := hn
    obtain ⟨hpath, hpne, hpl⟩ := childPath_eq parent e.v hp hne hs
    have hf1 : kids.depth + 1 ≤ fuel ∧ rest.depth ≤ fuel := by
      simp only [Forest.depth] at hf; omega
    obtain ⟨k, rfl⟩ : ∃ k, fuel = k + 1 := ⟨fuel - 1, by omega⟩
    simp only [walkChildren, ReaderEntry.Name, hpath, walk_succ, hd, if_true, hc, ne_eq, hpne,
      not_false_eq_true, nilFunc]
    rw [ihk hnk _ _ k hpl (by omega)]
    dsimp only
    rw [ihr hnr parent _ (k + 1) hp hf1.2]
    simp [Forest.preorder]

/-- For every archive in which the root is a directory that can be listed, the entries below
it form a finite forest in which every directory can be listed, and every name is non-empty
and contains no '/': with `rccRecurse = false` and the callback that always returns nil, `Walk` returns
nil and the invocations of the callback are exactly the depth-first pre-order listing of the
forest: every non-root node once, with a nil error, a directory before its children, children
in their on-disk order, each path the parent's path joined to the name with '/'. -/
theorem walk_preorder_of_encodes (codecs : Codecs) (rd : Reader) (c : List ReaderEntry)
    (f : Forest) (hroot : rd.root.IsDir = true)
    (hc : ReaderEntry.Children { v := [], n := rd.root, r := rd } = .ok c)
    (henc : Encodes c f) (hnames : f.NamesOK) :
    ∀ fuel, f.depth < fuel →
      rd.Walk codecs nilFunc false fuel = some (f.preorder [], .ret none) := by
  intro fuel hf
  obtain ⟨k, rfl⟩ : ∃ k, fuel = k + 1 := ⟨fuel - 1, by omega⟩
  have hd : ReaderEntry.IsDir { v := [], n := rd.root, r := rd } = true := hroot
  rw [Reader.Walk, walk_succ, if_pos hd, hc]
  simp only [ne_eq, not_true_eq_false, if_false]
  rw [walkChildren_encodes codecs c f henc hnames [] [] k (fun rest h => by cases h) (by omega)]
  simp

theorem sample_encodes : Encodes [sampleD, sampleF] sampleForest :=
  Encodes.dir sampleD [sampleG] [sampleF] _ _ (by decide) sample_d_children
    (Encodes.file sampleG [] _ (by decide) Encodes.nil)
    (Encodes.file sampleF [] _ (by decide) Encodes.nil)

theorem sample_namesOK : sampleForest.NamesOK := by
  simp only [sampleForest, Forest.NamesOK, and_true]
  decide

/-- The listing of the sample archive is "d", "d/g", "f". -/
theorem walk_preorder_of_encodes_sample :
    sampleReader.Walk nullCodecs nilFunc false 3 =
      some ([{ path := [100], entry := sampleD, err := none },
             { path := [100, 47, 103], entry := sampleG, err := none },
             { path := [102], entry := sampleF, err := none }], .ret none) :=
  walk_preorder_of_encodes nullCodecs sampleReader [sampleD, sampleF] sampleForest
    (by decide) sample_root_children sample_encodes sample_namesOK 3 (by decide)

/-- C3: if the callback returns `filepath.SkipDir` when invoked for a directory `v` at a
non-empty path (a non-root directory), then the call of `walk` for `v` makes that one
invocation and no other (none for a descendant of `v`) and returns nil, and the loop over the
children of the parent goes on with the next sibling of `v`. -/
theorem C3_skipdir_prunes_directory (codecs : Codecs) (fn : WalkFunc) (rccRecurse : Bool)
    (fuel : Nat) (parent : GoString) (v : ReaderEntry) (rest : List ReaderEntry)
    (tr : List Call) (hdir : v.IsDir = true)
    (hpath : trimLeftSlash (parent ++ [0x2F] ++ v.Name) ≠ [])
    (hskip : fn tr (dirCall (trimLeftSlash (parent ++ [0x2F] ++ v.Name)) v) = some .skipDir) :
    walk codecs fn rccRecurse (fuel + 1) tr (trimLeftSlash (parent ++ [0x2F] ++ v.Name)) v =
        some (tr ++ [dirCall (trimLeftSlash (parent ++ [0x2F] ++ v.Name)) v], .ret none) ∧
      walkChildren (walk codecs fn rccRecurse (fuel + 1)) parent (v :: rest) tr =
        walkChildren (walk codecs fn rccRecurse (fuel + 1)) parent rest
          (tr ++ [dirCall (trimLeftSlash (parent ++ [0x2F] ++ v.Name)) v]) := by
  have hw : walk codecs fn rccRecurse (fuel + 1) tr (trimLeftSlash (parent ++ [0x2F] ++ v.Name)) v =
      some (tr ++ [dirCall (trimLeftSlash (parent ++ [0x2F] ++ v.Name)) v], .ret none) := by
    rw [walk_succ, if_pos hdir]
    unfold dirCall at hskip ⊢
    cases hc : v.Children with
    | error err =>
      rw [hc] at hskip
      simp only [if_neg hpath, callAndReturn, hskip, GoError.isSkipDir, if_true]
    | ok c =>
      rw [hc] at hskip
      simp only [ne_eq, hpath, not_false_eq_true, if_true, hskip, GoError.isSkipDir]
  refine ⟨hw, ?_⟩
  simp only [walkChildren, hw]

/-- C3 at the directory "d" of the sample archive, with the callback that prunes "d". -/
theorem C3_skipdir_prunes_directory_witness :
    walk nullCodecs skipD false 2 [] (trimLeftSlash ([] ++ [0x2F] ++ sampleD.Name)) sampleD =
        some ([] ++ [dirCall (trimLeftSlash ([] ++ [0x2F] ++ sampleD.Name)) sampleD], .ret none) ∧
      walkChildren (walk nullCodecs skipD false 2) [] (sampleD :: [sampleF]) [] =
        walkChildren (walk nullCodecs skipD false 2) [] [sampleF]
          ([] ++ [dirCall (trimLeftSlash ([] ++ [0x2F] ++ sampleD.Name)) sampleD]) :=
  C3_skipdir_prunes_directory nullCodecs skipD false 1 [] sampleD [sampleF] [] (by decide)
    (by decide) (by decide)

theorem sample_skipD_walk :
    sampleReader.Walk nullCodecs skipD false 3 =
      some ([{ path := [100], entry := sampleD, err := none },
             { path := [102], entry := sampleF, err := none }], .ret none) := by
  decide

theorem Quiet_append (fn : WalkFunc) : ∀ (a b tr : List Call),
    Quiet fn tr (a ++ b) ↔ Quiet fn tr a ∧ Quiet fn (tr ++ a) b := by
  intro a
  induction a with
  | nil => intro b tr; simp [Quiet]
  | cons x a ih =>
    intro b tr
    show Quiet fn tr (x :: (a ++ b)) ↔ _
    simp only [Quiet, ih, List.append_assoc, List.singleton_append, and_assoc]

theorem Wraps_not_skipDir (outer e : GoError) (h : Wraps outer e) : outer.isSkipDir = false := by
  cases h <;> rfl

/-- The invariant after a prefix of quiet invocations. -/
theorem WalkInv_prepend (fn : WalkFunc) (tr a : List Call) (res : WalkResult)
    (ha : Quiet fn tr a) (h : WalkInv fn (tr ++ a) res) : WalkInv fn tr res := by
  obtain ⟨calls, h1, h2⟩ := h
  refine ⟨a ++ calls, by rw [h1, List.append_assoc], ?_⟩
  rcases h2 with hq | ⟨pre, c, e, e', hc, hq, hf, hs, hr, hw⟩
  · exact Or.inl ((Quiet_append fn a calls tr).2 ⟨ha, hq⟩)
  · refine Or.inr ⟨a ++ pre, c, e, e', by rw [hc, List.append_assoc],
      (Quiet_append fn a pre tr).2 ⟨ha, hq⟩, by rw [← List.append_assoc]; exact hf, hs, hr, hw⟩

/-- The invariant is kept when the outcome is replaced by one that still wraps the error. -/
theorem WalkInv_map (fn : WalkFunc) (tr tr' : List Call) (out out' : Outcome)
    (h : WalkInv fn tr (tr', out))
    (hout : ∀ e' e, out = .ret (some e') → Wraps e' e → ∃ e'', out' = .ret (some e'') ∧ Wraps e'' e) :
    WalkInv fn tr (tr', out') := by
  obtain ⟨calls, h1, h2⟩ := h
  refine ⟨calls, h1, ?_⟩
  rcases h2 with hq | ⟨pre, c, e, e', hc, hq, hf, hs, hr, hw⟩
  · exact Or.inl hq
  · obtain ⟨e'', ho, hw'⟩ := hout e' e hr hw
    exact Or.inr ⟨pre, c, e, e'', hc, hq, hf, hs, ho, hw'⟩

/-- If the outcome is not an error, every invocation was quiet. -/
theorem WalkInv_quiet (fn : WalkFunc) (tr tr' : List Call) (out : Outcome)
    (h : WalkInv fn tr (tr', out)) (hout : ∀ e', out = .ret (some e') → e'.isSkipDir = true) :
    ∃ calls, tr' = tr ++ calls ∧ Quiet fn tr calls := by
  obtain ⟨calls, h1, h2⟩ := h
  refine ⟨calls, h1, ?_⟩
  rcases h2 with hq | ⟨pre, c, e, e', hc, hq, hf, hs, hr, hw⟩
  · exact hq
  · have := hout e' hr
    rw [Wraps_not_skipDir e' e hw] at this
    cases this

theorem callAndReturn_inv (fn : WalkFunc) (tr : List Call) (c : Call) :
    WalkInv fn tr (callAndReturn fn tr c) := by
  unfold callAndReturn
  cases hf : fn tr c with
  | none =>
    refine ⟨[c], rfl, Or.inl ?_⟩
    simp [Quiet, hf]
  | some err =>
    dsimp only
    cases hs : err.isSkipDir with
    | true =>
      refine ⟨[c], by simp, Or.inl ?_⟩
      simp only [Quiet, hf, Option.some.injEq, and_true]
      intro e he; rw [← he]; exact hs
    | false =>
      simp only [Bool.false_eq_true, if_false]
      exact ⟨[c], rfl, Or.inr ⟨[], c, err, .wrapf "walk %q: %w" c.path err, rfl, trivial,
        by simpa using hf, hs, rfl, Wraps.one _ _⟩⟩

theorem walkChildren_inv (fn : WalkFunc)
    (rec : List Call → GoString → ReaderEntry → Option WalkResult)
    (hrec : ∀ tr p e res, rec tr p e = some res → WalkInv fn tr res) (path : GoString) :
    ∀ (c : List ReaderEntry) (tr : List Call) (res : WalkResult),
      walkChildren rec path c tr = some res → WalkInv fn tr res := by
  intro c
  induction c with
  | nil =>
    intro tr res h
    simp only [walkChildren, Option.some.injEq] at h
    subst h
    exact ⟨[], by simp, Or.inl trivial⟩
  | cons v c ih =>
    intro tr res h
    simp only [walkChildren] at h
    cases hv : rec tr (trimLeftSlash (path ++ [0x2F] ++ v.Name)) v with
    | none => rw [hv] at h; simp at h
    | some r =>
      rw [hv] at h
      have hinv := hrec _ _ _ _ hv
      obtain ⟨tr1, out⟩ := r
      cases out with
      | panic msg =>
        simp only [Option.some.injEq] at h
        subst h
        exact hinv
      | ret err =>
        cases err with
        | none =>
          dsimp only at h
          obtain ⟨calls, h1, hq⟩ := WalkInv_quiet fn tr tr1 _ hinv (by intro e' he; cases he)
          subst h1
          exact WalkInv_prepend fn tr calls res hq (ih _ _ h)
        | some err =>
          dsimp only at h
          split at h
          · rename_i hs
            simp only [Option.some.injEq] at h
            subst h
            obtain ⟨calls, h1, hq⟩ := WalkInv_quiet fn tr tr1 _ hinv
              (by intro e' he; cases he; exact hs)
            exact ⟨calls, h1, Or.inl hq⟩
          · split at h
            · simp only [Option.some.injEq] at h
              subst h
              exact hinv
            · simp only [Option.some.injEq] at h
              subst h
              refine WalkInv_map fn tr tr1 _ _ hinv ?_
              intro e' e he hw
              cases he
              exact ⟨_, rfl, Wraps.more _ _ _ hw⟩

theorem walk_inv (codecs : Codecs) (fn : WalkFunc) (rr : Bool) : ∀ (fuel : Nat)
    (tr : List Call) (path : GoString) (e : ReaderEntry) (res : WalkResult),
    walk codecs fn rr fuel tr path e = some res → WalkInv fn tr res := by
  intro fuel
  induction fuel with
  | zero => intro tr path e res h; simp [walk] at h
  | succ fuel ih =>
    intro tr path e res h
    rw [walk_succ] at h
    have hch := walkChildren_inv fn (walk codecs fn rr fuel) ih path
    split at h
    · split at h
      · split at h
        · simp only [Option.some.injEq] at h
          subst h
          exact ⟨[], by simp, Or.inl trivial⟩
        · simp only [Option.some.injEq] at h
          subst h
          exact callAndReturn_inv fn tr _
      · split at h
        · split at h
          · rename_i err hf
            have hc := callAndReturn_inv fn tr { path := path, entry := e, err := none }
            unfold callAndReturn at hc
            rw [hf] at hc
            dsimp only at hc
            split at h
            · rename_i hs
              rw [if_pos hs] at hc
              simp only [Option.some.injEq] at h
              subst h
              exact hc
            · rename_i hs
              rw [if_neg hs] at hc
              simp only [Option.some.injEq] at h
              subst h
              exact hc
          · rename_i hf
            refine WalkInv_prepend fn tr [_] res ?_ (hch _ _ _ h)
            simp [Quiet, hf]
        · exact hch _ _ _ h
    · split at h
      · split at h
        · simp only [Option.some.injEq] at h
          subst h
          exact callAndReturn_inv fn tr _
        · rename_i r hn
          cases hw : walk codecs fn rr fuel tr path { v := e.v, n := r.root, r := r } with
          | none => rw [hw] at h; simp at h
          | some r1 =>
            rw [hw] at h
            have hinv := ih _ _ _ _ hw
            obtain ⟨tr1, out⟩ := r1
            cases out with
            | panic msg =>
              simp only [Option.some.injEq] at h
              subst h
              exact hinv
            | ret err =>
              cases err with
              | none =>
                simp only [Option.some.injEq] at h
                subst h
                exact hinv
              | some err =>
                dsimp only at h
                split at h
                · rename_i hs
                  simp only [Option.some.injEq] at h
                  subst h
                  obtain ⟨calls, h1, hq⟩ := WalkInv_quiet fn tr tr1 _ hinv
                    (by intro e' he; cases he; exact hs)
                  exact ⟨calls, h1, Or.inl hq⟩
                · simp only [Option.some.injEq] at h
                  subst h
                  refine WalkInv_map fn tr tr1 _ _ hinv ?_
                  intro e' e he hw
                  cases he
                  exact ⟨_, rfl, Wraps.nested _ _ _ hw⟩
      · simp only [Option.some.injEq] at h
        subst h
        exact callAndReturn_inv fn tr _

theorem Quiet_split (fn : WalkFunc) (pre post tr : List Call) (c : Call)
    (h : Quiet fn tr (pre ++ c :: post)) (e : GoError) (he : fn (tr ++ pre) c = some e) :
    e.isSkipDir = true := by
  rw [Quiet_append] at h
  exact h.2.1 e he

/-- C4, as stated, fails: when the callback returns its own error at "d/g" of the sample
archive, `Walk` stops there but returns that error wrapped twice by `fmt.Errorf`, not the
error itself. -/
theorem C4_counterexample :
    sampleReader.Walk nullCodecs failAtG false 3 =
        some ([{ path := [100], entry := sampleD, err := none },
               { path := [100, 47, 103], entry := sampleG, err := none }],
              .ret (some (.wrapf "walk %q: %w" [100]
                (.wrapf "walk %q: %w" [100, 47, 103] (.other 7))))) ∧
      GoError.wrapf "walk %q: %w" [100] (.wrapf "walk %q: %w" [100, 47, 103] (.other 7))
        ≠ .other 7 := by
  constructor
  · decide
  · intro h; cases h

theorem sample_failAtF_walk :
    sampleReader.Walk nullCodecs failAtF false 3 =
      some ([{ path := [100], entry := sampleD, err := none },
             { path := [100, 47, 103], entry := sampleG, err := none },
             { path := [102], entry := sampleF, err := none }],
            .ret (some (.wrapf "walk %q: %w" [102] (.other 9)))) := by
  decide

/-- What `walk_inv` gives for a run of `Walk` that returns: an invocation for which the
callback returns an error other than `filepath.SkipDir` is the last one, and `Walk` returns
that error wrapped. -/
theorem Walk_stops_at_error (codecs : Codecs) (rd : Reader) (fn : WalkFunc)
    (rccRecurse : Bool) (fuel : Nat) (calls : List Call) (out : Outcome)
    (h : rd.Walk codecs fn rccRecurse fuel = some (calls, out))
    (pre post : List Call) (c : Call) (e : GoError)
    (hsplit : calls = pre ++ c :: post) (hret : fn pre c = some e)
    (hne : e.isSkipDir = false) :
    post = [] ∧ ∃ e', out = .ret (some e') ∧ Wraps e' e := by
  obtain ⟨calls', h1, h2⟩ := walk_inv codecs fn rccRecurse fuel [] [] _ _ h
  simp only [List.nil_append] at h1 h2
  subst h1
  rcases h2 with hq | ⟨pre', c', e0, e', hc, hq, hf, hs, hr, hw⟩
  · rw [hsplit] at hq
    have := Quiet_split fn pre post [] c hq e (by simpa using hret)
    rw [hne] at this
    cases this
  · rw [hsplit] at hc
    rcases List.eq_nil_or_concat post with hp | ⟨post', x, hp⟩
    · subst hp
      obtain ⟨hpre, hcc⟩ := List.append_inj' hc rfl
      simp only [List.cons.injEq, and_true] at hcc
      subst hpre; subst hcc
      rw [hret] at hf
      cases hf
      exact ⟨rfl, e', hr, hw⟩
    · exfalso
      subst hp
      have hc' : (pre ++ c :: post') ++ [x] = pre' ++ [c'] := by
        simpa [List.append_assoc] using hc
      obtain ⟨hpre, _⟩ := List.append_inj' hc' rfl
      rw [← hpre] at hq
      have := Quiet_split fn pre post' [] c hq e (by simpa using hret)
      rw [hne] at this
      cases this

/-- C4, amended: on every archive whose tree is finite, for every callback and either value
of `rccRecurse`, `Walk` returns, and if an invocation `c` of the callback (after the
invocations `pre`) returned an error `e` other than `filepath.SkipDir`, then `c` is the last
invocation (`post` is empty) and the error that `Walk` returns is `e` wrapped: under the
layer `fmt.Errorf("walk %q: %w", ...)` added where the callback returned, and under one more
layer "walk %q: %w" or "walk nested rcc %q: %w" for each enclosing non-root directory or
nested archive. On any archive the same holds of every run that returns, and a run that
returns for one depth bound returns the same for every larger one. -/
theorem C4_callback_error_is_wrapped (codecs : Codecs) (rd : Reader) (fn : WalkFunc)
    (rccRecurse : Bool) :
    (FiniteTree codecs rccRecurse [] { v := [], n := rd.root, r := rd } →
      ∃ N, ∀ fuel, N ≤ fuel → ∃ calls out,
        rd.Walk codecs fn rccRecurse fuel = some (calls, out) ∧
        ∀ (pre post : List Call) (c : Call) (e : GoError), calls = pre ++ c :: post →
          fn pre c = some e → e.isSkipDir = false →
          post = [] ∧ ∃ e', out = .ret (some e') ∧ Wraps e' e) ∧
    (∀ (fuel : Nat) (calls : List Call) (out : Outcome),
      rd.Walk codecs fn rccRecurse fuel = some (calls, out) →
      (∀ fuel', fuel ≤ fuel' → rd.Walk codecs fn rccRecurse fuel' = some (calls, out)) ∧
      ∀ (pre post : List Call) (c : Call) (e : GoError), calls = pre ++ c :: post →
        fn pre c = some e → e.isSkipDir = false →
        post = [] ∧ ∃ e', out = .ret (some e') ∧ Wraps e' e) := by
  constructor
  · intro hfin
    obtain ⟨N, hN⟩ := walk_returns_of_finite codecs rccRecurse [] _ hfin
    refine ⟨N, fun fuel hf => ?_⟩
    obtain ⟨⟨calls, out⟩, hres⟩ := hN fuel hf fn []
    exact ⟨calls, out, hres, fun pre post c e h1 h2 h3 =>
      Walk_stops_at_error codecs rd fn rccRecurse fuel calls out hres pre post c e h1 h2 h3⟩
  · intro fuel calls out h
    exact ⟨fun fuel' hle => walk_mono_le codecs fn rccRecurse fuel fuel' hle [] [] _ _ h,
      fun pre post c e h1 h2 h3 =>
        Walk_stops_at_error codecs rd fn rccRecurse fuel calls out h pre post c e h1 h2 h3⟩

/-- C4, amended, at the sample archive with the callback that fails at "f": `Walk` returns
the error of the callback under one layer "walk %q: %w". -/
theorem C4_callback_error_is_wrapped_witness :
    FiniteTree nullCodecs false [] { v := [], n := sampleReader.root, r := sampleReader } ∧
    sampleReader.Walk nullCodecs failAtF false 3 =
      some ([{ path := [100], entry := sampleD, err := none },
             { path := [100, 47, 103], entry := sampleG, err := none },
             { path := [102], entry := sampleF, err := none }],
            .ret (some (.wrapf "walk %q: %w" [102] (.other 9)))) ∧
    ∃ N, ∀ fuel, N ≤ fuel → ∃ calls out,
      sampleReader.Walk nullCodecs failAtF false fuel = some (calls, out) ∧
      ∀ (pre post : List Call) (c : Call) (e : GoError), calls = pre ++ c :: post →
        failAtF pre c = some e → e.isSkipDir = false →
        post = [] ∧ ∃ e', out = .ret (some e') ∧ Wraps e' e :=
  ⟨sample_finite false, sample_failAtF_walk,
   (C4_callback_error_is_wrapped nullCodecs sampleReader failAtF false).1 (sample_finite false)⟩

/-- C9 at the file "f" of the sample archive, which holds "hi". -/
theorem C9_verbatim_stream_is_payload_witness :
    sampleF.n.Data nullCodecs sampleReader.data.toReaderAt =
        .ok ((([0, 0, 0, 2, 104, 105] : List Byte).drop 4, none),
          (sampleF.n.DataOffset.val : Int) + 4, ((2 : Nat) : Int)) ∧
      (([0, 0, 0, 2, 104, 105] : List Byte).drop 4).length = 2 ∧
      (0 < 2 → sampleReader.data.toReaderAt.ReadAt ((sampleF.n.DataOffset.val : Int) + 4) 2 =
        (([0, 0, 0, 2, 104, 105] : List Byte).drop 4, none)) :=
  C9_verbatim_stream_is_payload nullCodecs sampleF.n sampleReader.data.toReaderAt
    [0, 0, 0, 2, 104, 105] 2 (by decide) (by decide) (by decide) (by decide) (by decide)
    (by decide)

/-- C7 at the file "f" of the sample archive: size 2 at offset 4. -/
theorem C7_data_offset_table_witness :
    sampleF.n.IsDir = false ∧ sampleF.n.Flags.Valid = none ∧
      ∃ lb, sampleReader.data.toReaderAt.ReadAt (sampleF.n.DataOffset.val : Int) 4 = (lb, none) ∧
        (2 : Int) = (beUint lb : Int) ∧
        (4 : Int) = if sampleF.n.Flags.Has NodeFlagCompressed
                    then (sampleF.n.DataOffset.val : Int) + 4 + 4
                    else (sampleF.n.DataOffset.val : Int) + 4 :=
  C7_data_offset_table nullCodecs sampleF.n sampleReader.data.toReaderAt ([104, 105], none) 4 2
    (by decide)

/-! ## The record layout -/

theorem beUint_foldl_lt (bs : List Byte) : ∀ acc : Nat,
    bs.foldl (fun acc b => acc * 256 + b.val) acc < (acc + 1) * 256 ^ bs.length := by
  induction bs with
  | nil => intro acc; simp
  | cons b bs ih =>
    intro acc
    have h := ih (acc * 256 + b.val)
    have hb : b.val < 256 := b.isLt
    have h2 : (acc * 256 + b.val + 1) * 256 ^ bs.length ≤ ((acc + 1) * 256) * 256 ^ bs.length :=
      Nat.mul_le_mul_right _ (by omega)
    simp only [List.foldl_cons, List.length_cons, pow_succ]
    calc _ < _ := h
      _ ≤ _ := h2
      _ = _ := by ring

theorem beUint_lt (bs : List Byte) : beUint bs < 256 ^ bs.length := by
  have h := beUint_foldl_lt bs 0
  simpa [beUint] using h

theorem beFin_val (k : Nat) (bs : List Byte) (h : bs.length = k) :
    (beFin (8 * k) bs).val = beUint bs := by
  have h1 := beUint_lt bs
  rw [h] at h1
  have h2 : (256 : Nat) ^ k = 2 ^ (8 * k) := by
    rw [pow_mul]; norm_num
  rw [h2] at h1
  simp only [beFin, Fin.ofNat', Fin.val_mk]
  exact Nat.mod_eq_of_lt h1

theorem ParseNode_ok_iff (r r' : SectionReader) (format : Int) (n : Node) :
    ParseNode r format = (.ok n, r') ↔
      format ≤ 3 ∧ nodeSize format ≤ r.limit - r.off ∧
        r' = { r with off := r.off + nodeSize format } ∧
        ∃ bs, r.r.ReadAt r.off (nodeSize format).toNat = (bs, none) ∧
          NodeFlag.Valid (beFin 16 ((bs.drop 4).take 2)) = none ∧ n = nodeOfBytes format bs := by
  constructor
  · intro h
    obtain ⟨hf, hw, bs, hr, hv⟩ := ParseNode_ok_inv r r' format n h
    have h2 := ParseNode_of_read r format bs hf hw hr hv
    rw [h] at h2
    injection h2 with h3 h4
    injection h3 with h3
    exact ⟨hf, hw, h4, bs, hr, hv, h3⟩
  · rintro ⟨hf, hw, hr', bs, hr, hv, hn⟩
    rw [hr', hn]
    exact ParseNode_of_read r format bs hf hw hr hv

/-- C11: whenever `ParseNode` succeeds with format `f`, there are bytes `b` (the record, read
at the cursor) such that NameOffset is the big-endian value of b[0..4) and Flags that of
b[4..6); if the Directory bit is set then ChildCount = b[6..10), ChildOffset = b[10..14) and
Country, Language and DataOffset are 0, otherwise Country = b[6..8), Language = b[8..10),
DataOffset = b[10..14) and ChildCount and ChildOffset are 0; Modified is the value of
b[14..22) when f >= 2 and 0 when f < 2; and Format = f. -/
theorem C11_ParseNode_field_layout (r r' : SectionReader) (f : Int) (n : Node)
    (h : ParseNode r f = (.ok n, r')) :
    ∃ b : List Byte, r.r.ReadAt r.off (nodeSize f).toNat = (b, none) ∧
      b.length = (nodeSize f).toNat ∧
      n.NameOffset.val = beUint (b.take 4) ∧
      n.Flags.val = beUint ((b.drop 4).take 2) ∧
      (n.Flags.Has NodeFlagDirectory = true →
        n.ChildCount.val = beUint ((b.drop 6).take 4) ∧
        n.ChildOffset.val = beUint ((b.drop 10).take 4) ∧
        n.Country = 0 ∧ n.Language = 0 ∧ n.DataOffset = 0) ∧
      (n.Flags.Has NodeFlagDirectory = false →
        n.Country.val = beUint ((b.drop 6).take 2) ∧
        n.Language.val = beUint ((b.drop 8).take 2) ∧
        n.DataOffset.val = beUint ((b.drop 10).take 4) ∧
        n.ChildCount = 0 ∧ n.ChildOffset = 0) ∧
      (f ≥ 2 → n.Modified.val = beUint ((b.drop 14).take 8)) ∧
      (f < 2 → n.Modified = 0) ∧
      n.Format = f := by
  obtain ⟨hf, hw, hr', b, hr, hv, hn⟩ := (ParseNode_ok_iff r r' f n).1 h
  have hlen : b.length = (nodeSize f).toNat := by
    have := ReadAt_full r.r r.off (nodeSize f).toNat (by rw [hr])
    rw [hr] at this; exact this
  have h14 : 14 ≤ b.length ∧ (f ≥ 2 → 22 ≤ b.length) := by
    rw [hlen, nodeSize_eq]
    constructor
    · split <;> decide
    · intro h2; rw [if_pos h2]; decide
  refine ⟨b, hr, hlen, ?_, ?_, ?_, ?_, ?_, ?_, ?_⟩
  · rw [hn]; exact beFin_val 4 _ (by simp; omega)
  · rw [hn]; exact beFin_val 2 _ (by simp; omega)
  · intro hd
    rw [hn] at hd ⊢
    simp only [nodeOfBytes] at hd ⊢
    rw [if_pos hd, if_pos hd, if_pos hd, if_pos hd, if_pos hd]
    exact ⟨beFin_val 4 _ (by simp; omega), beFin_val 4 _ (by simp; omega), rfl, rfl, rfl⟩
  · intro hd
    rw [hn] at hd ⊢
    simp only [nodeOfBytes] at hd ⊢
    have hd' : ¬ (NodeFlag.Has (beFin 16 ((b.drop 4).take 2)) NodeFlagDirectory = true) := by
      rw [hd]; decide
    rw [if_neg hd', if_neg hd', if_neg hd', if_neg hd', if_neg hd']
    exact ⟨beFin_val 2 _ (by simp; omega), beFin_val 2 _ (by simp; omega),
      beFin_val 4 _ (by simp; omega), rfl, rfl⟩
  · intro h2
    rw [hn]
    simp only [nodeOfBytes]
    rw [if_pos h2]
    have := h14.2 h2
    exact beFin_val 8 _ (by simp; omega)
  · intro h2
    rw [hn]
    simp only [nodeOfBytes]
    rw [if_neg (by omega)]
  · rw [hn]; rfl

/-- C11 at the record of the directory "d" of the sample archive. -/
theorem C11_ParseNode_field_layout_witness :
    ParseNode (NewSectionReader (.bytes sampleArchive) 14 14) 1 =
        (.ok sampleD.n, { r := .bytes sampleArchive, base := 14, off := 28, limit := 28 }) ∧
    ∃ b : List Byte, (ReaderAt.bytes sampleArchive).ReadAt 14 (nodeSize 1).toNat = (b, none) ∧
      b.length = (nodeSize 1).toNat ∧
      sampleD.n.NameOffset.val = beUint (b.take 4) ∧
      sampleD.n.Flags.val = beUint ((b.drop 4).take 2) ∧
      (sampleD.n.Flags.Has NodeFlagDirectory = true →
        sampleD.n.ChildCount.val = beUint ((b.drop 6).take 4) ∧
        sampleD.n.ChildOffset.val = beUint ((b.drop 10).take 4) ∧
        sampleD.n.Country = 0 ∧ sampleD.n.Language = 0 ∧ sampleD.n.DataOffset = 0) ∧
      (sampleD.n.Flags.Has NodeFlagDirectory = false →
        sampleD.n.Country.val = beUint ((b.drop 6).take 2) ∧
        sampleD.n.Language.val = beUint ((b.drop 8).take 2) ∧
        sampleD.n.DataOffset.val = beUint ((b.drop 10).take 4) ∧
        sampleD.n.ChildCount = 0 ∧ sampleD.n.ChildOffset = 0) ∧
      ((1 : Int) ≥ 2 → sampleD.n.Modified.val = beUint ((b.drop 14).take 8)) ∧
      ((1 : Int) < 2 → sampleD.n.Modified = 0) ∧
      sampleD.n.Format = 1 :=
  ⟨by decide, C11_ParseNode_field_layout (NewSectionReader (.bytes sampleArchive) 14 14)
    { r := .bytes sampleArchive, base := 14, off := 28, limit := 28 } 1 sampleD.n (by decide)⟩

/-! ## Flags -/

theorem remainder_eq (f : NodeFlag) : f.remainder = f.val &&& 65528 := rfl

theorem and_65528_eq_zero (v : Nat) (hv : v < 65536) : v &&& 65528 = 0 ↔ v < 8 := by
  constructor
  · intro h
    apply Nat.lt_pow_two_of_testBit v (n := 3)
    intro i hi
    by_cases h16 : i < 16
    · have h1 : (v &&& 65528).testBit i = false := by rw [h]; exact Nat.zero_testBit i
      rw [Nat.testBit_and] at h1
      have h2 : Nat.testBit 65528 i = true := by
        interval_cases i <;> decide
      rw [h2, Bool.and_true] at h1
      exact h1
    · apply Nat.testBit_lt_two_pow
      calc v < 2 ^ 16 := hv
        _ ≤ 2 ^ i := Nat.pow_le_pow_right (by decide) (by omega)
  · intro h
    interval_cases v <;> decide

theorem remainder_eq_zero (f : NodeFlag) : f.remainder = 0 ↔ f.val < 8 := by
  rw [remainder_eq]; exact and_65528_eq_zero f.val f.isLt

theorem unknown_bit_iff (v : Nat) :
    (∃ i, i ≠ 0 ∧ i ≠ 1 ∧ i ≠ 2 ∧ v.testBit i = true) ↔ ¬ v < 8 := by
  constructor
  · rintro ⟨i, h0, h1, h2, hb⟩
    have h := Nat.testBit_implies_ge hb
    have h3 : 2 ^ 3 ≤ 2 ^ i := Nat.pow_le_pow_right (by decide) (by omega)
    have : (2:Nat) ^ 3 = 8 := by decide
    omega
  · intro h
    by_contra hc
    apply h
    apply Nat.lt_pow_two_of_testBit v (n := 3)
    intro i hi
    by_contra hb
    exact hc ⟨i, by omega, by omega, by omega, by simpa using hb⟩

theorem Valid_eq_none_iff (f : NodeFlag) :
    f.Valid = none ↔
      f.remainder = 0 ∧ ¬ (f.Has NodeFlagCompressed = true ∧ f.Has NodeFlagCompressedZstd = true) := by
  unfold NodeFlag.Valid
  by_cases h1 : f.remainder = 0
  · by_cases h2 : (f.Has NodeFlagCompressed && f.Has NodeFlagCompressedZstd) = true
    · simp [h1, h2]
      simpa using h2
    · simp [h1, h2]
      simpa using h2
  · simp [h1]

/-- C16: for every 16-bit flag value, `Valid` fails if and only if a bit other than bit 0
(Compressed), bit 1 (Directory) and bit 2 (CompressedZstd) is set, or Compressed and
CompressedZstd are both set; and the valid values are exactly 0, 1, 2, 3, 4 and 6. -/
theorem C16_flag_validity (f : NodeFlag) :
    (f.Valid ≠ none ↔
      (∃ i, i ≠ 0 ∧ i ≠ 1 ∧ i ≠ 2 ∧ f.val.testBit i = true) ∨
        (f.Has NodeFlagCompressed = true ∧ f.Has NodeFlagCompressedZstd = true)) ∧
    (f.Valid = none ↔
      f.val = 0 ∨ f.val = 1 ∨ f.val = 2 ∨ f.val = 3 ∨ f.val = 4 ∨ f.val = 6) := by
  constructor
  · rw [Ne, Valid_eq_none_iff, remainder_eq_zero, unknown_bit_iff]
    tauto
  · rw [Valid_eq_none_iff, remainder_eq_zero]
    have e1 : NodeFlagCompressed.val = 1 := rfl
    have e4 : NodeFlagCompressedZstd.val = 4 := rfl
    simp only [NodeFlag.Has, e1, e4, decide_eq_true_eq]
    generalize f.val = v
    constructor
    · rintro ⟨h8, h⟩
      interval_cases v <;> first | decide | exact (h (by decide)).elim
    · intro h
      rcases h with h | h | h | h | h | h <;> subst h <;> decide

theorem Has_none (f : NodeFlag) : f.Has NodeFlagNone = true := by
  simp [NodeFlag.Has, NodeFlagNone]

theorem stringsJoin_head (sep a : GoString) (xs : List GoString) :
    ∃ rest, stringsJoin sep (a :: xs) = a ++ rest := by
  cases xs with
  | nil => exact ⟨[], by simp [stringsJoin]⟩
  | cons b t => exact ⟨sep ++ stringsJoin sep (b :: t), by simp [stringsJoin]⟩

/-- C17: the method `String` renders "None" for every flag value, not only for zero:
`Has(NodeFlagNone)` is `f&0 == 0`. So the value 1 is rendered "None|Compressed" and not
"Compressed"; the value 0 is rendered "None"; unknown bits follow as a further "|"-joined
element. -/
theorem C17_none_is_always_rendered :
    NodeFlag.String 1 = asciiBytes "None|Compressed" ∧
      NodeFlag.String 1 ≠ asciiBytes "Compressed" ∧
      NodeFlag.String 0 = asciiBytes "None" ∧
      NodeFlag.String 6 = asciiBytes "None|Directory|CompressedZstd" ∧
      NodeFlag.String 9 = asciiBytes "None|Compressed|0b1000" ∧
      ∀ f : NodeFlag, ∃ rest, f.String = asciiBytes "None" ++ rest := by
  refine ⟨by decide, by decide, by decide, by decide, by decide, ?_⟩
  intro f
  have h0 := Has_none f
  unfold NodeFlag.String
  simp only [h0, if_true, List.nil_append]
  split_ifs <;> exact stringsJoin_head _ _ _

/-! ## The header -/

theorem sectionBinaryRead_sub (r : SectionReader) (w : Nat) (bs : List Byte)
    (hw : (w : Int) ≤ r.limit - r.off) (h : r.r.ReadAt r.off w = (bs, none))
    (i k : Nat) (hk : 0 < k) (hik : i + k ≤ w) :
    SectionReader.binaryRead { r with off := r.off + (i : Int) } k =
      (.ok ((bs.drop i).take k), { r with off := r.off + ((i + k : Nat) : Int) }) := by
  apply (sectionBinaryRead_ok _ _ _ _).2
  refine Or.inr ⟨hk, ?_, ?_, ?_⟩
  · show (k : Int) ≤ r.limit - (r.off + (i : Int))
    omega
  · exact ReadAt_sub r.r r.off w bs h i k hk hik
  · show ({ r with off := r.off + ((i + k : Nat) : Int) } : SectionReader) =
      { r with off := r.off + (i : Int) + (k : Int) }
    rw [Nat.cast_add, add_assoc]

theorem sectionBinaryRead_first (r : SectionReader) (w : Nat) (bs : List Byte)
    (hw : (w : Int) ≤ r.limit - r.off) (h : r.r.ReadAt r.off w = (bs, none))
    (k : Nat) (hk : 0 < k) (hik : k ≤ w) :
    r.binaryRead k = (.ok (bs.take k), { r with off := r.off + (k : Int) }) := by
  have h0 := sectionBinaryRead_sub r w bs hw h 0 k hk (by omega)
  simpa using h0

theorem ParseRCCHeader_lt_three (r : SectionReader) (bs : List Byte)
    (hw : 20 ≤ r.limit - r.off) (h : r.r.ReadAt r.off 20 = (bs, none))
    (hm : bs.take 4 = RCCHeaderMagic)
    (hv : toInt32 (beUint ((bs.drop 4).take 4)) < 3) :
    ParseRCCHeader r = (.ok (headerOfBytes bs), { r with off := r.off + 20 }) := by
  have h0 := sectionBinaryRead_first r 20 bs hw h 4 (by decide) (by decide)
  have h1 := sectionBinaryRead_sub r 20 bs hw h 4 4 (by decide) (by decide)
  have h2 := sectionBinaryRead_sub r 20 bs hw h 8 4 (by decide) (by decide)
  have h3 := sectionBinaryRead_sub r 20 bs hw h 12 4 (by decide) (by decide)
  have h4 := sectionBinaryRead_sub r 20 bs hw h 16 4 (by decide) (by decide)
  have hv' : ¬ (toInt32 (beUint ((bs.drop 4).take 4)) ≥ 3) := by omega
  simp only [Nat.cast_ofNat, Nat.reduceAdd] at h0 h1 h2 h3 h4
  unfold ParseRCCHeader
  rw [h0]
  simp only [hm, ne_eq, not_true_eq_false, if_false]
  rw [h1]
  simp only []
  rw [h2]
  simp only []
  rw [h3]
  simp only []
  rw [h4]
  simp only [hv', if_false, headerOfBytes, hm]

theorem ParseRCCHeader_ge_three (r : SectionReader) (bs : List Byte)
    (hw : 24 ≤ r.limit - r.off) (h : r.r.ReadAt r.off 24 = (bs, none))
    (hm : bs.take 4 = RCCHeaderMagic)
    (hv : toInt32 (beUint ((bs.drop 4).take 4)) ≥ 3) :
    ParseRCCHeader r =
      (if toInt32 (beUint ((bs.drop 4).take 4)) > 3 then
          .error (.errorf "unsupported format version %d")
        else .ok (headerOfBytes bs), { r with off := r.off + 24 }) := by
  have h0 := sectionBinaryRead_first r 24 bs hw h 4 (by decide) (by decide)
  have h1 := sectionBinaryRead_sub r 24 bs hw h 4 4 (by decide) (by decide)
  have h2 := sectionBinaryRead_sub r 24 bs hw h 8 4 (by decide) (by decide)
  have h3 := sectionBinaryRead_sub r 24 bs hw h 12 4 (by decide) (by decide)
  have h4 := sectionBinaryRead_sub r 24 bs hw h 16 4 (by decide) (by decide)
  have h5 := sectionBinaryRead_sub r 24 bs hw h 20 4 (by decide) (by decide)
  simp only [Nat.cast_ofNat, Nat.reduceAdd] at h0 h1 h2 h3 h4 h5
  unfold ParseRCCHeader
  rw [h0]
  simp only [hm, ne_eq, not_true_eq_false, if_false]
  rw [h1]
  simp only []
  rw [h2]
  simp only []
  rw [h3]
  simp only []
  rw [h4]
  simp only [hv, if_true]
  rw [h5]
  simp only []
  by_cases h3' : toInt32 (beUint ((bs.drop 4).take 4)) > 3
  · simp only [h3', if_true]
  · simp only [h3', if_false, headerOfBytes, hm, hv, if_true]

/-- C12: on a stream that starts with the magic "qres" followed by four big-endian signed
32-bit integers v, t, d, n, where v is 1 or 2, `ParseRCCHeader` succeeds with
FormatVersion = v, TreeOffset = t, DataOffset = d, NamesOffset = n and OverallFlags = 0 and
advances the reader by exactly 20 bytes; when v = 3 and a further integer g follows, it
succeeds with the same fields and OverallFlags = g and advances by exactly 24 bytes. -/
theorem C12_header_decoding (r : SectionReader) (bs : List Byte)
    (hm : bs.take 4 = RCCHeaderMagic) :
    ((toInt32 (beUint ((bs.drop 4).take 4)) = 1 ∨ toInt32 (beUint ((bs.drop 4).take 4)) = 2) →
      20 ≤ r.limit - r.off → r.r.ReadAt r.off 20 = (bs, none) →
      ParseRCCHeader r =
        (.ok { Magic := RCCHeaderMagic
               FormatVersion := toInt32 (beUint ((bs.drop 4).take 4))
               TreeOffset := toInt32 (beUint ((bs.drop 8).take 4))
               DataOffset := toInt32 (beUint ((bs.drop 12).take 4))
               NamesOffset := toInt32 (beUint ((bs.drop 16).take 4))
               OverallFlags := 0 },
         { r with off := r.off + 20 })) ∧
    (toInt32 (beUint ((bs.drop 4).take 4)) = 3 →
      24 ≤ r.limit - r.off → r.r.ReadAt r.off 24 = (bs, none) →
      ParseRCCHeader r =
        (.ok { Magic := RCCHeaderMagic
               FormatVersion := 3
               TreeOffset := toInt32 (beUint ((bs.drop 8).take 4))
               DataOffset := toInt32 (beUint ((bs.drop 12).take 4))
               NamesOffset := toInt32 (beUint ((bs.drop 16).take 4))
               OverallFlags := toInt32 (beUint ((bs.drop 20).take 4)) },
         { r with off := r.off + 24 })) := by
  constructor
  · intro hv hw h
    have hlt : toInt32 (beUint ((bs.drop 4).take 4)) < 3 := by omega
    rw [ParseRCCHeader_lt_three r bs hw h hm hlt]
    simp only [headerOfBytes, hm]
    rw [if_neg (by omega)]
  · intro hv hw h
    rw [ParseRCCHeader_ge_three r bs hw h hm (by omega)]
    rw [if_neg (by omega)]
    simp only [headerOfBytes, hm, hv]
    rfl

/-- C12 at the header of the nested sample file (version 1) and at a version 3 header. -/
theorem C12_header_decoding_witness :
    ParseRCCHeader (NewSectionReader (.bytes nestedInner) 0 maxInt64) =
        (.ok { Magic := RCCHeaderMagic, FormatVersion := 1, TreeOffset := 20, DataOffset := 56,
               NamesOffset := 48, OverallFlags := 0 },
         { r := .bytes nestedInner, base := 0, off := 20, limit := maxInt64 }) ∧
    ParseRCCHeader (NewSectionReader (.bytes versionThreeHeader) 0 maxInt64) =
        (.ok { Magic := RCCHeaderMagic, FormatVersion := 3, TreeOffset := 24, DataOffset := 60,
               NamesOffset := 46, OverallFlags := 5 },
         { r := .bytes versionThreeHeader, base := 0, off := 24, limit := maxInt64 }) :=
  ⟨(C12_header_decoding (NewSectionReader (.bytes nestedInner) 0 maxInt64)
      (nestedInner.take 20) (by decide)).1 (by decide) (by decide) (by decide),
   (C12_header_decoding (NewSectionReader (.bytes versionThreeHeader) 0 maxInt64)
      versionThreeHeader (by decide)).2 (by decide) (by decide) (by decide)⟩

/-- C13: `ParseRCCHeader` rejects a format version only when it is greater than 3. On every
stream with the magic and a complete 20-byte header whose version is less than 1 (zero or
negative) it succeeds and returns that version; on every stream with the magic, a version
greater than 3 and 24 bytes it fails with the unsupported-version error. -/
theorem C13_version_below_one_is_accepted (r : SectionReader) (bs : List Byte)
    (hm : bs.take 4 = RCCHeaderMagic) :
    (toInt32 (beUint ((bs.drop 4).take 4)) < 1 →
      20 ≤ r.limit - r.off → r.r.ReadAt r.off 20 = (bs, none) →
      ParseRCCHeader r = (.ok (headerOfBytes bs), { r with off := r.off + 20 }) ∧
        (headerOfBytes bs).FormatVersion = toInt32 (beUint ((bs.drop 4).take 4))) ∧
    (toInt32 (beUint ((bs.drop 4).take 4)) > 3 →
      24 ≤ r.limit - r.off → r.r.ReadAt r.off 24 = (bs, none) →
      ParseRCCHeader r =
        (.error (.errorf "unsupported format version %d"), { r with off := r.off + 24 })) := by
  constructor
  · intro hv hw h
    exact ⟨ParseRCCHeader_lt_three r bs hw h hm (by omega), rfl⟩
  · intro hv hw h
    rw [ParseRCCHeader_ge_three r bs hw h hm (by omega), if_pos hv]

theorem versionZero_reader :
    NewReaderFromRCC (.bytes versionZeroArchive) =
      .ok { format := 0, reader := .bytes versionZeroArchive, treeOffset := 20,
            dataOffset := 34, namesOffset := 34,
            root := { NameOffset := 0, Flags := 2, ChildCount := 0, ChildOffset := 0,
                      Country := 0, Language := 0, DataOffset := 0, Modified := 0,
                      Format := 0 } } := by
  decide

/-- C13 at a header with version 0 and at a header with version -1: both are accepted. -/
theorem C13_version_below_one_is_accepted_witness :
    (ParseRCCHeader (NewSectionReader (.bytes versionZeroArchive) 0 maxInt64) =
        (.ok (headerOfBytes (versionZeroArchive.take 20)),
         { NewSectionReader (.bytes versionZeroArchive) 0 maxInt64 with
           off := (NewSectionReader (.bytes versionZeroArchive) 0 maxInt64).off + 20 }) ∧
      (headerOfBytes (versionZeroArchive.take 20)).FormatVersion =
        toInt32 (beUint (((versionZeroArchive.take 20).drop 4).take 4))) ∧
    (headerOfBytes (versionZeroArchive.take 20)).FormatVersion = 0 ∧
    (ParseRCCHeader (NewSectionReader (.bytes versionNegativeHeader) 0 maxInt64) =
        (.ok (headerOfBytes versionNegativeHeader),
         { NewSectionReader (.bytes versionNegativeHeader) 0 maxInt64 with
           off := (NewSectionReader (.bytes versionNegativeHeader) 0 maxInt64).off + 20 }) ∧
      (headerOfBytes versionNegativeHeader).FormatVersion =
        toInt32 (beUint ((versionNegativeHeader.drop 4).take 4))) ∧
    (headerOfBytes versionNegativeHeader).FormatVersion = -1 :=
  ⟨(C13_version_below_one_is_accepted (NewSectionReader (.bytes versionZeroArchive) 0 maxInt64)
      (versionZeroArchive.take 20) (by decide)).1 (by decide) (by decide) (by decide),
   by decide,
   (C13_version_below_one_is_accepted (NewSectionReader (.bytes versionNegativeHeader) 0 maxInt64)
      versionNegativeHeader (by decide)).1 (by decide) (by decide) (by decide),
   by decide⟩

theorem sectionRead_off (s : SectionReader) (len : Nat) :
    s.off ≤ (s.Read len).2.off ∧ (s.Read len).2.off = s.off + ((s.Read len).1.1.length : Int) ∧
      (s.Read len).1.1.length ≤ len := by
  rw [sectionRead_eq]
  split
  · simp
  · refine ⟨by simp, by simp, ?_⟩
    show (s.r.ReadAt s.off _).1.length ≤ len
    by_cases hc : (len : Int) > s.limit - s.off
    · rw [if_pos hc]
      have h := ReadAt_length_le s.r s.off (s.limit - s.off).toNat
      omega
    · rw [if_neg hc]
      exact ReadAt_length_le s.r s.off len

theorem readFullLoop_section_off (min : Nat) : ∀ (fuel : Nat) (s : SectionReader)
    (acc : List Byte), acc.length ≤ min →
    (readFullLoop SectionReader.Read min fuel s acc).2.off =
        s.off + (((readFullLoop SectionReader.Read min fuel s acc).1.1.length : Int)
          - (acc.length : Int)) ∧
      acc.length ≤ (readFullLoop SectionReader.Read min fuel s acc).1.1.length ∧
      (readFullLoop SectionReader.Read min fuel s acc).1.1.length ≤ min := by
  intro fuel
  induction fuel with
  | zero => intro s acc h; simp [readFullLoop, h]
  | succ fuel ih =>
    intro s acc h
    obtain ⟨_, h2, h3⟩ := sectionRead_off s (min - acc.length)
    unfold readFullLoop
    split
    · cases hres : (s.Read (min - acc.length)).1.2 with
      | none =>
        simp only [hres]
        have hlen : (acc ++ (s.Read (min - acc.length)).1.1).length ≤ min := by
          rw [List.length_append]; omega
        obtain ⟨i1, i2, i3⟩ := ih (s.Read (min - acc.length)).2
          (acc ++ (s.Read (min - acc.length)).1.1) hlen
        rw [List.length_append] at i1 i2
        refine ⟨?_, by omega, i3⟩
        rw [i1, h2]; push_cast; omega
      | some err =>
        simp only [hres, List.length_append]
        refine ⟨?_, by omega, by omega⟩
        rw [h2]; push_cast; omega
    · simp [h]

theorem sectionBinaryRead_off (s : SectionReader) (len : Nat) :
    s.off ≤ (s.binaryRead len).2.off ∧ (s.binaryRead len).2.off ≤ s.off + (len : Int) := by
  obtain ⟨h1, h2, h3⟩ := readFullLoop_section_off len (len + 1) s [] (Nat.zero_le _)
  have e : (s.binaryRead len).2 = (readFullLoop SectionReader.Read len (len + 1) s []).2 := by
    simp only [SectionReader.binaryRead, ReadFull]
    split
    · rfl
    · split <;> rfl
  rw [e, h1]
  simp only [List.length_nil, Nat.cast_zero, sub_zero]
  omega

/-- C14: if the first four bytes of the source cannot be read or are not "qres", whatever
follows them, then `ParseRCCHeader` fails and leaves the read cursor within the first four
bytes, and `NewReaderFromRCC` fails with that error wrapped; when four bytes are there the
error is the invalid-magic error and the cursor is at 4. -/
theorem C14_bad_magic_fails (src : ReaderAt) (h : src.ReadAt 0 4 ≠ (RCCHeaderMagic, none)) :
    ∃ err, (ParseRCCHeader (NewSectionReader src 0 maxInt64)).1 = .error err ∧
      0 ≤ (ParseRCCHeader (NewSectionReader src 0 maxInt64)).2.off ∧
      (ParseRCCHeader (NewSectionReader src 0 maxInt64)).2.off ≤ 4 ∧
      NewReaderFromRCC src = .error (.wrapf "parse rcc header: %w" [] err) ∧
      ∀ m, src.ReadAt 0 4 = (m, none) →
        err = .errorf "invalid magic %#v" ∧
        (ParseRCCHeader (NewSectionReader src 0 maxInt64)).2.off = 4 := by
  have hs : NewSectionReader src 0 maxInt64 =
      { r := src, base := 0, off := 0, limit := maxInt64 } := by
    rw [NewSectionReader_small _ _ _ (by decide)]; simp
  rw [hs]
  obtain ⟨o1, o2⟩ := sectionBinaryRead_off { r := src, base := 0, off := 0, limit := maxInt64 } 4
  have key : ∀ m, src.ReadAt 0 4 = (m, none) →
      SectionReader.binaryRead { r := src, base := 0, off := 0, limit := maxInt64 } 4 =
        (.ok m, { r := src, base := 0, off := 4, limit := maxInt64 }) := by
    intro m hm
    apply (sectionBinaryRead_ok _ _ _ _).2
    refine Or.inr ⟨by decide, ?_, hm, by simp⟩
    show ((4 : Nat) : Int) ≤ maxInt64 - 0
    decide
  cases hb : SectionReader.binaryRead { r := src, base := 0, off := 0, limit := maxInt64 } 4 with
  | mk res s' =>
    rw [hb] at o1 o2
    cases res with
    | error e =>
      refine ⟨.wrapf "read magic: %w" [] e, ?_, ?_, ?_, ?_, ?_⟩
      · simp only [ParseRCCHeader, hb]
      · simp only [ParseRCCHeader, hb]; exact o1
      · simp only [ParseRCCHeader, hb]; simpa using o2
      · simp only [NewReaderFromRCC, hs, ParseRCCHeader, hb]
      · intro m hm
        rw [key m hm] at hb
        injection hb with hb1 _
        cases hb1
    | ok m =>
      obtain hm := (sectionBinaryRead_ok _ _ _ _).1 hb
      rcases hm with ⟨h0, _⟩ | ⟨_, _, hr, hs'⟩
      · exact absurd h0 (by decide)
      · have hne : m ≠ RCCHeaderMagic := by
          intro e; apply h; rw [← e]; exact hr
        refine ⟨.errorf "invalid magic %#v", ?_, ?_, ?_, ?_, ?_⟩
        · simp only [ParseRCCHeader, hb, hne, ne_eq, not_false_eq_true, if_true]
        · simp only [ParseRCCHeader, hb, hne, ne_eq, not_false_eq_true, if_true]; exact o1
        · simp only [ParseRCCHeader, hb, hne, ne_eq, not_false_eq_true, if_true]
          simpa using o2
        · simp only [NewReaderFromRCC, hs, ParseRCCHeader, hb, hne, ne_eq, not_false_eq_true,
            if_true]
        · intro m' _
          refine ⟨rfl, ?_⟩
          simp only [ParseRCCHeader, hb, hne, ne_eq, not_false_eq_true, if_true]
          rw [hs']; simp

/-- C14 at a stream that begins with "xxxx". -/
theorem C14_bad_magic_fails_witness :
    (ReaderAt.bytes badMagicArchive).ReadAt 0 4 ≠ (RCCHeaderMagic, none) ∧
    ∃ err, (ParseRCCHeader (NewSectionReader (.bytes badMagicArchive) 0 maxInt64)).1 =
        .error err ∧
      0 ≤ (ParseRCCHeader (NewSectionReader (.bytes badMagicArchive) 0 maxInt64)).2.off ∧
      (ParseRCCHeader (NewSectionReader (.bytes badMagicArchive) 0 maxInt64)).2.off ≤ 4 ∧
      NewReaderFromRCC (.bytes badMagicArchive) = .error (.wrapf "parse rcc header: %w" [] err) ∧
      ∀ m, (ReaderAt.bytes badMagicArchive).ReadAt 0 4 = (m, none) →
        err = .errorf "invalid magic %#v" ∧
        (ParseRCCHeader (NewSectionReader (.bytes badMagicArchive) 0 maxInt64)).2.off = 4 :=
  ⟨by decide, C14_bad_magic_fails (.bytes badMagicArchive) (by decide)⟩

/-! ## The children of a node -/

theorem ParseNode_fst_ok_iff (r : SectionReader) (format : Int) (n : Node) :
    (ParseNode r format).1 = .ok n ↔
      format ≤ 3 ∧ nodeSize format ≤ r.limit - r.off ∧
        ∃ bs, r.r.ReadAt r.off (nodeSize format).toNat = (bs, none) ∧
          NodeFlag.Valid (beFin 16 ((bs.drop 4).take 2)) = none ∧ n = nodeOfBytes format bs := by
  constructor
  · intro h
    have h2 : ParseNode r format = (.ok n, (ParseNode r format).2) := by rw [← h]
    obtain ⟨hf, hw, _, hex⟩ := (ParseNode_ok_iff _ _ _ _).1 h2
    exact ⟨hf, hw, hex⟩
  · rintro ⟨hf, hw, hex⟩
    rw [(ParseNode_ok_iff r _ format n).2 ⟨hf, hw, rfl, hex⟩]

/-- The outcome of `ParseNode` depends on the reader only through its source, its cursor
and the room left before its limit. -/
theorem ParseNode_fst_congr (r1 r2 : SectionReader) (format : Int) (n : Node)
    (hr : r1.r = r2.r) (ho : r1.off = r2.off) (h2 : nodeSize format ≤ r2.limit - r2.off)
    (h : (ParseNode r1 format).1 = .ok n) : (ParseNode r2 format).1 = .ok n := by
  rw [ParseNode_fst_ok_iff] at h ⊢
  obtain ⟨hf, _, hex⟩ := h
  rw [hr, ho] at hex
  exact ⟨hf, h2, hex⟩

theorem parseChildren_succ (format : Int) (count : Nat) (r : SectionReader) :
    parseChildren format (count + 1) r =
      match ParseNode r format with
      | (.error err, _) => .error (.wrapf "parse child (i=%d): %w" [] err)
      | (.ok v, r) =>
        match parseChildren format count r with
        | .error err => .error err
        | .ok c => .ok (v :: c) := rfl

theorem parseChildren_ok (format : Int) : ∀ (k : Nat) (r : SectionReader) (cs : List Node),
    parseChildren format k r = .ok cs →
    cs.length = k ∧ ∀ i, i < k → ∃ ni, cs[i]? = some ni ∧
      (ParseNode { r with off := r.off + (i : Int) * nodeSize format } format).1 = .ok ni := by
  intro k
  induction k with
  | zero =>
    intro r c h
    simp only [parseChildren] at h
    injection h with h
    subst h
    exact ⟨rfl, fun i hi => absurd hi (Nat.not_lt_zero i)⟩
  | succ k ih =>
    intro r c h
    rw [parseChildren_succ] at h
    cases hp : ParseNode r format with
    | mk res r1 =>
      rw [hp] at h
      cases res with
      | error e => simp only at h; cases h
      | ok v =>
        simp only at h
        cases hc : parseChildren format k r1 with
        | error e => rw [hc] at h; cases h
        | ok c' =>
          rw [hc] at h
          simp only at h
          injection h with h
          subst h
          obtain ⟨_, _, hr1, _⟩ := (ParseNode_ok_iff _ _ _ _).1 hp
          obtain ⟨hl, hi⟩ := ih r1 c' hc
          refine ⟨by simp [hl], ?_⟩
          intro i hik
          cases i with
          | zero =>
            refine ⟨v, by simp, ?_⟩
            have e : ({ r with off := r.off + ((0 : Nat) : Int) * nodeSize format } : SectionReader)
                = r := by
              simp
            rw [e, hp]
          | succ i =>
            obtain ⟨ni, h1, h2⟩ := hi i (by omega)
            refine ⟨ni, by simpa using h1, ?_⟩
            have e : ({ r with off := r.off + ((i + 1 : Nat) : Int) * nodeSize format }
                : SectionReader) =
                { r1 with off := r1.off + (i : Int) * nodeSize format } := by
              rw [hr1]
              show ({ r with off := _ } : SectionReader) = { r with off := _ }
              congr 1
              push_cast; ring
            rw [e]; exact h2

theorem parseChildren_exists (format : Int) : ∀ (k : Nat) (r : SectionReader),
    (∀ i, i < k → ∃ ni,
      (ParseNode { r with off := r.off + (i : Int) * nodeSize format } format).1 = .ok ni) →
    ∃ c, parseChildren format k r = .ok c := by
  intro k
  induction k with
  | zero => intro r _; exact ⟨[], rfl⟩
  | succ k ih =>
    intro r h
    obtain ⟨v, hv⟩ := h 0 (Nat.succ_pos k)
    have e : ({ r with off := r.off + ((0 : Nat) : Int) * nodeSize format } : SectionReader)
        = r := by
      simp
    rw [e] at hv
    have hp : ParseNode r format = (.ok v, (ParseNode r format).2) := by rw [← hv]
    obtain ⟨_, _, hr1, _⟩ := (ParseNode_ok_iff _ _ _ _).1 hp
    obtain ⟨c', hc'⟩ := ih (ParseNode r format).2 (by
      intro i hi
      obtain ⟨ni, hni⟩ := h (i + 1) (by omega)
      refine ⟨ni, ?_⟩
      have e2 : ({ r with off := r.off + ((i + 1 : Nat) : Int) * nodeSize format }
          : SectionReader) =
          { (ParseNode r format).2 with
            off := (ParseNode r format).2.off + (i : Int) * nodeSize format } := by
        rw [hr1]
        show ({ r with off := _ } : SectionReader) = { r with off := _ }
        congr 1
        push_cast; ring
      rw [← e2]; exact hni)
    refine ⟨v :: c', ?_⟩
    rw [parseChildren_succ, hp]
    simp only
    rw [hc']

theorem nodeSize_cases (format : Int) : nodeSize format = 14 ∨ nodeSize format = 22 := by
  rw [nodeSize_eq]; split
  · exact Or.inr rfl
  · exact Or.inl rfl

theorem childSlice_iff (tree : ReaderAt) (format : Int) (co cc i : Nat) (ni : Node)
    (hco : co < 4294967296) (hcc : cc < 4294967296) (hi : i < cc) :
    (ParseNode { NewSectionReader tree ((co : Int) * nodeSize format)
          ((cc : Int) * nodeSize format) with
        off := (NewSectionReader tree ((co : Int) * nodeSize format)
          ((cc : Int) * nodeSize format)).off + (i : Int) * nodeSize format } format).1 = .ok ni ↔
    (ParseNode (NewSectionReader tree (((co + i : Nat) : Int) * nodeSize format)
      (nodeSize format)) format).1 = .ok ni := by
  have e1 : NewSectionReader tree ((co : Int) * nodeSize format) ((cc : Int) * nodeSize format) =
      { r := tree, base := (co : Int) * nodeSize format, off := (co : Int) * nodeSize format,
        limit := (cc : Int) * nodeSize format + (co : Int) * nodeSize format } := by
    apply NewSectionReader_small
    rcases nodeSize_cases format with h | h <;> rw [h] <;> simp only [maxInt64] <;> omega
  have e2 : NewSectionReader tree (((co + i : Nat) : Int) * nodeSize format) (nodeSize format) =
      { r := tree, base := ((co + i : Nat) : Int) * nodeSize format,
        off := ((co + i : Nat) : Int) * nodeSize format,
        limit := nodeSize format + ((co + i : Nat) : Int) * nodeSize format } := by
    apply NewSectionReader_small
    rcases nodeSize_cases format with h | h <;> rw [h] <;> simp only [maxInt64] <;> omega
  rw [e1, e2]
  have eo : (co : Int) * nodeSize format + (i : Int) * nodeSize format =
      ((co + i : Nat) : Int) * nodeSize format := by push_cast; ring
  have hl1 : nodeSize format ≤ (cc : Int) * nodeSize format + (co : Int) * nodeSize format
      - ((co : Int) * nodeSize format + (i : Int) * nodeSize format) := by
    rcases nodeSize_cases format with h | h <;> rw [h] <;> omega
  have hl2 : nodeSize format ≤ nodeSize format + ((co + i : Nat) : Int) * nodeSize format
      - ((co + i : Nat) : Int) * nodeSize format := by
    omega
  constructor
  · intro h
    exact ParseNode_fst_congr
      { r := tree, base := (co : Int) * nodeSize format,
        off := (co : Int) * nodeSize format + (i : Int) * nodeSize format,
        limit := (cc : Int) * nodeSize format + (co : Int) * nodeSize format }
      { r := tree, base := ((co + i : Nat) : Int) * nodeSize format,
        off := ((co + i : Nat) : Int) * nodeSize format,
        limit := nodeSize format + ((co + i : Nat) : Int) * nodeSize format }
      format ni rfl eo hl2 h
  · intro h
    exact ParseNode_fst_congr
      { r := tree, base := ((co + i : Nat) : Int) * nodeSize format,
        off := ((co + i : Nat) : Int) * nodeSize format,
        limit := nodeSize format + ((co + i : Nat) : Int) * nodeSize format }
      { r := tree, base := (co : Int) * nodeSize format,
        off := (co : Int) * nodeSize format + (i : Int) * nodeSize format,
        limit := (cc : Int) * nodeSize format + (co : Int) * nodeSize format }
      format ni rfl eo.symm hl1 h

/-- C15: `Node.Children` fails for every node that is not a directory. For a directory of
format `f` with record width `w = nodeSize f` it succeeds if and only if, for every
`i < ChildCount`, `ParseNode` with format `f` succeeds on the `w` bytes of the tree at byte
offset `(ChildOffset + i) * w`; and then the result has exactly `ChildCount` nodes, the
`i`-th being the result of that `ParseNode`. -/
theorem C15_children_listing (n : Node) (tree : ReaderAt) :
    (n.IsDir = false → ∃ err, n.Children tree = .error err) ∧
    (n.IsDir = true →
      ((∃ cs, n.Children tree = .ok cs) ↔
        ∀ i, i < n.ChildCount.val → ∃ ni,
          (ParseNode (NewSectionReader tree
            (((n.ChildOffset.val + i : Nat) : Int) * nodeSize n.Format)
            (nodeSize n.Format)) n.Format).1 = .ok ni) ∧
      ∀ cs, n.Children tree = .ok cs →
        cs.length = n.ChildCount.val ∧
        ∀ i, i < n.ChildCount.val → ∃ ni, cs[i]? = some ni ∧
          (ParseNode (NewSectionReader tree
            (((n.ChildOffset.val + i : Nat) : Int) * nodeSize n.Format)
            (nodeSize n.Format)) n.Format).1 = .ok ni) := by
  constructor
  · intro h
    exact ⟨.errorf "is a file, not a directory", by simp [Node.Children, h]⟩
  · intro h
    have hc : n.Children tree = parseChildren n.Format n.ChildCount.val
        (NewSectionReader tree ((n.ChildOffset.val : Int) * nodeSize n.Format)
          ((n.ChildCount.val : Int) * nodeSize n.Format)) := by
      simp [Node.Children, h]
    rw [hc]
    have key : ∀ cs, parseChildren n.Format n.ChildCount.val
        (NewSectionReader tree ((n.ChildOffset.val : Int) * nodeSize n.Format)
          ((n.ChildCount.val : Int) * nodeSize n.Format)) = .ok cs →
        cs.length = n.ChildCount.val ∧
        ∀ i, i < n.ChildCount.val → ∃ ni, cs[i]? = some ni ∧
          (ParseNode (NewSectionReader tree
            (((n.ChildOffset.val + i : Nat) : Int) * nodeSize n.Format)
            (nodeSize n.Format)) n.Format).1 = .ok ni := by
      intro cs hcs
      obtain ⟨hl, hi⟩ := parseChildren_ok _ _ _ _ hcs
      refine ⟨hl, ?_⟩
      intro i hik
      obtain ⟨ni, h1, h2⟩ := hi i hik
      exact ⟨ni, h1, (childSlice_iff tree n.Format _ _ i ni n.ChildOffset.isLt
        n.ChildCount.isLt hik).1 h2⟩
    refine ⟨⟨?_, ?_⟩, key⟩
    · rintro ⟨cs, hcs⟩ i hik
      obtain ⟨ni, _, h2⟩ := (key cs hcs).2 i hik
      exact ⟨ni, h2⟩
    · intro hall
      apply parseChildren_exists
      intro i hik
      obtain ⟨ni, hni⟩ := hall i hik
      exact ⟨ni, (childSlice_iff tree n.Format _ _ i ni n.ChildOffset.isLt
        n.ChildCount.isLt hik).2 hni⟩

/-- C15 at the root of the sample archive: two children, the records at tree offsets 14
and 28. -/
theorem C15_children_listing_witness :
    sampleRoot.IsDir = true ∧
    sampleRoot.Children sampleReader.tree.toReaderAt = .ok [sampleD.n, sampleF.n] ∧
    [sampleD.n, sampleF.n].length = sampleRoot.ChildCount.val ∧
    ∀ i, i < sampleRoot.ChildCount.val → ∃ ni, [sampleD.n, sampleF.n][i]? = some ni ∧
      (ParseNode (NewSectionReader sampleReader.tree.toReaderAt
        (((sampleRoot.ChildOffset.val + i : Nat) : Int) * nodeSize sampleRoot.Format)
        (nodeSize sampleRoot.Format)) sampleRoot.Format).1 = .ok ni :=
  ⟨by decide, by decide,
   ((C15_children_listing sampleRoot sampleReader.tree.toReaderAt).2 (by decide)).2
     [sampleD.n, sampleF.n] (by decide)⟩

/-! ## Paths, nested archives, listing errors -/

theorem childPath_below (p name : GoString) (hp : NoLeadingSlash p) (hne : p ≠ []) :
    trimLeftSlash (p ++ [0x2F] ++ name) = p ++ [0x2F] ++ name ∧
      NoLeadingSlash (p ++ [0x2F] ++ name) ∧ p ++ [0x2F] ++ name ≠ [] := by
  cases p with
  | nil => exact absurd rfl hne
  | cons b rest =>
    have hb : b ≠ 0x2F := fun hb => hp rest (by rw [hb])
    refine ⟨?_, ?_, ?_⟩
    · simp [trimLeftSlash, hb]
    · intro r hr
      simp only [List.cons_append, List.cons.injEq] at hr
      exact hb hr.1
    · simp

theorem PathsUnder_below (p name : GoString) (calls : List Call)
    (h : PathsUnder (p ++ [0x2F] ++ name) calls) : PathsBelow p calls := by
  intro q hq
  rcases h q hq with h1 | h1
  · rw [h1]; exact ⟨name, by simp⟩
  · exact List.IsPrefix.trans ⟨name ++ [0x2F], by simp⟩ h1

theorem PathsBelow_ne (p : GoString) (calls : List Call) (h : PathsBelow p calls) :
    ∀ q, q ∈ calls → q.path ≠ p := by
  intro q hq he
  have := (h q hq).length_le
  rw [he, List.length_append] at this
  simp at this

theorem walkChildren_paths
    (rec : List Call → GoString → ReaderEntry → Option WalkResult) (p : GoString)
    (hp : NoLeadingSlash p) (hne : p ≠ [])
    (hrec : ∀ tr cp e res, NoLeadingSlash cp → cp ≠ [] → rec tr cp e = some res →
      ∃ calls, res.1 = tr ++ calls ∧ PathsUnder cp calls) :
    ∀ (c : List ReaderEntry) (tr : List Call) (res : WalkResult),
      walkChildren rec p c tr = some res →
      ∃ calls, res.1 = tr ++ calls ∧ PathsBelow p calls := by
  intro c
  induction c with
  | nil =>
    intro tr res h
    simp only [walkChildren, Option.some.injEq] at h
    subst h
    exact ⟨[], by simp, fun q hq => absurd hq (List.not_mem_nil q)⟩
  | cons v c ih =>
    intro tr res h
    simp only [walkChildren] at h
    obtain ⟨hcp, hnl, hcne⟩ := childPath_below p v.Name hp hne
    rw [hcp] at h
    cases hv : rec tr (p ++ [0x2F] ++ v.Name) v with
    | none => rw [hv] at h; simp at h
    | some r =>
      rw [hv] at h
      obtain ⟨calls1, h1, hu⟩ := hrec _ _ _ _ hnl hcne hv
      have hb := PathsUnder_below p v.Name calls1 hu
      obtain ⟨tr1, out⟩ := r
      simp only at h1
      subst h1
      cases out with
      | panic msg =>
        simp only [Option.some.injEq] at h
        subst h
        exact ⟨calls1, rfl, hb⟩
      | ret err =>
        cases err with
        | none =>
          dsimp only at h
          obtain ⟨calls2, h2, hb2⟩ := ih _ _ h
          refine ⟨calls1 ++ calls2, by rw [h2, List.append_assoc], ?_⟩
          intro q hq
          rcases List.mem_append.mp hq with hq | hq
          · exact hb q hq
          · exact hb2 q hq
        | some err =>
          dsimp only at h
          split at h
          · simp only [Option.some.injEq] at h
            subst h
            exact ⟨calls1, rfl, hb⟩
          · simp only [Option.some.injEq] at h
            subst h
            exact ⟨calls1, rfl, hb⟩

theorem callAndReturn_fst (fn : WalkFunc) (tr : List Call) (c : Call) :
    (callAndReturn fn tr c).1 = tr ++ [c] := by
  unfold callAndReturn
  split
  · rfl
  · split <;> rfl

theorem PathsUnder_single (p : GoString) (c : Call) (h : c.path = p) : PathsUnder p [c] := by
  intro q hq
  rw [List.mem_singleton] at hq
  rw [hq]; exact Or.inl h

theorem PathsUnder_cons (p : GoString) (c : Call) (calls : List Call) (h : c.path = p)
    (hb : PathsBelow p calls) : PathsUnder p (c :: calls) := by
  intro q hq
  rcases List.mem_cons.mp hq with hq | hq
  · rw [hq]; exact Or.inl h
  · exact Or.inr (hb q hq)

theorem walk_paths (codecs : Codecs) (fn : WalkFunc) (rr : Bool) : ∀ (fuel : Nat)
    (tr : List Call) (p : GoString) (e : ReaderEntry) (res : WalkResult),
    NoLeadingSlash p → p ≠ [] → walk codecs fn rr fuel tr p e = some res →
    ∃ calls, res.1 = tr ++ calls ∧ PathsUnder p calls := by
  intro fuel
  induction fuel with
  | zero => intro tr p e res _ _ h; simp [walk] at h
  | succ fuel ih =>
    intro tr p e res hp hne h
    rw [walk_succ] at h
    have hch := walkChildren_paths (walk codecs fn rr fuel) p hp hne
      (fun tr cp e res h1 h2 h3 => ih tr cp e res h1 h2 h3)
    split at h
    · split at h
      · simp only [Option.some.injEq] at h
        subst h
        exact ⟨[_], callAndReturn_fst _ _ _, PathsUnder_single _ _ rfl⟩
      · split at h
        · split at h
          · simp only [Option.some.injEq] at h
            subst h
            exact ⟨[_], rfl, PathsUnder_single _ _ rfl⟩
          · simp only [Option.some.injEq] at h
            subst h
            exact ⟨[_], rfl, PathsUnder_single _ _ rfl⟩
        · obtain ⟨calls, h1, hb⟩ := hch _ _ _ h
          exact ⟨{ path := p, entry := e, err := none } :: calls, by rw [h1]; simp,
            PathsUnder_cons _ _ _ rfl hb⟩
    · split at h
      · split at h
        · simp only [Option.some.injEq] at h
          subst h
          exact ⟨[_], callAndReturn_fst _ _ _, PathsUnder_single _ _ rfl⟩
        · rename_i r hn
          cases hw : walk codecs fn rr fuel tr p { v := e.v, n := r.root, r := r } with
          | none => rw [hw] at h; simp at h
          | some r1 =>
            rw [hw] at h
            obtain ⟨calls, h1, hu⟩ := ih _ _ _ _ hp hne hw
            obtain ⟨tr1, out⟩ := r1
            simp only at h1
            subst h1
            cases out with
            | panic msg =>
              simp only [Option.some.injEq] at h
              subst h
              exact ⟨calls, rfl, hu⟩
            | ret err =>
              cases err with
              | none =>
                simp only [Option.some.injEq] at h
                subst h
                exact ⟨calls, rfl, hu⟩
              | some err =>
                dsimp only at h
                split at h
                · simp only [Option.some.injEq] at h
                  subst h
                  exact ⟨calls, rfl, hu⟩
                · simp only [Option.some.injEq] at h
                  subst h
                  exact ⟨calls, rfl, hu⟩
      · simp only [Option.some.injEq] at h
        subst h
        exact ⟨[_], callAndReturn_fst _ _ _, PathsUnder_single _ _ rfl⟩

theorem filepathExt_ne_nil (path : GoString) (h : filepathExt path = dotRcc) : path ≠ [] := by
  intro hp
  rw [hp] at h
  exact absurd h (by decide)

/-- On an encoded forest without ".rcc" paths the child loop of `walk` reports the pre-order
listing, also with `rccRecurse = true`. -/
theorem walkChildren_encodes_rcc (codecs : Codecs) (rr : Bool) (c : List ReaderEntry)
    (f : Forest) (henc : Encodes c f) :
    f.NamesOK → ∀ (parent : GoString) (tr : List Call) (fuel : Nat), NoLeadingSlash parent →
      f.NoRcc parent → f.depth ≤ fuel →
      walkChildren (walk codecs nilFunc rr fuel) parent c tr =
        some (tr ++ f.preorder parent, .ret none) := by
  induction henc with
  | nil =>
    intro _ parent tr fuel _ _ _
    simp [walkChildren, Forest.preorder]
  | file e es rest hd _ ih =>
    intro hn parent tr fuel hp hrcc hf
    obtain ⟨hne, hs, _, hnr⟩ := hn
    obtain ⟨hext, _, hrr⟩ := hrcc
    obtain ⟨hpath, _, _⟩ := childPath_eq parent e.v hp hne hs
    have hf1 : 1 ≤ fuel ∧ rest.depth ≤ fuel := by
      simp only [Forest.depth] at hf; omega
    obtain ⟨k, rfl⟩ : ∃ k, fuel = k + 1 := ⟨fuel - 1, by omega⟩
    simp only [walkChildren, ReaderEntry.Name, hpath, walk_succ, hd, hext, decide_False,
      Bool.and_false, Bool.false_eq_true, if_false, callAndReturn, nilFunc]
    rw [ih hnr parent _ (k + 1) hp hrr hf1.2]
    simp [Forest.preorder]
  | dir e c es kids rest hd hc _ _ ihk ihr =>
    intro hn parent tr fuel hp hrcc hf
    obtain ⟨hne, hs, hnk, hnr⟩ := hn
    obtain ⟨_, hrk, hrr⟩ := hrcc
    obtain ⟨hpath, hpne, hpl⟩ := childPath_eq parent e.v hp hne hs
    have hf1 : kids.depth + 1 ≤ fuel ∧ rest.depth ≤ fuel := by
      simp only [Forest.depth] at hf; omega
    obtain ⟨k, rfl⟩ : ∃ k, fuel = k + 1 := ⟨fuel - 1, by omega⟩
    simp only [walkChildren, ReaderEntry.Name, hpath, walk_succ, hd, if_true, hc, ne_eq, hpne,
      not_false_eq_true, nilFunc]
    rw [ihk hnk _ _ k hpl hrk (by omega)]
    dsimp only
    rw [ihr hnr parent _ (k + 1) hp hrr hf1.2]
    simp [Forest.preorder]

/-- The walk of a file that is taken for a nested rcc returns what the walk of the nested root
returns, up to the wrapping of the error. -/
theorem walk_nested_fst (codecs : Codecs) (fn : WalkFunc) (fuel : Nat) (tr : List Call)
    (path : GoString) (entry : ReaderEntry) (r : Reader) (res : WalkResult)
    (hfile : entry.IsDir = false) (hext : filepathExt path = dotRcc)
    (hopen : nestedRCC codecs path entry = .ok r)
    (h : walk codecs fn true (fuel + 1) tr path entry = some res) :
    ∃ out, walk codecs fn true fuel tr path { v := entry.v, n := r.root, r := r } =
      some (res.1, out) := by
  rw [walk_succ] at h
  simp only [hfile, Bool.false_eq_true, if_false, hext, decide_True, Bool.and_self, if_true,
    hopen] at h
  cases hw : walk codecs fn true fuel tr path { v := entry.v, n := r.root, r := r } with
  | none => rw [hw] at h; simp at h
  | some r1 =>
    rw [hw] at h
    obtain ⟨tr1, out⟩ := r1
    cases out with
    | panic msg =>
      simp only [Option.some.injEq] at h
      subst h
      exact ⟨_, rfl⟩
    | ret err =>
      cases err with
      | none =>
        simp only [Option.some.injEq] at h
        subst h
        exact ⟨_, rfl⟩
      | some err =>
        dsimp only at h
        split at h
        · simp only [Option.some.injEq] at h
          subst h
          exact ⟨_, rfl⟩
        · simp only [Option.some.injEq] at h
          subst h
          exact ⟨_, rfl⟩

/-- The invocations of a walk of a directory that can be listed, at a non-empty path: first
the directory itself with a nil error, then only paths strictly below it, and none at all if
the callback does not return nil for the directory. -/
theorem walk_dir_shape (codecs : Codecs) (fn : WalkFunc) (rr : Bool) (fuel : Nat)
    (tr : List Call) (path : GoString) (e : ReaderEntry) (c : List ReaderEntry)
    (res : WalkResult) (hdir : e.IsDir = true) (hlist : e.Children = .ok c)
    (hnl : NoLeadingSlash path) (hne : path ≠ [])
    (h : walk codecs fn rr fuel tr path e = some res) :
    ∃ calls, res.1 = tr ++ { path := path, entry := e, err := none } :: calls ∧
      PathsBelow path calls ∧
      (fn tr { path := path, entry := e, err := none } ≠ none → calls = []) := by
  cases fuel with
  | zero => simp [walk] at h
  | succ fuel =>
    rw [walk_succ, if_pos hdir, hlist] at h
    simp only [ne_eq, hne, not_false_eq_true, if_true] at h
    cases hf : fn tr { path := path, entry := e, err := none } with
    | some err =>
      rw [hf] at h
      dsimp only at h
      refine ⟨[], ?_, fun q hq => absurd hq (List.not_mem_nil q), fun _ => rfl⟩
      split at h
      · simp only [Option.some.injEq] at h
        subst h; rfl
      · simp only [Option.some.injEq] at h
        subst h; rfl
    | none =>
      rw [hf] at h
      dsimp only at h
      obtain ⟨calls, h1, hb⟩ := walkChildren_paths (walk codecs fn rr fuel) path hnl hne
        (fun tr cp e res h1 h2 h3 => walk_paths codecs fn rr fuel tr cp e res h1 h2 h3) _ _ _ h
      exact ⟨calls, by rw [h1]; simp, hb, fun hc => absurd rfl hc⟩

/-- The walk of a nested rcc whose root is a directory that can be listed: it returns, and
its invocations are the nested root at the path of the rcc, then only paths strictly below
it. -/
theorem walk_nested_shape (codecs : Codecs) (fn : WalkFunc) (tr : List Call)
    (path : GoString) (entry : ReaderEntry) (r : Reader) (c : List ReaderEntry)
    (hfile : entry.IsDir = false) (hext : filepathExt path = dotRcc)
    (hnl : NoLeadingSlash path) (hopen : nestedRCC codecs path entry = .ok r)
    (hroot : r.root.IsDir = true)
    (hlist : ReaderEntry.Children { v := entry.v, n := r.root, r := r } = .ok c)
    (hfin : FiniteTree codecs true path { v := entry.v, n := r.root, r := r }) :
    ∃ N, ∀ fuel, N ≤ fuel → ∃ calls out,
      walk codecs fn true fuel tr path entry =
        some (tr ++ { path := path, entry := { v := entry.v, n := r.root, r := r },
                      err := none } :: calls, out) ∧
      PathsBelow path calls ∧
      (fn tr { path := path, entry := { v := entry.v, n := r.root, r := r }, err := none }
        ≠ none → calls = []) := by
  have hcond : (true && decide (filepathExt path = dotRcc)) = true := by simp [hext]
  obtain ⟨N, hN⟩ := walk_returns_of_finite codecs true path entry
    (FiniteTree.rcc path entry r hfile hcond hopen hfin)
  refine ⟨N + 1, fun fuel hf => ?_⟩
  obtain ⟨res, hres⟩ := hN fuel (by omega) fn tr
  obtain ⟨k, rfl⟩ : ∃ k, fuel = k + 1 := ⟨fuel - 1, by omega⟩
  obtain ⟨out, hw⟩ := walk_nested_fst codecs fn k tr path entry r res hfile hext hopen hres
  have hd : ReaderEntry.IsDir { v := entry.v, n := r.root, r := r } = true := hroot
  obtain ⟨calls, h1, hb, hs⟩ := walk_dir_shape codecs fn true k tr path
    { v := entry.v, n := r.root, r := r } c _ hd hlist hnl (filepathExt_ne_nil path hext) hw
  refine ⟨calls, res.2, ?_, hb, hs⟩
  rw [hres]
  simp only at h1
  rw [← h1]

theorem xRcc_noLeading : NoLeadingSlash xRccPath := by
  intro rest h
  injection h with h1 _
  exact absurd h1 (by decide)

theorem nested_open : nestedRCC nullCodecs xRccPath xRccEntry = .ok nestedInnerReader := by
  decide

theorem nested_root_children : xRccRoot.Children = .ok [nestedY] := by decide

theorem nested_finite : FiniteTree nullCodecs true xRccPath xRccRoot := by
  refine FiniteTree.dir _ _ [nestedY] (by decide) nested_root_children ?_
  intro v hv
  rw [List.mem_singleton] at hv
  subst hv
  exact FiniteTree.file _ _ (by decide) (by decide)

theorem nested_encodes : Encodes [nestedY] (.cons nestedY .nil .nil) :=
  Encodes.file nestedY [] _ (by decide) Encodes.nil

/-- C19, as stated, fails: the nested archive in "x.rcc" opens and parses, and the callback
is invoked with the path "x.rcc" all the same, for the nested root. -/
theorem C19_counterexample :
    NewReader (.bytes nestedOuter) 1 0 44 28 = .ok nestedOuterReader ∧
      nestedRCC nullCodecs xRccPath xRccEntry = .ok nestedInnerReader ∧
      nestedOuterReader.Walk nullCodecs nilFunc true 4 =
        some ([{ path := xRccPath, entry := xRccRoot, err := none },
               { path := xRccPath ++ [47, 121], entry := nestedY, err := none }],
              .ret none) := by
  refine ⟨by decide, by decide, by decide⟩

/-- The walk of a directory that cannot be listed: at a non-empty path the callback is
invoked once, for the directory and with the error, and decides how the walk goes on; at
the empty path the error is returned and the callback is not invoked. -/
theorem walk_listing_error (codecs : Codecs) (fn : WalkFunc) (rr : Bool) (fuel : Nat)
    (tr : List Call) (path : GoString) (e : ReaderEntry) (err : GoError)
    (hdir : e.IsDir = true) (herr : e.Children = .error err) :
    (path ≠ [] → walk codecs fn rr (fuel + 1) tr path e =
      some (callAndReturn fn tr
        { path := path, entry := e,
          err := some (.wrapf "walk: get children for dir %q: %w" path err) })) ∧
    (path = [] → walk codecs fn rr (fuel + 1) tr path e = some (tr, .ret (some err))) := by
  constructor
  · intro hne
    rw [walk_succ, if_pos hdir, herr]
    simp only [hne, if_false]
  · intro hp
    rw [walk_succ, if_pos hdir, herr]
    simp only [hp, if_true]

/-- After a directory at a non-empty path that cannot be listed, for which the callback
returns nil, the loop over the children of the parent goes on with the next sibling. -/
theorem walkChildren_listing_error (codecs : Codecs) (fn : WalkFunc) (rr : Bool) (fuel : Nat)
    (parent : GoString) (v : ReaderEntry) (rest : List ReaderEntry) (tr : List Call)
    (err : GoError) (hdir : v.IsDir = true) (herr : v.Children = .error err)
    (hpath : trimLeftSlash (parent ++ [0x2F] ++ v.Name) ≠ [])
    (hnil : fn tr { path := trimLeftSlash (parent ++ [0x2F] ++ v.Name), entry := v,
                    err := some (.wrapf "walk: get children for dir %q: %w"
                      (trimLeftSlash (parent ++ [0x2F] ++ v.Name)) err) } = none) :
    walkChildren (walk codecs fn rr (fuel + 1)) parent (v :: rest) tr =
      walkChildren (walk codecs fn rr (fuel + 1)) parent rest
        (tr ++ [{ path := trimLeftSlash (parent ++ [0x2F] ++ v.Name), entry := v,
                  err := some (.wrapf "walk: get children for dir %q: %w"
                    (trimLeftSlash (parent ++ [0x2F] ++ v.Name)) err) }]) := by
  have hw := (walk_listing_error codecs fn rr fuel tr _ v err hdir herr).1 hpath
  simp only [callAndReturn, hnil] at hw
  simp only [walkChildren, hw]

/-- C20: a directory that is not the root can have the empty path: the directory with the
empty name below the root. Its listing fails, and `walk` takes it for the root: the callback
is not invoked for it, the error is returned, the sibling "f" is not visited, and `Walk`
fails with the listing error. -/
theorem C20_empty_path_directory_is_taken_for_root :
    NewReader (.bytes emptyNameArchive) 1 0 56 42 = .ok emptyNameReader ∧
      ReaderEntry.Children { v := [], n := emptyNameReader.root, r := emptyNameReader } =
        .ok [emptyNameDir, emptyNameF] ∧
      emptyNameDir.IsDir = true ∧
      emptyNameDir.Children = .error emptyNameErr ∧
      trimLeftSlash ([] ++ [0x2F] ++ emptyNameDir.Name) = [] ∧
      ∀ (fn : WalkFunc) (rr : Bool) (fuel : Nat),
        emptyNameReader.Walk nullCodecs fn rr (fuel + 2) = some ([], .ret (some emptyNameErr)) := by
  have h1 : ReaderEntry.Children { v := [], n := emptyNameReader.root, r := emptyNameReader } =
      .ok [emptyNameDir, emptyNameF] := by decide
  have h2 : emptyNameDir.Children = .error emptyNameErr := by decide
  refine ⟨by decide, h1, by decide, h2, by decide, ?_⟩
  intro fn rr fuel
  have hd : ReaderEntry.IsDir { v := [], n := emptyNameReader.root, r := emptyNameReader }
      = true := by decide
  have hp : trimLeftSlash ([] ++ [0x2F] ++ emptyNameDir.Name) = [] := by decide
  rw [Reader.Walk, walk_succ, if_pos hd, h1]
  simp only [ne_eq, not_true_eq_false, if_false]
  simp only [walkChildren, hp]
  rw [(walk_listing_error nullCodecs fn rr fuel [] [] emptyNameDir emptyNameErr (by decide)
    h2).2 rfl]
  rfl

/-! ## Record width -/

theorem limitedBinaryRead_N (l l' : LimitedReader) (k : Nat) (b : List Byte)
    (hk : 0 < k) (h : l.binaryRead k = (.ok b, l')) : l'.N = l.N - (k : Int) := by
  rw [(limitedBinaryRead_step l l' k b hk h).2.2.2.2]

/-- The check at the end of `ParseNode` never fails: when all reads have succeeded the
limited reader is used up. -/
theorem ParseNode_no_bug (r : SectionReader) (format : Int) :
    (ParseNode r format).1 ≠ .error (.errorf "bug: should have read %d bytes more") := by
  intro h
  unfold ParseNode at h
  dsimp only at h
  split at h
  · simp at h
  rename_i hf
  split at h
  · simp at h
  rename_i b1 l1 e1
  split at h
  · simp at h
  rename_i b2 l2 e2
  have j2 := limitedBinaryRead_join _ _ _ 4 2 _ _ (by omega) (by omega) e1 e2
  split at h
  · simp at h
  split at h
  · -- directory
    split at h
    · simp at h
    rename_i b3 l3 e3
    split at h
    · simp at h
    rename_i b4 l4 e4
    have j3 := limitedBinaryRead_join _ _ _ (4 + 2) 4 _ _ (by omega) (by omega) j2 e3
    have j4 := limitedBinaryRead_join _ _ _ (4 + 2 + 4) 4 _ _ (by omega) (by omega) j3 e4
    have n4 := limitedBinaryRead_N _ _ _ _ (by omega) j4
    unfold parseNodeTail at h
    dsimp only at h
    split at h
    · rename_i h2
      split at h
      · simp at h
      rename_i b5 l5 e5
      have n5 := limitedBinaryRead_N _ _ _ _ (by omega) e5
      have hn : nodeSize format = 22 := by rw [nodeSize_eq, if_pos h2]
      split at h
      · rename_i hN
        apply hN
        rw [n5, n4]
        show nodeSize format - ((4 + 2 + 4 + 4 : Nat) : Int) - ((8 : Nat) : Int) = 0
        rw [hn]; rfl
      · simp at h
    · rename_i h2
      have hn : nodeSize format = 14 := by rw [nodeSize_eq, if_neg h2]
      split at h
      · rename_i hN
        apply hN
        rw [n4]
        show nodeSize format - ((4 + 2 + 4 + 4 : Nat) : Int) = 0
        rw [hn]; rfl
      · simp at h
  · -- file
    split at h
    · simp at h
    rename_i b3 l3 e3
    split at h
    · simp at h
    rename_i b4 l4 e4
    split at h
    · simp at h
    rename_i b5 l5 e5
    have j3 := limitedBinaryRead_join _ _ _ (4 + 2) 2 _ _ (by omega) (by omega) j2 e3
    have j4 := limitedBinaryRead_join _ _ _ (4 + 2 + 2) 2 _ _ (by omega) (by omega) j3 e4
    have j5 := limitedBinaryRead_join _ _ _ (4 + 2 + 2 + 2) 4 _ _ (by omega) (by omega) j4 e5
    have n4 := limitedBinaryRead_N _ _ _ _ (by omega) j5
    unfold parseNodeTail at h
    dsimp only at h
    split at h
    · rename_i h2
      split at h
      · simp at h
      rename_i b6 l6 e6
      have n5 := limitedBinaryRead_N _ _ _ _ (by omega) e6
      have hn : nodeSize format = 22 := by rw [nodeSize_eq, if_pos h2]
      split at h
      · rename_i hN
        apply hN
        rw [n5, n4]
        show nodeSize format - ((4 + 2 + 2 + 2 + 4 : Nat) : Int) - ((8 : Nat) : Int) = 0
        rw [hn]; rfl
      · simp at h
    · rename_i h2
      have hn : nodeSize format = 14 := by rw [nodeSize_eq, if_neg h2]
      split at h
      · rename_i hN
        apply hN
        rw [n4]
        show nodeSize format - ((4 + 2 + 2 + 2 + 4 : Nat) : Int) = 0
        rw [hn]; rfl
      · simp at h

/-- C27: for every format version at most 3 and every input, a successful `ParseNode`
advances the stream by exactly `nodeSize format` bytes, the bytes of the record, for
directory and file nodes alike; `nodeSize` is 14 below format 2 (so for format 1) and 22 from
format 2 on (so for formats 2 and 3); and for no format and no input does `ParseNode` return
the error "bug: should have read ... bytes more". -/
theorem C27_record_width_accounting (r : SectionReader) (format : Int) :
    (∀ n r', ParseNode r format = (.ok n, r') →
      format ≤ 3 ∧ r' = { r with off := r.off + nodeSize format } ∧
      ∃ bs, r.r.ReadAt r.off (nodeSize format).toNat = (bs, none) ∧
        (bs.length : Int) = nodeSize format) ∧
    (format < 2 → nodeSize format = 14) ∧ (2 ≤ format → nodeSize format = 22) ∧
    (ParseNode r format).1 ≠ .error (.errorf "bug: should have read %d bytes more") := by
  refine ⟨?_, ?_, ?_, ParseNode_no_bug r format⟩
  · intro n r' h
    obtain ⟨hf, _, hr', bs, hr, _, _⟩ := (ParseNode_ok_iff r r' format n).1 h
    refine ⟨hf, hr', bs, hr, ?_⟩
    have hl := ReadAt_full r.r r.off (nodeSize format).toNat (by rw [hr])
    rw [hr] at hl
    simp only at hl
    rw [hl]
    rcases nodeSize_cases format with h' | h' <;> rw [h'] <;> rfl
  · intro h; rw [nodeSize_eq, if_neg (by omega)]
  · intro h; rw [nodeSize_eq, if_pos (by omega)]

/-- C27 at the record of the file "f" of the sample archive: 14 bytes. -/
theorem C27_record_width_accounting_witness :
    ParseNode (NewSectionReader (.bytes sampleArchive) 28 14) 1 =
        (.ok sampleF.n, { r := .bytes sampleArchive, base := 28, off := 42, limit := 42 }) ∧
      ((1 : Int) ≤ 3 ∧
        ({ r := .bytes sampleArchive, base := 28, off := 42, limit := 42 } : SectionReader) =
          { NewSectionReader (.bytes sampleArchive) 28 14 with
            off := (NewSectionReader (.bytes sampleArchive) 28 14).off + nodeSize 1 } ∧
        ∃ bs, (NewSectionReader (.bytes sampleArchive) 28 14).r.ReadAt
            (NewSectionReader (.bytes sampleArchive) 28 14).off (nodeSize 1).toNat = (bs, none) ∧
          (bs.length : Int) = nodeSize 1) :=
  ⟨by decide, (C27_record_width_accounting (NewSectionReader (.bytes sampleArchive) 28 14) 1).1
    sampleF.n _ (by decide)⟩

/-! ## Invariants of the walker -/

theorem parseChildren_err (format : Int) : ∀ (k : Nat) (r : SectionReader) (err : GoError),
    parseChildren format k r = .error err → err.isSkipDir = false := by
  intro k
  induction k with
  | zero => intro r err h; simp [parseChildren] at h
  | succ k ih =>
    intro r err h
    rw [parseChildren_succ] at h
    split at h
    · injection h with h; subst h; rfl
    · rename_i v r1 _
      cases hc : parseChildren format k r1 with
      | error e =>
        rw [hc] at h
        simp only at h
        injection h with h; subst h
        exact ih _ _ hc
      | ok c' => rw [hc] at h; simp at h

theorem nameChildren_err (r : Reader) : ∀ (ns : List Node) (err : GoError),
    nameChildren r ns = .error err → err.isSkipDir = false := by
  intro ns
  induction ns with
  | nil => intro err h; simp [nameChildren] at h
  | cons n ns ih =>
    intro err h
    simp only [nameChildren] at h
    split at h
    · injection h with h; subst h; rfl
    · split at h
      · rename_i e he
        injection h with h; subst h
        exact ih _ he
      · simp at h

/-- A listing error is never the `filepath.SkipDir` sentinel. -/
theorem Children_err (e : ReaderEntry) (err : GoError) (h : e.Children = .error err) :
    err.isSkipDir = false := by
  unfold ReaderEntry.Children at h
  split at h
  · rename_i e1 he
    injection h with h; subst h
    unfold Node.Children at he
    split at he
    · injection he with he; subst he; rfl
    · exact parseChildren_err _ _ _ _ he
  · exact nameChildren_err _ _ _ h

theorem noBareSkip_none (tr : List Call) : NoBareSkip (tr, .ret none) := by
  constructor
  · intro msg h; cases h
  · intro err h; cases h

theorem noBareSkip_of (tr : List Call) (err : GoError) (hs : err.isSkipDir = false) :
    NoBareSkip (tr, .ret (some err)) := by
  constructor
  · intro msg h; cases h
  · intro err' h
    injection h with h; injection h with h; subst h; exact hs

theorem callAndReturn_noBareSkip (fn : WalkFunc) (tr : List Call) (c : Call) :
    NoBareSkip (callAndReturn fn tr c) := by
  unfold callAndReturn
  split
  · exact noBareSkip_none _
  · split
    · exact noBareSkip_none _
    · exact noBareSkip_of _ _ rfl

theorem walkChildren_noBareSkip
    (rec : List Call → GoString → ReaderEntry → Option WalkResult)
    (hrec : ∀ tr p e res, rec tr p e = some res → NoBareSkip res) (path : GoString) :
    ∀ (c : List ReaderEntry) (tr : List Call) (res : WalkResult),
      walkChildren rec path c tr = some res → NoBareSkip res := by
  intro c
  induction c with
  | nil =>
    intro tr res h
    simp only [walkChildren, Option.some.injEq] at h
    subst h
    exact noBareSkip_none _
  | cons v c ih =>
    intro tr res h
    simp only [walkChildren] at h
    cases hv : rec tr (trimLeftSlash (path ++ [0x2F] ++ v.Name)) v with
    | none => rw [hv] at h; simp at h
    | some r =>
      rw [hv] at h
      have hinv := hrec _ _ _ _ hv
      obtain ⟨tr1, out⟩ := r
      cases out with
      | panic msg => exact absurd rfl (hinv.1 msg)
      | ret err =>
        cases err with
        | none => exact ih _ _ h
        | some err =>
          have hs : err.isSkipDir = false := hinv.2 err rfl
          dsimp only at h
          rw [hs] at h
          simp only [Bool.false_eq_true, if_false] at h
          split at h
          · simp only [Option.some.injEq] at h
            subst h
            exact hinv
          · simp only [Option.some.injEq] at h
            subst h
            exact noBareSkip_of _ _ rfl

/-- The recursive helper never panics and never returns the bare sentinel. -/
theorem walk_noBareSkip (codecs : Codecs) (fn : WalkFunc) (rr : Bool) : ∀ (fuel : Nat)
    (tr : List Call) (path : GoString) (e : ReaderEntry) (res : WalkResult),
    walk codecs fn rr fuel tr path e = some res → NoBareSkip res := by
  intro fuel
  induction fuel with
  | zero => intro tr path e res h; simp [walk] at h
  | succ fuel ih =>
    intro tr path e res h
    rw [walk_succ] at h
    have hch := walkChildren_noBareSkip (walk codecs fn rr fuel) ih path
    split at h
    · split at h
      · rename_i err herr
        split at h
        · simp only [Option.some.injEq] at h
          subst h
          exact noBareSkip_of _ _ (Children_err e _ herr)
        · simp only [Option.some.injEq] at h
          subst h
          exact callAndReturn_noBareSkip fn tr _
      · split at h
        · split at h
          · split at h
            · simp only [Option.some.injEq] at h
              subst h
              exact noBareSkip_none _
            · simp only [Option.some.injEq] at h
              subst h
              exact noBareSkip_of _ _ rfl
          · exact hch _ _ _ h
        · exact hch _ _ _ h
    · split at h
      · split at h
        · simp only [Option.some.injEq] at h
          subst h
          exact callAndReturn_noBareSkip fn tr _
        · rename_i r hn
          cases hw : walk codecs fn rr fuel tr path { v := e.v, n := r.root, r := r } with
          | none => rw [hw] at h; simp at h
          | some r1 =>
            rw [hw] at h
            have hinv := ih _ _ _ _ hw
            obtain ⟨tr1, out⟩ := r1
            cases out with
            | panic msg => exact absurd rfl (hinv.1 msg)
            | ret err =>
              cases err with
              | none =>
                simp only [Option.some.injEq] at h
                subst h
                exact hinv
              | some err =>
                have hs : err.isSkipDir = false := hinv.2 err rfl
                dsimp only at h
                rw [hs] at h
                simp only [Bool.false_eq_true, if_false, Option.some.injEq] at h
                subst h
                exact noBareSkip_of _ _ rfl
      · simp only [Option.some.injEq] at h
        subst h
        exact callAndReturn_noBareSkip fn tr _

/-- C28: for every archive, every callback and either value of `rccRecurse`, whenever a call
of the recursive helper `walk` (at any level, so also `Walk` itself) returns, its outcome is
not a panic and the error it returns is not the bare `filepath.SkipDir` sentinel. A panic
inside a call ends every enclosing call with that panic, so no run reaches either
"filepath.SkipDir shouldn't have been returned from walk" panic. -/
theorem C28_walk_never_returns_bare_skipdir (codecs : Codecs) (fn : WalkFunc)
    (rccRecurse : Bool) (fuel : Nat) (tr : List Call) (path : GoString) (e : ReaderEntry)
    (res : WalkResult) (h : walk codecs fn rccRecurse fuel tr path e = some res) :
    (∀ msg, res.2 ≠ .panic msg) ∧ res.2 ≠ .ret (some .skipDir) := by
  obtain ⟨h1, h2⟩ := walk_noBareSkip codecs fn rccRecurse fuel tr path e res h
  refine ⟨h1, fun hc => ?_⟩
  have := h2 _ hc
  cases this

/-- C28 at the sample archive with the callback that returns the sentinel for every file. -/
theorem C28_walk_never_returns_bare_skipdir_witness :
    walk nullCodecs skipFiles false 3 [] [] sampleRootEntry =
        some ([{ path := [100], entry := sampleD, err := none },
               { path := [100, 47, 103], entry := sampleG, err := none },
               { path := [102], entry := sampleF, err := none }], .ret none) ∧
      (∀ msg, Outcome.ret none ≠ .panic msg) ∧ Outcome.ret none ≠ .ret (some .skipDir) :=
  ⟨by decide, C28_walk_never_returns_bare_skipdir nullCodecs skipFiles false 3 [] []
    sampleRootEntry
    ([{ path := [100], entry := sampleD, err := none },
      { path := [100, 47, 103], entry := sampleG, err := none },
      { path := [102], entry := sampleF, err := none }], .ret none) (by decide)⟩

theorem trimLeftSlash_noLeading : ∀ s : GoString, NoLeadingSlash (trimLeftSlash s) := by
  intro s
  induction s with
  | nil => intro rest h; cases h
  | cons b s ih =>
    by_cases hb : b = 0x2F
    · simp only [trimLeftSlash, hb, if_true]; exact ih
    · simp only [trimLeftSlash, hb, if_false]
      intro rest h
      injection h with h1 _
      exact hb h1

theorem trimLeftSlash_append_nil : ∀ a b : GoString,
    trimLeftSlash (a ++ b) = [] → trimLeftSlash b = [] := by
  intro a
  induction a with
  | nil => intro b h; exact h
  | cons x a ih =>
    intro b h
    by_cases hx : x = 0x2F
    · simp only [List.cons_append, trimLeftSlash, hx, if_true] at h
      exact ih b h
    · simp only [List.cons_append, trimLeftSlash, hx, if_false] at h
      cases h

/-- The arguments of the recursive call for a child satisfy what `walk` assumes of its
arguments: the path has no leading '/', and it is empty only if the name of the child is
empty or consists of '/' only. -/
theorem childArgs_ok (p : GoString) (v : ReaderEntry) :
    NoLeadingSlash (trimLeftSlash (p ++ [0x2F] ++ v.Name)) ∧
      (trimLeftSlash (p ++ [0x2F] ++ v.Name) = [] → trimLeftSlash v.Name = []) :=
  ⟨trimLeftSlash_noLeading _, trimLeftSlash_append_nil _ _⟩

theorem callAndReturn_congr (fn1 fn2 : WalkFunc) (tr : List Call) (c : Call)
    (h : SameButSkipOnFile c (fn1 tr c) (fn2 tr c)) :
    callAndReturn fn1 tr c = callAndReturn fn2 tr c := by
  unfold callAndReturn
  rcases h with h | ⟨_, h1, h2⟩
  · rw [h]
  · rcases h1 with h1 | h1 <;> rcases h2 with h2 | h2 <;> rw [h1, h2] <;> rfl

theorem walkChildren_congr
    (rec1 rec2 : List Call → GoString → ReaderEntry → Option WalkResult) (p : GoString)
    (hrec : ∀ tr cp e, NoLeadingSlash cp → (cp = [] → trimLeftSlash e.Name = []) →
      rec1 tr cp e = rec2 tr cp e) :
    ∀ (c : List ReaderEntry) (tr : List Call),
      walkChildren rec1 p c tr = walkChildren rec2 p c tr := by
  intro c
  induction c with
  | nil => intro tr; rfl
  | cons v c ih =>
    intro tr
    obtain ⟨h1, h2⟩ := childArgs_ok p v
    simp only [walkChildren]
    rw [hrec tr _ v h1 h2]
    cases rec2 tr (trimLeftSlash (p ++ [0x2F] ++ v.Name)) v with
    | none => rfl
    | some r =>
      obtain ⟨tr1, out⟩ := r
      cases out with
      | panic msg => rfl
      | ret err =>
        cases err with
        | none => exact ih tr1
        | some err => rfl

/-- The walk depends on the callback only through its results for invocations that satisfy
`PathOK`, and it does not tell nil from `filepath.SkipDir` for a file. -/
theorem walk_congr (codecs : Codecs) (fn1 fn2 : WalkFunc) (rr : Bool)
    (hfn : ∀ tr c, PathOK c → SameButSkipOnFile c (fn1 tr c) (fn2 tr c)) :
    ∀ (fuel : Nat) (tr : List Call) (p : GoString) (e : ReaderEntry),
      NoLeadingSlash p → (p = [] → trimLeftSlash e.Name = []) →
      walk codecs fn1 rr fuel tr p e = walk codecs fn2 rr fuel tr p e := by
  intro fuel
  induction fuel with
  | zero => intro tr p e _ _; rfl
  | succ fuel ih =>
    intro tr p e hp hname
    have hch := walkChildren_congr (walk codecs fn1 rr fuel) (walk codecs fn2 rr fuel) p
      (fun tr cp e h1 h2 => ih tr cp e h1 h2)
    rw [walk_succ, walk_succ]
    by_cases hd : e.IsDir = true
    · rw [if_pos hd, if_pos hd]
      cases hc : e.Children with
      | error err =>
        dsimp only
        by_cases hne : p = []
        · rw [if_pos hne, if_pos hne]
        · rw [if_neg hne, if_neg hne]
          rw [callAndReturn_congr fn1 fn2 tr _
            (hfn tr _ ⟨hp, fun h => absurd h hne⟩)]
      | ok c =>
        dsimp only
        by_cases hne : p = []
        · rw [if_neg (not_not.mpr hne), if_neg (not_not.mpr hne)]
          exact hch c tr
        · rw [if_pos hne, if_pos hne]
          have hsame := hfn tr { path := p, entry := e, err := none }
            ⟨hp, fun h => absurd h hne⟩
          have heq : fn1 tr { path := p, entry := e, err := none } =
              fn2 tr { path := p, entry := e, err := none } := by
            rcases hsame with h | ⟨h, _⟩
            · exact h
            · have h' : e.IsDir = false := h
              rw [hd] at h'; cases h'
          rw [heq]
          cases fn2 tr { path := p, entry := e, err := none } with
          | none => exact hch c _
          | some err => rfl
    · rw [if_neg hd, if_neg hd]
      have hd' : e.IsDir = false := by
        cases h : e.IsDir with
        | true => exact absurd h hd
        | false => rfl
      by_cases hr : (rr && decide (filepathExt p = dotRcc)) = true
      · rw [if_pos hr, if_pos hr]
        have hext : filepathExt p = dotRcc := by
          simp only [Bool.and_eq_true, decide_eq_true_eq] at hr
          exact hr.2
        have hne : p ≠ [] := filepathExt_ne_nil p hext
        cases hn : nestedRCC codecs p e with
        | error err =>
          dsimp only
          rw [callAndReturn_congr fn1 fn2 tr _ (hfn tr _ ⟨hp, fun h => absurd h hne⟩)]
        | ok r =>
          dsimp only
          rw [ih tr p { v := e.v, n := r.root, r := r } hp (fun h => absurd h hne)]
      · rw [if_neg hr, if_neg hr]
        rw [callAndReturn_congr fn1 fn2 tr _
          (hfn tr _ ⟨hp, fun h => ⟨hd', rfl, hname h⟩⟩)]

theorem callAndReturn_calls (fn : WalkFunc) (tr : List Call) (c : Call) (P : Call → Prop)
    (hc : P c) : ∃ calls, (callAndReturn fn tr c).1 = tr ++ calls ∧ ∀ q, q ∈ calls → P q := by
  refine ⟨[c], callAndReturn_fst fn tr c, ?_⟩
  intro q hq
  rw [List.mem_singleton] at hq
  rw [hq]; exact hc

theorem walkChildren_pathOK
    (rec : List Call → GoString → ReaderEntry → Option WalkResult) (p : GoString)
    (hrec : ∀ tr cp e res, NoLeadingSlash cp → (cp = [] → trimLeftSlash e.Name = []) →
      rec tr cp e = some res → ∃ calls, res.1 = tr ++ calls ∧ ∀ q, q ∈ calls → PathOK q) :
    ∀ (c : List ReaderEntry) (tr : List Call) (res : WalkResult),
      walkChildren rec p c tr = some res →
      ∃ calls, res.1 = tr ++ calls ∧ ∀ q, q ∈ calls → PathOK q := by
  intro c
  induction c with
  | nil =>
    intro tr res h
    simp only [walkChildren, Option.some.injEq] at h
    subst h
    exact ⟨[], by simp, fun q hq => absurd hq (List.not_mem_nil q)⟩
  | cons v c ih =>
    intro tr res h
    simp only [walkChildren] at h
    obtain ⟨ha1, ha2⟩ := childArgs_ok p v
    cases hv : rec tr (trimLeftSlash (p ++ [0x2F] ++ v.Name)) v with
    | none => rw [hv] at h; simp at h
    | some r =>
      rw [hv] at h
      obtain ⟨calls1, h1, hb⟩ := hrec _ _ _ _ ha1 ha2 hv
      obtain ⟨tr1, out⟩ := r
      simp only at h1
      subst h1
      cases out with
      | panic msg =>
        simp only [Option.some.injEq] at h
        subst h
        exact ⟨calls1, rfl, hb⟩
      | ret err =>
        cases err with
        | none =>
          dsimp only at h
          obtain ⟨calls2, h2, hb2⟩ := ih _ _ h
          refine ⟨calls1 ++ calls2, by rw [h2, List.append_assoc], ?_⟩
          intro q hq
          rcases List.mem_append.mp hq with hq | hq
          · exact hb q hq
          · exact hb2 q hq
        | some err =>
          dsimp only at h
          by_cases hs : err.isSkipDir = true
          · rw [if_pos hs] at h
            simp only [Option.some.injEq] at h
            subst h
            exact ⟨calls1, rfl, hb⟩
          · rw [if_neg hs] at h
            by_cases hp : p = []
            · rw [if_pos hp] at h
              simp only [Option.some.injEq] at h
              subst h
              exact ⟨calls1, rfl, hb⟩
            · rw [if_neg hp] at h
              simp only [Option.some.injEq] at h
              subst h
              exact ⟨calls1, rfl, hb⟩

/-- Every invocation that a call of `walk` makes satisfies `PathOK`. -/
theorem walk_pathOK (codecs : Codecs) (fn : WalkFunc) (rr : Bool) : ∀ (fuel : Nat)
    (tr : List Call) (p : GoString) (e : ReaderEntry) (res : WalkResult),
    NoLeadingSlash p → (p = [] → trimLeftSlash e.Name = []) →
    walk codecs fn rr fuel tr p e = some res →
    ∃ calls, res.1 = tr ++ calls ∧ ∀ q, q ∈ calls → PathOK q := by
  intro fuel
  induction fuel with
  | zero => intro tr p e res _ _ h; simp [walk] at h
  | succ fuel ih =>
    intro tr p e res hp hname h
    have hch := walkChildren_pathOK (walk codecs fn rr fuel) p
      (fun tr cp e res h1 h2 h3 => ih tr cp e res h1 h2 h3)
    rw [walk_succ] at h
    by_cases hd : e.IsDir = true
    · rw [if_pos hd] at h
      cases hc : e.Children with
      | error err =>
        rw [hc] at h
        dsimp only at h
        by_cases hne : p = []
        · rw [if_pos hne] at h
          simp only [Option.some.injEq] at h
          subst h
          exact ⟨[], by simp, fun q hq => absurd hq (List.not_mem_nil q)⟩
        · rw [if_neg hne] at h
          simp only [Option.some.injEq] at h
          subst h
          exact callAndReturn_calls fn tr _ PathOK ⟨hp, fun h => absurd h hne⟩
      | ok c =>
        rw [hc] at h
        dsimp only at h
        by_cases hne : p = []
        · rw [if_neg (not_not.mpr hne)] at h
          exact hch c tr res h
        · rw [if_pos hne] at h
          have hok : PathOK { path := p, entry := e, err := none } :=
            ⟨hp, fun h => absurd h hne⟩
          cases hf : fn tr { path := p, entry := e, err := none } with
          | none =>
            rw [hf] at h
            dsimp only at h
            obtain ⟨calls, h1, hb⟩ := hch c _ res h
            refine ⟨{ path := p, entry := e, err := none } :: calls, by rw [h1]; simp, ?_⟩
            intro q hq
            rcases List.mem_cons.mp hq with hq | hq
            · rw [hq]; exact hok
            · exact hb q hq
          | some err =>
            rw [hf] at h
            dsimp only at h
            refine ⟨[{ path := p, entry := e, err := none }], ?_, ?_⟩
            · split at h
              · simp only [Option.some.injEq] at h
                subst h; rfl
              · simp only [Option.some.injEq] at h
                subst h; rfl
            · intro q hq
              rw [List.mem_singleton] at hq
              rw [hq]; exact hok
    · rw [if_neg hd] at h
      have hd' : e.IsDir = false := by
        cases h' : e.IsDir with
        | true => exact absurd h' hd
        | false => rfl
      by_cases hr : (rr && decide (filepathExt p = dotRcc)) = true
      · rw [if_pos hr] at h
        have hext : filepathExt p = dotRcc := by
          simp only [Bool.and_eq_true, decide_eq_true_eq] at hr
          exact hr.2
        have hne : p ≠ [] := filepathExt_ne_nil p hext
        cases hn : nestedRCC codecs p e with
        | error err =>
          rw [hn] at h
          simp only [Option.some.injEq] at h
          subst h
          exact callAndReturn_calls fn tr _ PathOK ⟨hp, fun h => absurd h hne⟩
        | ok r =>
          rw [hn] at h
          dsimp only at h
          cases hw : walk codecs fn rr fuel tr p { v := e.v, n := r.root, r := r } with
          | none => rw [hw] at h; simp at h
          | some r1 =>
            rw [hw] at h
            obtain ⟨calls, h1, hb⟩ := ih _ _ _ _ hp (fun h => absurd h hne) hw
            obtain ⟨tr1, out⟩ := r1
            simp only at h1
            subst h1
            cases out with
            | panic msg =>
              simp only [Option.some.injEq] at h
              subst h
              exact ⟨calls, rfl, hb⟩
            | ret err =>
              cases err with
              | none =>
                simp only [Option.some.injEq] at h
                subst h
                exact ⟨calls, rfl, hb⟩
              | some err =>
                dsimp only at h
                split at h
                · simp only [Option.some.injEq] at h
                  subst h
                  exact ⟨calls, rfl, hb⟩
                · simp only [Option.some.injEq] at h
                  subst h
                  exact ⟨calls, rfl, hb⟩
      · rw [if_neg hr] at h
        simp only [Option.some.injEq] at h
        subst h
        exact callAndReturn_calls fn tr _ PathOK ⟨hp, fun h => ⟨hd', rfl, hname h⟩⟩

theorem noLeadingSlash_nil : NoLeadingSlash [] := by
  intro rest h; cases h

/-- C22: for every archive, every callback and either value of `rccRecurse`, every path that
`Walk` passes to the callback does not begin with '/': this holds of every invocation of a
run that returns, and for every depth bound the run is the same for any two callbacks that
agree on the invocations whose path does not begin with '/'. -/
theorem C22_no_leading_slash (codecs : Codecs) (rd : Reader) (fn : WalkFunc)
    (rccRecurse : Bool) (fuel : Nat) :
    (∀ calls out, rd.Walk codecs fn rccRecurse fuel = some (calls, out) →
      ∀ q, q ∈ calls → NoLeadingSlash q.path) ∧
    (∀ fn' : WalkFunc, (∀ tr c, NoLeadingSlash c.path → fn tr c = fn' tr c) →
      rd.Walk codecs fn rccRecurse fuel = rd.Walk codecs fn' rccRecurse fuel) := by
  constructor
  · intro calls out h q hq
    obtain ⟨calls', h1, hb⟩ := walk_pathOK codecs fn rccRecurse fuel [] []
      { v := [], n := rd.root, r := rd } (calls, out) noLeadingSlash_nil (fun _ => rfl) h
    simp only [List.nil_append] at h1
    subst h1
    exact (hb q hq).1
  · intro fn' hfn
    exact walk_congr codecs fn fn' rccRecurse (fun tr c hc => Or.inl (hfn tr c hc.1)) fuel [] []
      { v := [], n := rd.root, r := rd } noLeadingSlash_nil (fun _ => rfl)

theorem nested_outer_walk :
    nestedOuterReader.Walk nullCodecs nilFunc true 4 =
      some ([{ path := xRccPath, entry := xRccRoot, err := none },
             { path := xRccPath ++ [47, 121], entry := nestedY, err := none }],
            .ret none) := by
  rw [Reader.Walk, walk_succ]
  decide

/-- C22 at the outer sample archive with the nested rcc: the paths "x.rcc" and "x.rcc/y". -/
theorem C22_no_leading_slash_witness :
    nestedOuterReader.Walk nullCodecs nilFunc true 4 =
        some ([{ path := xRccPath, entry := xRccRoot, err := none },
               { path := xRccPath ++ [47, 121], entry := nestedY, err := none }],
              .ret none) ∧
      ∀ q, q ∈ [({ path := xRccPath, entry := xRccRoot, err := none } : Call),
                { path := xRccPath ++ [47, 121], entry := nestedY, err := none }] →
        NoLeadingSlash q.path :=
  ⟨nested_outer_walk,
   (C22_no_leading_slash nullCodecs nestedOuterReader nilFunc true 4).1 _ _ nested_outer_walk⟩

/-- C21, as stated, fails: `NewReader` accepts the archive whose root holds a file with the
empty name, and `Walk` reports that file with the empty path; it also accepts the archive
whose root record is a file record, and `Walk` reports the root itself with the empty
path. -/
theorem C21_counterexample :
    NewReader (.bytes emptyFileArchive) 1 0 34 28 = .ok emptyFileReader ∧
      emptyFileReader.Walk nullCodecs nilFunc false 2 =
        some ([{ path := [], entry := emptyFileEntry, err := none }], .ret none) ∧
      NewReader (.bytes rootFileArchive) 1 0 14 14 = .ok rootFileReader ∧
      rootFileReader.Walk nullCodecs nilFunc false 1 =
        some ([{ path := [],
                 entry := { v := [], n := rootFileReader.root, r := rootFileReader },
                 err := none }], .ret none) := by
  refine ⟨by decide, by decide, by decide, by decide⟩

/-- C21, amended: `Walk` never invokes the callback for a directory with the empty path, so
a root directory is never reported, and an entry whose name is not empty after its leading
'/' are removed is reported with a non-empty path. An invocation with the empty path is made
only for an entry that is not a directory, with a nil error, whose name is empty or consists
of '/' only. This holds of every invocation of a run that returns, and for every depth bound
the run is the same for any two callbacks that agree on all other invocations. -/
theorem C21_empty_path_only_for_unnamed_files (codecs : Codecs) (rd : Reader) (fn : WalkFunc)
    (rccRecurse : Bool) (fuel : Nat) :
    (∀ calls out, rd.Walk codecs fn rccRecurse fuel = some (calls, out) →
      ∀ q, q ∈ calls →
        (q.path = [] →
          q.entry.IsDir = false ∧ q.err = none ∧ trimLeftSlash q.entry.Name = []) ∧
        (q.entry.IsDir = true → q.path ≠ []) ∧
        (trimLeftSlash q.entry.Name ≠ [] → q.path ≠ [])) ∧
    (∀ fn' : WalkFunc, (∀ tr c, (c.path = [] → EmptyPathCall c) → fn tr c = fn' tr c) →
      rd.Walk codecs fn rccRecurse fuel = rd.Walk codecs fn' rccRecurse fuel) := by
  constructor
  · intro calls out h q hq
    obtain ⟨calls', h1, hb⟩ := walk_pathOK codecs fn rccRecurse fuel [] []
      { v := [], n := rd.root, r := rd } (calls, out) noLeadingSlash_nil (fun _ => rfl) h
    simp only [List.nil_append] at h1
    subst h1
    have hq2 := (hb q hq).2
    refine ⟨hq2, ?_, ?_⟩
    · intro hd hp
      have := (hq2 hp).1
      rw [hd] at this
      cases this
    · intro hn hp
      exact hn (hq2 hp).2.2
  · intro fn' hfn
    exact walk_congr codecs fn fn' rccRecurse (fun tr c hc => Or.inl (hfn tr c hc.2)) fuel [] []
      { v := [], n := rd.root, r := rd } noLeadingSlash_nil (fun _ => rfl)

theorem sample_nil_walk :
    sampleReader.Walk nullCodecs nilFunc false 3 =
      some ([{ path := [100], entry := sampleD, err := none },
             { path := [100, 47, 103], entry := sampleG, err := none },
             { path := [102], entry := sampleF, err := none }], .ret none) := by
  decide

/-- C21, amended, at the sample archive: the directory "d" is reported with a non-empty
path. -/
theorem C21_empty_path_only_for_unnamed_files_witness :
    sampleReader.Walk nullCodecs nilFunc false 3 =
        some ([{ path := [100], entry := sampleD, err := none },
               { path := [100, 47, 103], entry := sampleG, err := none },
               { path := [102], entry := sampleF, err := none }], .ret none) ∧
      (({ path := [100], entry := sampleD, err := none } : Call).path = [] →
          sampleD.IsDir = false ∧ (none : Option GoError) = none ∧
            trimLeftSlash sampleD.Name = []) ∧
        (sampleD.IsDir = true → ({ path := [100], entry := sampleD, err := none } : Call).path
          ≠ []) ∧
        (trimLeftSlash sampleD.Name ≠ [] →
          ({ path := [100], entry := sampleD, err := none } : Call).path ≠ []) :=
  ⟨sample_nil_walk,
   (C21_empty_path_only_for_unnamed_files nullCodecs sampleReader nilFunc false 3).1
    _ _ sample_nil_walk { path := [100], entry := sampleD, err := none }
    (List.mem_cons_self _ _)⟩

theorem skipFiles_same (tr : List Call) (c : Call) :
    SameButSkipOnFile c (skipFiles tr c) (nilFunc tr c) := by
  unfold skipFiles nilFunc
  cases h : c.entry.IsDir with
  | true => exact Or.inl (by simp)
  | false => exact Or.inr ⟨h, Or.inr (by simp), Or.inl rfl⟩

/-- C23: let two callbacks behave identically, except that for an invocation for a file
entry one may return `filepath.SkipDir` where the other returns nil. Then for every archive,
either value of `rccRecurse` and every depth bound `Walk` makes the same invocations and
returns the same result with both. Moreover, after a file for which the callback returns the
sentinel, the loop over the children of the parent goes on with the next sibling. -/
theorem C23_skipdir_on_file_is_noop (codecs : Codecs) (rd : Reader) (fn1 fn2 : WalkFunc)
    (rccRecurse : Bool) (h : ∀ tr c, SameButSkipOnFile c (fn1 tr c) (fn2 tr c)) :
    (∀ fuel, rd.Walk codecs fn1 rccRecurse fuel = rd.Walk codecs fn2 rccRecurse fuel) ∧
    (∀ (fuel : Nat) (parent : GoString) (v : ReaderEntry) (rest : List ReaderEntry)
      (tr : List Call), v.IsDir = false →
      (rccRecurse && decide (filepathExt (trimLeftSlash (parent ++ [0x2F] ++ v.Name)) = dotRcc))
        = false →
      fn1 tr { path := trimLeftSlash (parent ++ [0x2F] ++ v.Name), entry := v, err := none }
        = some .skipDir →
      walkChildren (walk codecs fn1 rccRecurse (fuel + 1)) parent (v :: rest) tr =
        walkChildren (walk codecs fn1 rccRecurse (fuel + 1)) parent rest
          (tr ++ [{ path := trimLeftSlash (parent ++ [0x2F] ++ v.Name), entry := v,
                    err := none }])) := by
  constructor
  · intro fuel
    exact walk_congr codecs fn1 fn2 rccRecurse (fun tr c _ => h tr c) fuel [] []
      { v := [], n := rd.root, r := rd } noLeadingSlash_nil (fun _ => rfl)
  · intro fuel parent v rest tr hfile hrcc hskip
    have hw : walk codecs fn1 rccRecurse (fuel + 1) tr
        (trimLeftSlash (parent ++ [0x2F] ++ v.Name)) v =
        some (tr ++ [{ path := trimLeftSlash (parent ++ [0x2F] ++ v.Name), entry := v,
                       err := none }], .ret none) := by
      rw [walk_succ]
      simp only [hfile, Bool.false_eq_true, if_false, hrcc, callAndReturn, hskip,
        GoError.isSkipDir, if_true]
    simp only [walkChildren, hw]

/-- C23 at the sample archive, with the callback that returns the sentinel for every file and
the callback that always returns nil. -/
theorem C23_skipdir_on_file_is_noop_witness :
    sampleReader.Walk nullCodecs skipFiles false 3 = sampleReader.Walk nullCodecs nilFunc false 3 ∧
      sampleReader.Walk nullCodecs nilFunc false 3 =
        some ([{ path := [100], entry := sampleD, err := none },
               { path := [100, 47, 103], entry := sampleG, err := none },
               { path := [102], entry := sampleF, err := none }], .ret none) :=
  ⟨(C23_skipdir_on_file_is_noop nullCodecs sampleReader skipFiles nilFunc false
      skipFiles_same).1 3, sample_nil_walk⟩

/-! ## Modification times -/

theorem toInt64_small (v : Nat) (h : v < 9223372036854775808) : toInt64 v = (v : Int) := by
  unfold toInt64
  have h1 : v % 18446744073709551616 = v := Nat.mod_eq_of_lt (by omega)
  rw [h1, if_pos h]

theorem ModTime_of_stored (n : Node) (hf : n.Format ≥ 2) (hm : n.Modified ≠ 0) :
    n.ModTime = { sec := ((n.Modified.val / 1000 : Nat) : Int), nsec := 0 } := by
  have hlt : n.Modified.val / 1000 < 9223372036854775808 := by
    have := n.Modified.isLt
    omega
  unfold Node.ModTime
  rw [if_neg (by
    rintro (h | h)
    · omega
    · exact hm h)]
  rw [toInt64_small _ hlt]
  simp [timeUnix]

/-- C24, as stated, fails: for the node of format 2 with the stored time 1500 ms, `ModTime`
is the time 1 s after the epoch, that is 1000 ms and not 1500 ms. -/
theorem C24_counterexample :
    modNode.Format ≥ 2 ∧ modNode.Modified.val = 1500 ∧
      modNode.ModTime = timeUnix 1 0 ∧ modNode.ModTime.UnixMilli = 1000 ∧
      modNode.ModTime.UnixMilli ≠ (modNode.Modified.val : Int) := by
  refine ⟨by decide, by decide, by decide, by decide, by decide⟩

/-- C24, amended: for every node of format version >= 2 with a non-zero stored
`modified_millis` m, `ModTime` is the time `m / 1000` whole seconds after the Unix epoch, with
no fraction of a second: in milliseconds it is m rounded down to a multiple of 1000, and it
equals m exactly when m is a multiple of 1000. -/
theorem C24_modtime_is_whole_seconds (n : Node) (hf : n.Format ≥ 2) (hm : n.Modified ≠ 0) :
    n.ModTime = timeUnix ((n.Modified.val / 1000 : Nat) : Int) 0 ∧
      n.ModTime.sec = ((n.Modified.val / 1000 : Nat) : Int) ∧ n.ModTime.nsec = 0 ∧
      n.ModTime.UnixMilli = ((n.Modified.val - n.Modified.val % 1000 : Nat) : Int) ∧
      (n.ModTime.UnixMilli = (n.Modified.val : Int) ↔ n.Modified.val % 1000 = 0) := by
  have h := ModTime_of_stored n hf hm
  have hu : n.ModTime.UnixMilli = ((n.Modified.val - n.Modified.val % 1000 : Nat) : Int) := by
    rw [h]
    simp only [GoTime.UnixMilli]
    have : (0 : Int).tdiv 1000000 = 0 := by decide
    rw [this]
    omega
  refine ⟨?_, ?_, ?_, hu, ?_⟩
  · rw [h]; simp [timeUnix]
  · rw [h]
  · rw [h]
  · rw [hu]; omega

/-- C24, amended, at the node with the stored time 1500 ms. -/
theorem C24_modtime_is_whole_seconds_witness :
    modNode.ModTime = timeUnix ((modNode.Modified.val / 1000 : Nat) : Int) 0 ∧
      modNode.ModTime.sec = ((modNode.Modified.val / 1000 : Nat) : Int) ∧
      modNode.ModTime.nsec = 0 ∧
      modNode.ModTime.UnixMilli =
        ((modNode.Modified.val - modNode.Modified.val % 1000 : Nat) : Int) ∧
      (modNode.ModTime.UnixMilli = (modNode.Modified.val : Int) ↔
        modNode.Modified.val % 1000 = 0) :=
  C24_modtime_is_whole_seconds modNode (by decide) (by decide)

/-- C25: for every node, `ModTime` is the zero time if and only if the format version of the
node is below 2 or its stored `Modified` value is 0 (the same for `IsZero`); in particular
every node that `ParseNode` returns for format 1 has a zero modification time. -/
theorem C25_zero_modtime (n : Node) :
    (n.ModTime = zeroTime ↔ n.Format < 2 ∨ n.Modified = 0) ∧
    (n.ModTime.IsZero = true ↔ n.Format < 2 ∨ n.Modified = 0) ∧
    (∀ (r r' : SectionReader) (m : Node), ParseNode r 1 = (.ok m, r') →
      m.ModTime = zeroTime ∧
        ∀ (v : GoString) (rd : Reader), ReaderEntry.ModTime { v := v, n := m, r := rd } = zeroTime)
    := by
  have key : n.ModTime = zeroTime ↔ n.Format < 2 ∨ n.Modified = 0 := by
    constructor
    · intro h
      by_contra hc
      have hf : n.Format ≥ 2 := by
        by_contra hf
        exact hc (Or.inl (by omega))
      have hm : n.Modified ≠ 0 := fun hm => hc (Or.inr hm)
      rw [ModTime_of_stored n hf hm] at h
      have hs := congrArg GoTime.sec h
      simp only [zeroTime] at hs
      omega
    · intro h
      unfold Node.ModTime
      rw [if_pos h]
  refine ⟨key, ?_, ?_⟩
  · rw [← key]
    unfold GoTime.IsZero
    rw [decide_eq_true_eq]
    constructor
    · intro h
      cases hn : n.ModTime with
      | mk s ns =>
        rw [hn] at h
        simp only at h
        rw [h.1, h.2]; rfl
    · intro h
      rw [h]; exact ⟨rfl, rfl⟩
  · intro r r' m h
    obtain ⟨_, _, _, bs, _, _, hn⟩ := (ParseNode_ok_iff r r' 1 m).1 h
    have hfm : m.Format = 1 := by rw [hn]; rfl
    have hz : m.ModTime = zeroTime := by
      unfold Node.ModTime
      rw [if_pos (Or.inl (by rw [hfm]; decide))]
    exact ⟨hz, fun _ _ => hz⟩

/-- C25 at the record of the file "f" of the sample archive, parsed with format 1. -/
theorem C25_zero_modtime_witness :
    sampleF.n.ModTime = zeroTime ∧
      ∀ (v : GoString) (rd : Reader),
        ReaderEntry.ModTime { v := v, n := sampleF.n, r := rd } = zeroTime :=
  (C25_zero_modtime sampleF.n).2.2 (NewSectionReader (.bytes sampleArchive) 28 14)
    { r := .bytes sampleArchive, base := 28, off := 42, limit := 42 } sampleF.n (by decide)

/-! ## The enumeration tables -/

/-- A call of `ParseC` either fails and leaves the tables as they are, or declares the name
of the line, which was not yet in `Value`, with a code `v`: a code given in decimal, for which
`Name` gets the name if the code has none yet, or the code of a name in `Value`. -/
theorem ParseC_cases (allLetters : GoString → Bool) (e : Enum) (line : GoString) :
    ((e.ParseC allLetters line).1 ≠ none ∧ (e.ParseC allLetters line).2 = e) ∨
    ((e.ParseC allLetters line).1 = none ∧ mapGet e.Value (lineName line) = none ∧
      ∃ v, (e.ParseC allLetters line).2.Value = (lineName line, v) :: e.Value ∧
        (((e.ParseC allLetters line).2.Name =
            match mapGet e.Name v with
            | some _ => e.Name
            | none => (v, lineName line) :: e.Name) ∨
          ((∃ b, mapGet e.Value b = some v) ∧ (e.ParseC allLetters line).2.Name = e.Name))) := by
  unfold Enum.ParseC lineName
  dsimp only
  split
  · exact Or.inl ⟨by simp, rfl⟩
  · split
    · exact Or.inl ⟨by simp, rfl⟩
    · split
      · exact Or.inl ⟨by simp, rfl⟩
      · split
        · exact Or.inl ⟨by simp, rfl⟩
        · rename_i hget
          split
          · rename_i v _
            exact Or.inr ⟨rfl, hget, v, rfl, Or.inl rfl⟩
          · split
            · rename_i v hb
              exact Or.inr ⟨rfl, hget, v, rfl, Or.inr ⟨⟨_, hb⟩, rfl⟩⟩
            · exact Or.inl ⟨by simp, rfl⟩

theorem firstDeclared_append (v : Int) (l1 l2 : List (GoString × Int)) :
    firstDeclared v (l1 ++ l2) =
      match firstDeclared v l1 with
      | some c => some c
      | none => firstDeclared v l2 := by
  induction l1 with
  | nil => rfl
  | cons p l1 ih =>
    obtain ⟨n, w⟩ := p
    simp only [List.cons_append, firstDeclared]
    split
    · rfl
    · exact ih

theorem firstDeclared_mem (v : Int) : ∀ (l : List (GoString × Int)) (n : GoString),
    (n, v) ∈ l → ∃ c, firstDeclared v l = some c := by
  intro l
  induction l with
  | nil => intro n h; cases h
  | cons p l ih =>
    intro n h
    obtain ⟨m, w⟩ := p
    simp only [firstDeclared]
    by_cases hw : w = v
    · rw [if_pos hw]; exact ⟨m, rfl⟩
    · rw [if_neg hw]
      rcases List.mem_cons.mp h with h | h
      · injection h with _ h2
        exact absurd h2.symm hw
      · exact ih n h

theorem firstDeclared_some (v : Int) : ∀ (l : List (GoString × Int)) (c : GoString),
    firstDeclared v l = some c → (c, v) ∈ l := by
  intro l
  induction l with
  | nil => intro c h; cases h
  | cons p l ih =>
    intro c h
    obtain ⟨m, w⟩ := p
    simp only [firstDeclared] at h
    by_cases hw : w = v
    · rw [if_pos hw] at h
      injection h with h
      rw [← h, hw]
      exact List.mem_cons_self _ _
    · rw [if_neg hw] at h
      exact List.mem_cons_of_mem _ (ih c h)

/-- A successful declaration keeps the invariant. -/
theorem EnumInv_step (allLetters : GoString → Bool) (e : Enum) (log : List (GoString × Int))
    (line : GoString) (hinv : EnumInv e log) :
    EnumInv (e.ParseC allLetters line).2
      (log ++ match (e.ParseC allLetters line).1 with
              | none => [(lineName line,
                  (mapGet (e.ParseC allLetters line).2.Value (lineName line)).getD 0)]
              | some _ => []) := by
  obtain ⟨i1, i2⟩ := hinv
  rcases ParseC_cases allLetters e line with ⟨herr, hsame⟩ | ⟨hok, hnew, v, hval, hname⟩
  · cases h : (e.ParseC allLetters line).1 with
    | none => exact absurd h herr
    | some err =>
      rw [hsame]
      simp only [List.append_nil]
      exact ⟨i1, i2⟩
  · rw [hok]
    have hget : mapGet (e.ParseC allLetters line).2.Value (lineName line) = some v := by
      rw [hval]; simp [mapGet]
    rw [hget]
    simp only [Option.getD_some]
    have hnot : ∀ w, (lineName line, w) ∉ log := by
      intro w hw
      have := (i1 _ _).2 hw
      rw [hnew] at this
      cases this
    constructor
    · intro n w
      rw [hval]
      simp only [mapGet, List.mem_append, List.mem_singleton, Prod.mk.injEq]
      by_cases hn : lineName line = n
      · rw [if_pos hn]
        constructor
        · intro h
          injection h with h
          exact Or.inr ⟨hn.symm, h.symm⟩
        · rintro (h | ⟨_, h⟩)
          · rw [← hn] at h
            exact absurd h (hnot w)
          · rw [h]
      · rw [if_neg hn, i1]
        constructor
        · intro h; exact Or.inl h
        · rintro (h | ⟨h, _⟩)
          · exact h
          · exact absurd h.symm hn
    · intro w
      rw [firstDeclared_append, ← i2 w]
      simp only [firstDeclared]
      rcases hname with hname | ⟨⟨b, hb⟩, hname⟩
      · rw [hname]
        by_cases hw : v = w
        · subst hw
          cases hc : mapGet e.Name v with
          | none => simp [mapGet]
          | some c => exact hc
        · cases hc : mapGet e.Name v with
          | none =>
            simp only [mapGet, if_neg hw]
            cases mapGet e.Name w with
            | none => rfl
            | some c => rfl
          | some c =>
            simp only [if_neg hw]
            cases mapGet e.Name w with
            | none => rfl
            | some c => rfl
      · rw [hname]
        by_cases hw : v = w
        · subst hw
          obtain ⟨c, hc⟩ := firstDeclared_mem v log b ((i1 _ _).1 hb)
          rw [i2 v, hc]
        · simp only [if_neg hw]
          cases mapGet e.Name w with
          | none => rfl
          | some c => rfl

theorem EnumInv_parseAll (allLetters : GoString → Bool) : ∀ (lines : List GoString) (e : Enum)
    (log : List (GoString × Int)), EnumInv e log →
    EnumInv (e.parseAll allLetters lines) (log ++ e.declared allLetters lines) := by
  intro lines
  induction lines with
  | nil =>
    intro e log h
    simp only [Enum.parseAll, Enum.declared, List.append_nil]
    exact h
  | cons line rest ih =>
    intro e log h
    have hs := EnumInv_step allLetters e log line h
    have := ih _ _ hs
    simp only [Enum.parseAll, Enum.declared]
    cases hr : (e.ParseC allLetters line).1 with
    | none =>
      rw [hr] at this
      simpa [List.append_assoc] using this
    | some err =>
      rw [hr] at this
      simpa using this

theorem EnumInv_new : EnumInv NewEnum [] := by
  constructor
  · intro n v; simp [NewEnum, mapGet]
  · intro v; rfl

/-- C26: starting from an empty `Enum`, after any sequence of `ParseC` calls, successful or
failing, every name `n` in `Value` has a canonical name `c = Name[Value[n]]` that is
defined; `c` is in `Value` with the same code as `n`; and `c` is the first name that was
declared with that code. -/
theorem C26_locale_aliasing (allLetters : GoString → Bool) (lines : List GoString)
    (n : GoString) (v : Int)
    (h : mapGet (NewEnum.parseAll allLetters lines).Value n = some v) :
    ∃ c, mapGet (NewEnum.parseAll allLetters lines).Name v = some c ∧
      mapGet (NewEnum.parseAll allLetters lines).Value c = some v ∧
      firstDeclared v (NewEnum.declared allLetters lines) = some c := by
  obtain ⟨i1, i2⟩ := EnumInv_parseAll allLetters lines NewEnum [] EnumInv_new
  simp only [List.nil_append] at i1 i2
  obtain ⟨c, hc⟩ := firstDeclared_mem v _ n ((i1 n v).1 h)
  refine ⟨c, ?_, ?_, hc⟩
  · rw [i2, hc]
  · exact (i1 c v).2 (firstDeclared_some v _ c hc)

/-- C26 at the sample lines: the alias "C" of "B" has the code 1, whose canonical name is
"A". -/
theorem C26_locale_aliasing_witness :
    mapGet (NewEnum.parseAll (fun _ => true) sampleEnumLines).Value (asciiBytes "C") = some 1 ∧
      NewEnum.declared (fun _ => true) sampleEnumLines =
        [(asciiBytes "A", 1), (asciiBytes "B", 1), (asciiBytes "C", 1)] ∧
      ∃ c, mapGet (NewEnum.parseAll (fun _ => true) sampleEnumLines).Name 1 = some c ∧
        mapGet (NewEnum.parseAll (fun _ => true) sampleEnumLines).Value c = some 1 ∧
        firstDeclared 1 (NewEnum.declared (fun _ => true) sampleEnumLines) = some c :=
  ⟨by decide, by decide,
   C26_locale_aliasing (fun _ => true) sampleEnumLines (asciiBytes "C") 1 (by decide)⟩

/-! ## A well-formed archive that cannot be listed -/

theorem ReadAt_bytes_prefix (pre rest : List Byte) (off len : Nat)
    (h : off + len ≤ pre.length) (hoff : off < pre.length) :
    (ReaderAt.bytes (pre ++ rest)).ReadAt (off : Int) len = ((pre.drop off).take len, none) := by
  rw [ReadAt_bytes_ok]
  refine ⟨by omega, ?_, ?_, ?_⟩
  · rw [List.length_append]; omega
  · rw [List.length_append, Int.toNat_ofNat]; omega
  · rw [Int.toNat_ofNat, List.drop_append_of_le_length (by omega),
      List.take_append_of_le_length (by rw [List.length_drop]; omega)]

theorem NewReader_of_ParseNode (r : ReaderAt) (f t d n : Int) (node : Node)
    (r' : SectionReader) (h : ParseNode (NewSectionReader r t maxInt32) f = (.ok node, r')) :
    NewReader r f t d n =
      .ok { format := f, reader := r, treeOffset := t, dataOffset := d, namesOffset := n,
            root := node } := by
  unfold NewReader
  rw [h]

theorem Children_one (n : Node) (tree : ReaderAt) (node : Node) (r' : SectionReader)
    (hd : n.IsDir = true) (hc : n.ChildCount.val = 1)
    (h : ParseNode (NewSectionReader tree ((n.ChildOffset.val : Int) * nodeSize n.Format)
      ((n.ChildCount.val : Int) * nodeSize n.Format)) n.Format = (.ok node, r')) :
    n.Children tree = .ok [node] := by
  unfold Node.Children
  rw [hd, hc] at *
  simp only [Bool.not_true, Bool.false_eq_true, if_false]
  rw [parseChildren_succ, h]
  rfl

theorem Children_of_name_error (e : ReaderEntry) (node : Node) (err : GoError)
    (hc : e.n.Children e.r.tree.toReaderAt = .ok [node])
    (hn : node.Name e.r.names.toReaderAt = .error err) :
    e.Children = .error (.wrapf "parse child %d: read name %w" [] err) := by
  unfold ReaderEntry.Children
  rw [hc]
  simp only [nameChildren, hn]

theorem Walk_of_root_listing_error (codecs : Codecs) (rd : Reader) (fn : WalkFunc) (rr : Bool)
    (fuel : Nat) (err : GoError) (hd : rd.root.IsDir = true)
    (hc : ReaderEntry.Children { v := [], n := rd.root, r := rd } = .error err) :
    rd.Walk codecs fn rr (fuel + 1) = some ([], .ret (some err)) := by
  have hd' : ReaderEntry.IsDir { v := [], n := rd.root, r := rd } = true := hd
  rw [Reader.Walk, walk_succ, if_pos hd', hc]
  rfl

theorem longName_read_root (t : List Byte) :
    (ReaderAt.bytes (longNameHead ++ t)).ReadAt 0 14 =
      ([0, 0, 0, 0, 0, 2, 0, 0, 0, 1, 0, 0, 0, 1], none) :=
  ReadAt_bytes_prefix longNameHead t 0 14 (by decide) (by decide)

theorem longName_parse_root (t : List Byte) :
    ParseNode (NewSectionReader (.bytes (longNameHead ++ t)) 0 maxInt32) 1 =
      (.ok (nodeOfBytes 1 [0, 0, 0, 0, 0, 2, 0, 0, 0, 1, 0, 0, 0, 1]),
       { NewSectionReader (.bytes (longNameHead ++ t)) 0 maxInt32 with
         off := (NewSectionReader (.bytes (longNameHead ++ t)) 0 maxInt32).off + nodeSize 1 }) :=
  ParseNode_of_read (NewSectionReader (.bytes (longNameHead ++ t)) 0 maxInt32) 1
    [0, 0, 0, 0, 0, 2, 0, 0, 0, 1, 0, 0, 0, 1] (by decide)
    (show nodeSize 1 ≤ (if (0 : Int) ≤ maxInt64 - maxInt32 then maxInt32 + 0 else maxInt64) - 0
      by decide)
    (longName_read_root t) (by decide)

theorem longName_root_node :
    nodeOfBytes 1 [0, 0, 0, 0, 0, 2, 0, 0, 0, 1, 0, 0, 0, 1] = nestedRoot := by decide

theorem longName_file_node :
    nodeOfBytes 1 [0, 0, 0, 0, 0, 0, 0, 0, 0, 0, 0, 0, 0, 0] = longNameFile := by decide

theorem longName_root (t : List Byte) :
    NewReader (.bytes (longNameHead ++ t)) 1 0 65570 28 = .ok (longNameReaderOf t) := by
  have h := NewReader_of_ParseNode (.bytes (longNameHead ++ t)) 1 0 65570 28 _ _
    (longName_parse_root t)
  rw [longName_root_node] at h
  exact h

theorem longName_read_file (t : List Byte) :
    (ReaderAt.sect (.bytes (longNameHead ++ t)) 0 maxInt32).ReadAt 14 14 =
      ([0, 0, 0, 0, 0, 0, 0, 0, 0, 0, 0, 0, 0, 0], none) :=
  (ReadAt_sect_ok _ _ _ _ _ _).2 ⟨by decide, by decide, by decide,
    ReadAt_bytes_prefix longNameHead t 14 14 (by decide) (by decide)⟩

theorem longName_parse_file (t : List Byte) :
    ParseNode (NewSectionReader (.sect (.bytes (longNameHead ++ t)) 0 maxInt32) 14 14) 1 =
      (.ok (nodeOfBytes 1 [0, 0, 0, 0, 0, 0, 0, 0, 0, 0, 0, 0, 0, 0]),
       { NewSectionReader (.sect (.bytes (longNameHead ++ t)) 0 maxInt32) 14 14 with
         off := (NewSectionReader (.sect (.bytes (longNameHead ++ t)) 0 maxInt32) 14 14).off
           + nodeSize 1 }) :=
  ParseNode_of_read (NewSectionReader (.sect (.bytes (longNameHead ++ t)) 0 maxInt32) 14 14) 1
    [0, 0, 0, 0, 0, 0, 0, 0, 0, 0, 0, 0, 0, 0] (by decide)
    (show nodeSize 1 ≤ (if (14 : Int) ≤ maxInt64 - 14 then 14 + 14 else maxInt64) - 14
      by decide)
    (longName_read_file t) (by decide)

theorem longName_children_nodes (t : List Byte) :
    (longNameReaderOf t).root.Children (longNameReaderOf t).tree.toReaderAt =
      .ok [longNameFile] := by
  have h := Children_one nestedRoot (.sect (.bytes (longNameHead ++ t)) 0 maxInt32) _ _
    (by decide) (by decide) (longName_parse_file t)
  rw [longName_file_node] at h
  exact h

theorem longName_read_length (t : List Byte) :
    (ReaderAt.sect (.bytes (longNameHead ++ t)) 28 (maxInt32 + 28)).ReadAt 0 2 =
      ([0x80, 0x00], none) :=
  (ReadAt_sect_ok _ _ _ _ _ _).2 ⟨by decide, by decide, by decide,
    ReadAt_bytes_prefix longNameHead t 28 2 (by decide) (by decide)⟩

theorem longName_name_fails (t : List Byte) :
    ∃ err, longNameFile.Name (longNameReaderOf t).names.toReaderAt = .error err :=
  Name_fails_of_long longNameFile (.sect (.bytes (longNameHead ++ t)) 28 (maxInt32 + 28))
    [0x80, 0x00]
    (sectionBinaryRead_of_ReadAt _ 0 2 _ (by decide) (by decide) (longName_read_length t))
    (by decide)

theorem longName_walk (t : List Byte) :
    ∃ err, ∀ (fn : WalkFunc) (rccRecurse : Bool) (fuel : Nat),
      (longNameReaderOf t).Walk nullCodecs fn rccRecurse (fuel + 1) =
        some ([], .ret (some err)) := by
  obtain ⟨err, herr⟩ := longName_name_fails t
  exact ⟨_, fun fn rr fuel =>
    Walk_of_root_listing_error nullCodecs (longNameReaderOf t) fn rr fuel _
      (show nestedRoot.IsDir = true by decide)
      (Children_of_name_error { v := [], n := (longNameReaderOf t).root, r := longNameReaderOf t }
        longNameFile err (longName_children_nodes t) herr)⟩

theorem longNameArchive_length : longNameArchive.length = 28 + (6 + 2 * 32768) + 4 := by
  unfold longNameArchive longNameTail
  rw [List.length_append, List.length_append, length_flatten_replicate_pair]
  rfl

/-- C2: the archive whose one file has a name of 32768 code units meets the conditions of
well-formedness: the root is a directory, the tree is the root and one file, the records of
the file and of its name lie inside the tree and names regions, and the name is 32768 times
'a', not empty and without '/'. `NewReader` accepts it. Yet the listing of the root fails
(`Node.Name` computes `length*2` at 16 bits), so for every callback and either value of
`rccRecurse` `Walk` returns that error and never invokes the callback: the file is not
reported. -/
theorem C2_long_name_breaks_traversal :
    NewReader (.bytes longNameArchive) 1 0 65570 28 = .ok longNameReader ∧
      longNameReader.root.IsDir = true ∧
      longNameReader.root.Children longNameReader.tree.toReaderAt = .ok [longNameFile] ∧
      longNameArchive.length = 28 + (6 + 2 * 32768) + 4 ∧
      (∃ err, longNameFile.Name longNameReader.names.toReaderAt = .error err) ∧
      ∃ err, ∀ (fn : WalkFunc) (rccRecurse : Bool) (fuel : Nat),
        longNameReader.Walk nullCodecs fn rccRecurse (fuel + 1) = some ([], .ret (some err)) :=
  ⟨longName_root longNameTail, by decide, longName_children_nodes longNameTail,
    longNameArchive_length, longName_name_fails longNameTail, longName_walk longNameTail⟩

/-! ## Nested archives whose root cannot be listed -/

/-- C18, as stated, fails: the contents of "x.rcc" parse as a standalone archive
(`NewReaderFromRCC` accepts them), but the root of that archive cannot be listed, and the one
invocation with the path "x.rcc" carries the listing error, not a nil error. -/
theorem C18_counterexample :
    NewReader (.bytes unlistableOuter) 1 0 44 28 = .ok unlistableOuterReader ∧
      unlistableEntry.IsDir = false ∧ filepathExt xRccPath = dotRcc ∧
      nestedRCC nullCodecs xRccPath unlistableEntry = .ok unlistableInnerReader ∧
      unlistableRoot.IsDir = true ∧
      unlistableOuterReader.Walk nullCodecs nilFunc true 4 =
        some ([{ path := xRccPath, entry := unlistableRoot,
                 err := some (.wrapf "walk: get children for dir %q: %w" xRccPath
                   emptyNameErr) }], .ret none) := by
  refine ⟨by decide, by decide, by decide, by decide, by decide, ?_⟩
  rw [Reader.Walk, walk_succ]
  decide

/-- The invocations of a call of `walk` at a non-empty path: exactly one for the path itself,
the first, and then only invocations for paths strictly below it. -/
theorem walk_first_call (codecs : Codecs) (fn : WalkFunc) (rr : Bool) : ∀ (fuel : Nat)
    (tr : List Call) (p : GoString) (e : ReaderEntry) (res : WalkResult),
    NoLeadingSlash p → p ≠ [] → walk codecs fn rr fuel tr p e = some res →
    ∃ c0 calls, res.1 = tr ++ c0 :: calls ∧ c0.path = p ∧ PathsBelow p calls := by
  intro fuel
  induction fuel with
  | zero => intro tr p e res _ _ h; simp [walk] at h
  | succ fuel ih =>
    intro tr p e res hp hne h
    have hnil : PathsBelow p [] := fun q hq => absurd hq (List.not_mem_nil q)
    have h0 := h
    rw [walk_succ] at h
    by_cases hd : e.IsDir = true
    · rw [if_pos hd] at h
      cases hc : e.Children with
      | error err =>
        rw [hc] at h
        dsimp only at h
        rw [if_neg hne] at h
        simp only [Option.some.injEq] at h
        subst h
        exact ⟨_, [], callAndReturn_fst fn tr _, rfl, hnil⟩
      | ok c =>
        obtain ⟨calls, h1, hb, _⟩ := walk_dir_shape codecs fn rr (fuel + 1) tr p e c res hd hc
          hp hne h0
        exact ⟨_, calls, h1, rfl, hb⟩
    · rw [if_neg hd] at h
      by_cases hr : (rr && decide (filepathExt p = dotRcc)) = true
      · rw [if_pos hr] at h
        cases hn : nestedRCC codecs p e with
        | error err =>
          rw [hn] at h
          simp only [Option.some.injEq] at h
          subst h
          exact ⟨_, [], callAndReturn_fst fn tr _, rfl, hnil⟩
        | ok r =>
          rw [hn] at h
          dsimp only at h
          cases hw : walk codecs fn rr fuel tr p { v := e.v, n := r.root, r := r } with
          | none => rw [hw] at h; simp at h
          | some r1 =>
            rw [hw] at h
            obtain ⟨c0, calls, h1, hc0, hb⟩ := ih _ _ _ _ hp hne hw
            obtain ⟨tr1, out⟩ := r1
            simp only at h1
            subst h1
            cases out with
            | panic msg =>
              simp only [Option.some.injEq] at h
              subst h
              exact ⟨c0, calls, rfl, hc0, hb⟩
            | ret err =>
              cases err with
              | none =>
                simp only [Option.some.injEq] at h
                subst h
                exact ⟨c0, calls, rfl, hc0, hb⟩
              | some err =>
                dsimp only at h
                split at h
                · simp only [Option.some.injEq] at h
                  subst h
                  exact ⟨c0, calls, rfl, hc0, hb⟩
                · simp only [Option.some.injEq] at h
                  subst h
                  exact ⟨c0, calls, rfl, hc0, hb⟩
      · rw [if_neg hr] at h
        simp only [Option.some.injEq] at h
        subst h
        exact ⟨_, [], callAndReturn_fst fn tr _, rfl, hnil⟩

/-- The walk of a nested rcc whose root is a directory that cannot be listed: the one
invocation is for the nested root, at the path of the rcc, with the listing error. -/
theorem walk_nested_unlistable (codecs : Codecs) (fn : WalkFunc) (tr : List Call)
    (path : GoString) (entry : ReaderEntry) (r : Reader) (err : GoError) (fuel : Nat)
    (hfile : entry.IsDir = false) (hext : filepathExt path = dotRcc)
    (hopen : nestedRCC codecs path entry = .ok r) (hroot : r.root.IsDir = true)
    (hlist : ReaderEntry.Children { v := entry.v, n := r.root, r := r } = .error err) :
    ∃ out, walk codecs fn true (fuel + 2) tr path entry =
      some (tr ++ [{ path := path, entry := { v := entry.v, n := r.root, r := r },
                     err := some (.wrapf "walk: get children for dir %q: %w" path err) }],
            out) := by
  have hne := filepathExt_ne_nil path hext
  have hd : ReaderEntry.IsDir { v := entry.v, n := r.root, r := r } = true := hroot
  have hw := (walk_listing_error codecs fn true fuel tr path
    { v := entry.v, n := r.root, r := r } err hd hlist).1 hne
  rw [walk_succ]
  simp only [hfile, Bool.false_eq_true, if_false, hext, decide_True, Bool.and_self, if_true,
    hopen, hw]
  unfold callAndReturn
  cases fn tr { path := path, entry := { v := entry.v, n := r.root, r := r },
                err := some (.wrapf "walk: get children for dir %q: %w" path err) } with
  | none => exact ⟨_, rfl⟩
  | some e =>
    dsimp only
    cases hs : e.isSkipDir with
    | true => exact ⟨_, rfl⟩
    | false => exact ⟨_, rfl⟩

/-- C18, amended: let `entry` be a file at a path with extension ".rcc" and without a leading
'/' (as every path that `walk` builds), and let `NewReaderFromRCC` accept its decoded
contents. That alone is not enough; let moreover the root of the nested archive be a
directory, let the listing of that root succeed, and let the nested tree be finite. Then
with `rccRecurse = true`, `walk` returns and invokes the callback first with the path of the
rcc, a nil error and the nested root, for which `IsDir` is true; every later invocation is
for a path that begins with the path of the rcc and '/', so none is for the path of the rcc
again; and there is no later invocation if the callback does not return nil for the nested
root. If in addition the entries below the nested root are those of a forest in which every
directory can be listed, every name is non-empty and contains no '/', and no path below the
rcc has the extension ".rcc", then with the callback that always returns nil the
invocations that follow are exactly the pre-order listing of that forest below the path of
the rcc, and `walk` returns nil. If instead the root of the nested archive is a directory
whose listing fails, `walk` returns after one invocation, for the nested root, with the path
of the rcc and the listing error wrapped by "walk: get children for dir %q: %w": not a nil
error. With `rccRecurse = false`, for every file entry and whatever the codecs, the entry is
reported once as an ordinary file: its data is not opened. -/
theorem C18_nested_archive_is_walked_as_directory (codecs : Codecs) (fn : WalkFunc)
    (tr : List Call) (path : GoString) (entry : ReaderEntry)
    (hfile : entry.IsDir = false) :
    (∀ (r : Reader) (c : List ReaderEntry), filepathExt path = dotRcc →
      NoLeadingSlash path → nestedRCC codecs path entry = .ok r → r.root.IsDir = true →
      ReaderEntry.Children { v := entry.v, n := r.root, r := r } = .ok c →
      FiniteTree codecs true path { v := entry.v, n := r.root, r := r } →
      (∃ N, ∀ fuel, N ≤ fuel → ∃ calls out,
        walk codecs fn true fuel tr path entry =
          some (tr ++ { path := path, entry := { v := entry.v, n := r.root, r := r },
                        err := none } :: calls, out) ∧
        ReaderEntry.IsDir { v := entry.v, n := r.root, r := r } = true ∧
        PathsBelow path calls ∧ (∀ q, q ∈ calls → q.path ≠ path) ∧
        (fn tr { path := path, entry := { v := entry.v, n := r.root, r := r }, err := none }
          ≠ none → calls = [])) ∧
      (∀ f : Forest, Encodes c f → f.NamesOK → f.NoRcc path → ∀ fuel, f.depth + 2 ≤ fuel →
        walk codecs nilFunc true fuel tr path entry =
          some (tr ++ { path := path, entry := { v := entry.v, n := r.root, r := r },
                        err := none } :: f.preorder path, .ret none))) ∧
    (∀ (r : Reader) (err : GoError), filepathExt path = dotRcc →
      nestedRCC codecs path entry = .ok r → r.root.IsDir = true →
      ReaderEntry.Children { v := entry.v, n := r.root, r := r } = .error err →
      ∀ fuel, ∃ out, walk codecs fn true (fuel + 2) tr path entry =
        some (tr ++ [{ path := path, entry := { v := entry.v, n := r.root, r := r },
                       err := some (.wrapf "walk: get children for dir %q: %w" path err) }],
              out)) ∧
    (∀ (codecs' : Codecs) (fuel : Nat),
      walk codecs' fn false (fuel + 1) tr path entry =
        some (callAndReturn fn tr { path := path, entry := entry, err := none })) := by
  refine ⟨fun r c hext hnl hopen hroot hlist hfin => ⟨?_, ?_⟩,
    fun r err hext hopen hroot hlist fuel =>
      walk_nested_unlistable codecs fn tr path entry r err fuel hfile hext hopen hroot hlist,
    ?_⟩
  · obtain ⟨N, hN⟩ := walk_nested_shape codecs fn tr path entry r c hfile hext hnl hopen hroot
      hlist hfin
    refine ⟨N, fun fuel hf => ?_⟩
    obtain ⟨calls, out, h1, hb, hs⟩ := hN fuel hf
    exact ⟨calls, out, h1, hroot, hb, PathsBelow_ne path calls hb, hs⟩
  · intro f henc hnames hrcc fuel hf
    have hne := filepathExt_ne_nil path hext
    obtain ⟨k, rfl⟩ : ∃ k, fuel = k + 2 := ⟨fuel - 2, by omega⟩
    have hd : ReaderEntry.IsDir { v := entry.v, n := r.root, r := r } = true := hroot
    rw [walk_succ]
    simp only [hfile, Bool.false_eq_true, if_false, hext, decide_True, Bool.and_self, if_true,
      hopen]
    rw [walk_succ, if_pos hd, hlist]
    simp only [ne_eq, hne, not_false_eq_true, if_true, nilFunc]
    rw [walkChildren_encodes_rcc codecs true c f henc hnames path _ k hnl hrcc (by omega)]
    simp
  · intro codecs' fuel
    rw [walk_succ]
    simp only [hfile, Bool.false_eq_true, if_false, Bool.false_and]

/-- C18, amended, at the file "x.rcc" of the outer sample archive: with `rccRecurse = true` the
invocations are "x.rcc" (the nested root, a directory) and "x.rcc/y"; with
`rccRecurse = false` the file is reported as it is. -/
theorem C18_nested_archive_is_walked_as_directory_witness :
    walk nullCodecs nilFunc true 3 [] xRccPath xRccEntry =
        some ([] ++ { path := xRccPath,
                      entry := { v := xRccEntry.v, n := nestedInnerReader.root,
                                 r := nestedInnerReader },
                      err := none } :: (Forest.cons nestedY .nil .nil).preorder xRccPath,
              .ret none) ∧
      walk passCodecs nilFunc false (0 + 1) [] xRccPath xRccEntry =
        some (callAndReturn nilFunc [] { path := xRccPath, entry := xRccEntry, err := none }) :=
  ⟨((C18_nested_archive_is_walked_as_directory nullCodecs nilFunc [] xRccPath xRccEntry
      (by decide)).1 nestedInnerReader [nestedY] (by decide) xRcc_noLeading nested_open
      (by decide) nested_root_children nested_finite).2 (.cons nestedY .nil .nil)
      nested_encodes (by simp only [Forest.NamesOK, and_true]; decide)
      (by simp only [Forest.NoRcc, and_true]; decide) 3 (by decide),
   (C18_nested_archive_is_walked_as_directory nullCodecs nilFunc [] xRccPath xRccEntry
      (by decide)).2.2 passCodecs 0⟩

/-- C19, amended: with `rccRecurse = true` the descent into a nested archive is not silent.
For a file entry at a path with extension ".rcc" (a path `walk` builds has no leading '/'):
(1) if opening, reading or parsing the nested archive fails, the one invocation is for the
file entry, with the path of the rcc and that error; (2) if it succeeds, the nested root is a
directory that can be listed and the nested tree is finite, `walk` returns and its first
invocation is for the nested root, with the path of the rcc and a nil error, and no later
invocation has that path; (3) if it succeeds and the nested root is a directory that cannot
be listed, the one invocation is for the nested root, with the path of the rcc and the
listing error; (4) in every case in which the tree below the entry is finite, `walk` returns
and makes exactly one invocation with the path of the rcc, the first, every other invocation
being for a path that begins with the path of the rcc and '/'. -/
theorem C19_rcc_path_is_reported_in_both_cases (codecs : Codecs) (fn : WalkFunc)
    (tr : List Call) (path : GoString) (entry : ReaderEntry)
    (hfile : entry.IsDir = false) (hext : filepathExt path = dotRcc)
    (hnl : NoLeadingSlash path) :
    (∀ err, nestedRCC codecs path entry = .error err → ∀ fuel,
      walk codecs fn true (fuel + 1) tr path entry =
        some (callAndReturn fn tr { path := path, entry := entry, err := some err })) ∧
    (∀ (r : Reader) (c : List ReaderEntry), nestedRCC codecs path entry = .ok r →
      r.root.IsDir = true →
      ReaderEntry.Children { v := entry.v, n := r.root, r := r } = .ok c →
      FiniteTree codecs true path { v := entry.v, n := r.root, r := r } →
      ∃ N, ∀ fuel, N ≤ fuel → ∃ calls out,
        walk codecs fn true fuel tr path entry =
          some (tr ++ { path := path, entry := { v := entry.v, n := r.root, r := r },
                        err := none } :: calls, out) ∧
        ∀ q, q ∈ calls → q.path ≠ path) ∧
    (∀ (r : Reader) (err : GoError), nestedRCC codecs path entry = .ok r →
      r.root.IsDir = true →
      ReaderEntry.Children { v := entry.v, n := r.root, r := r } = .error err →
      ∀ fuel, ∃ out, walk codecs fn true (fuel + 2) tr path entry =
        some (tr ++ [{ path := path, entry := { v := entry.v, n := r.root, r := r },
                       err := some (.wrapf "walk: get children for dir %q: %w" path err) }],
              out)) ∧
    (FiniteTree codecs true path entry →
      ∃ N, ∀ fuel, N ≤ fuel → ∃ c0 calls out,
        walk codecs fn true fuel tr path entry = some (tr ++ c0 :: calls, out) ∧
        c0.path = path ∧
        ∀ q, q ∈ calls → q.path ≠ path ∧ (path ++ [0x2F]) <+: q.path) := by
  refine ⟨?_, ?_, ?_, ?_⟩
  · intro err herr fuel
    rw [walk_succ]
    simp only [hfile, Bool.false_eq_true, if_false, hext, decide_True, Bool.and_self, if_true,
      herr]
  · intro r c hopen hroot hlist hfin
    obtain ⟨N, hN⟩ := walk_nested_shape codecs fn tr path entry r c hfile hext hnl hopen hroot
      hlist hfin
    refine ⟨N, fun fuel hf => ?_⟩
    obtain ⟨calls, out, h1, hb, _⟩ := hN fuel hf
    exact ⟨calls, out, h1, PathsBelow_ne path calls hb⟩
  · intro r err hopen hroot hlist fuel
    exact walk_nested_unlistable codecs fn tr path entry r err fuel hfile hext hopen hroot hlist
  · intro hfin
    obtain ⟨N, hN⟩ := walk_returns_of_finite codecs true path entry hfin
    refine ⟨N, fun fuel hf => ?_⟩
    obtain ⟨res, hres⟩ := hN fuel hf fn tr
    obtain ⟨c0, calls, h1, hc0, hb⟩ := walk_first_call codecs fn true fuel tr path entry res hnl
      (filepathExt_ne_nil path hext) hres
    refine ⟨c0, calls, res.2, ?_, hc0, fun q hq => ⟨PathsBelow_ne path calls hb q hq, hb q hq⟩⟩
    rw [hres, ← h1]

/-- C19, amended, at the file "x.rcc" of the outer sample archive (case 2) and at the file
"x.rcc" whose nested root cannot be listed (case 3). -/
theorem C19_rcc_path_is_reported_in_both_cases_witness :
    (∃ N, ∀ fuel, N ≤ fuel → ∃ calls out,
      walk nullCodecs nilFunc true fuel [] xRccPath xRccEntry =
        some ([] ++ { path := xRccPath,
                      entry := { v := xRccEntry.v, n := nestedInnerReader.root,
                                 r := nestedInnerReader },
                      err := none } :: calls, out) ∧
      ∀ q, q ∈ calls → q.path ≠ xRccPath) ∧
    ∀ fuel, ∃ out, walk nullCodecs nilFunc true (fuel + 2) [] xRccPath unlistableEntry =
      some ([] ++ [{ path := xRccPath,
                     entry := { v := unlistableEntry.v, n := unlistableInnerReader.root,
                                r := unlistableInnerReader },
                     err := some (.wrapf "walk: get children for dir %q: %w" xRccPath
                       emptyNameErr) }], out) :=
  ⟨(C19_rcc_path_is_reported_in_both_cases nullCodecs nilFunc [] xRccPath xRccEntry (by decide)
      (by decide) xRcc_noLeading).2.1 nestedInnerReader [nestedY] nested_open (by decide)
      nested_root_children nested_finite,
   (C19_rcc_path_is_reported_in_both_cases nullCodecs nilFunc [] xRccPath unlistableEntry
      (by decide) (by decide) xRcc_noLeading).2.2.1 unlistableInnerReader emptyNameErr
      (by decide) (by decide) (by decide)⟩

end Qrc
